import Mathlib

/-!
# Device model and threshold/interval engine of `tui-demos`

A shallow embedding of `src/devices/devices.h`, `src/devices/devices.cc` and the
classification helpers of `src/devices/dui.cc`.

Modelling conventions

* C++ `float` and `double` values are embedded as rationals (`ℚ`). Comparisons and
  `std::max` are exact. Every arithmetic operation, literal and conversion of the source is
  the exact value followed by the rounding of its result type, taken from a `Rounding`:
  `ieee` is IEEE-754 binary32 / binary64, round to nearest, ties to even (each operation
  rounded on its own, none fused), `unrounded` is exact arithmetic. Theorems are stated for
  every `Rounding` with the properties `Rounding.Lawful`, which `ieee` has (`ieee_lawful`),
  and evaluated on `ieee`.
* A division by zero gives a non-finite `float`, embedded as `none` (`float_div`); overflow
  of the finite range is not represented.
* `std::optional<T>` is `Option T`; a call of `.value()` on an empty optional throws
  `std::bad_optional_access`, embedded as the result `none` of the enclosing function.
* `std::rand()` is an explicit argument of the functions that call it.
* `std::vector` is `List`; `std::array<_, hist_size>` is a `List` of length `hist_size`.
* `std::sort` over `std::pair<float, float>` (lexicographic `operator<`) is embedded as
  insertion sort with the same comparison: on a total order both produce the unique
  ascending arrangement of the input.
-/

namespace Devices

/-- Source `enum class Type { Analog, Digital }` (devices.h). -/
inductive DeviceType where
  | Analog
  | Digital
  deriving DecidableEq, Repr

/-- Source `enum class Modality { In, InOut }` (devices.h). -/
inductive Modality where
  | In
  | InOut
  deriving DecidableEq, Repr

/-- The `ftxui::Color` constants the device code uses. -/
inductive Color where
  | Default
  | Red1
  | Yellow1
  | Green1
  deriving DecidableEq, Repr

/-- The `ftxui::Decorator` values the device code builds: `color(Color)` and
`color(LinearGradient)`; a gradient is its angle and its stops in insertion order. The
position of a stop is a `float`: `some q` a finite one, `none` a non-finite one (NaN or
an infinity). -/
inductive Decorator where
  | color (c : Color)
  | gradient (angle : Nat) (stops : List (Color × Option ℚ))
  deriving DecidableEq, Repr

/-- Source `Device::hist_size`. -/
def hist_size : Nat := 200

/-! ## Floating-point rounding (definitions) -/

/-- The power `2 ^ e` for an integer exponent `e`. -/
def pow2 (e : Int) : ℚ :=
  if 0 ≤ e then ((2 ^ e.toNat : Nat) : ℚ) else 1 / ((2 ^ (-e).toNat : Nat) : ℚ)

/-- Rounding to the nearest integer, a tie to the even one (IEEE-754 roundTiesToEven). -/
def round_half_even (t : ℚ) : Int :=
  let f := Rat.floor t
  let r := t - f
  if r < 1 / 2 then f
  else if 1 / 2 < r then f + 1
  else if f % 2 = 0 then f else f + 1

/-- The position of the leading binary digit of `n` (`0` for `n < 2`), by halving at most
`fuel` times. -/
def log2_fuel : Nat → Nat → Nat
  | 0, _ => 0
  | fuel + 1, n => if n < 2 then 0 else log2_fuel fuel (n / 2) + 1

/-- The binary exponent of `q ≠ 0`: the `e` with `2 ^ e ≤ |q| < 2 ^ (e + 1)`. -/
def exponent (q : ℚ) : Int :=
  let k : Int := (log2_fuel q.num.natAbs q.num.natAbs : Int) - (log2_fuel q.den q.den : Int)
  if pow2 k ≤ |q| then k else k - 1

/-- IEEE-754 rounding of `q` to the binary format with `p` significand bits and least
normal exponent `emin`: the nearest multiple of the unit in the last place of `q` (that of
the least normal number for a subnormal `q`), a tie to the even multiple. -/
def float_round (p : Nat) (emin : Int) (q : ℚ) : ℚ :=
  if q = 0 then 0
  else
    let e := max (exponent q) emin
    let ulp := pow2 (e - (p - 1))
    round_half_even (q / ulp) * ulp

/-- How results of type `float` (`f32`) and `double` (`f64`) are rounded. -/
structure Rounding where
  f32 : ℚ → ℚ
  f64 : ℚ → ℚ

/-- The C++ `float` and `double` of the platforms the program builds for: IEEE-754
binary32 and binary64, round to nearest, ties to even. -/
def ieee : Rounding := ⟨float_round 24 (-126), float_round 53 (-1022)⟩

/-- Exact arithmetic: no result is rounded. -/
def unrounded : Rounding := ⟨id, id⟩

/-- The quotient of two `float`s: `none` stands for the non-finite result (NaN or an
infinity) of a division by zero. -/
def float_div (R : Rounding) (a b : ℚ) : Option ℚ :=
  if b = 0 then none else some (R.f32 (a / b))

/-- The properties of round-to-nearest the proofs use: both roundings are monotone,
rounding a `float` again as `float` or as `double` changes nothing, `n / 2 ^ k` with
`|n| ≤ 2 ^ 24` and `k ≤ 149` is a `float`, zero is a `double`, and up to magnitude `2` a
`float` result is within `2 ^ -24` and a `double` result within `2 ^ -53` of the exact
one, and the difference of two distinct `float`s does not round to zero. -/
structure Rounding.Lawful (R : Rounding) : Prop where
  f32_mono : ∀ a b : ℚ, a ≤ b → R.f32 a ≤ R.f32 b
  f64_mono : ∀ a b : ℚ, a ≤ b → R.f64 a ≤ R.f64 b
  f32_idem : ∀ q : ℚ, R.f32 (R.f32 q) = R.f32 q
  f64_f32 : ∀ q : ℚ, R.f64 (R.f32 q) = R.f32 q
  f32_dyadic : ∀ (n : Int) (k : Nat), |n| ≤ 2 ^ 24 → k ≤ 149 →
    R.f32 ((n : ℚ) / 2 ^ k) = (n : ℚ) / 2 ^ k
  f64_zero : R.f64 0 = 0
  f32_near : ∀ q : ℚ, |q| ≤ 2 → |R.f32 q - q| ≤ 1 / 2 ^ 24
  f64_near : ∀ q : ℚ, |q| ≤ 2 → |R.f64 q - q| ≤ 1 / 2 ^ 53
  f32_sub_pos : ∀ a b : ℚ, R.f32 a = a → R.f32 b = b → a < b → 0 < R.f32 (b - a)

/-- Source `class Device` (devices.h): the data members. -/
structure Device where
  name : String
  pin : Nat
  type : DeviceType
  modality : Modality
  is_active_low : Option Bool
  units : Option String
  units_abbreviation : Option String
  abs_min : Option Nat
  abs_max : Option Nat
  rel_min : Option ℚ
  rel_max : Option ℚ
  warnings : List (ℚ × ℚ)
  cautions : List (ℚ × ℚ)
  optimals : List (ℚ × ℚ)
  ui_thresholds : Decorator
  _value_analog : ℚ
  _value_digital : Int
  _value_analog_hist : List ℚ
  _value_digital_hist : List Int

/-- Source `in_intervals` (devices.cc:140): linear scan, the first interval with
`value >= first && value < second` ends the loop with `true`. -/
def in_intervals (value : ℚ) : List (ℚ × ℚ) → Bool
  | [] => false
  | interval :: rest =>
    if value ≥ interval.1 ∧ value < interval.2 then true else in_intervals value rest

/-- Source `Device::is_warning` (devices.cc:152). -/
def Device.is_warning (d : Device) (value : ℚ) : Bool := in_intervals value d.warnings

/-- Source `Device::is_caution` (devices.cc:156). -/
def Device.is_caution (d : Device) (value : ℚ) : Bool := in_intervals value d.cautions

/-- Source `Device::is_optimal` (devices.cc:160). -/
def Device.is_optimal (d : Device) (value : ℚ) : Bool := in_intervals value d.optimals

/-- Source `operator<` of `std::pair<float, float>`: lexicographic on `(first, second)`. -/
def pair_lt (a b : ℚ × ℚ) : Prop := a.1 < b.1 ∨ (¬ b.1 < a.1 ∧ a.2 < b.2)

instance : DecidableRel pair_lt := fun a b => by unfold pair_lt; infer_instance

/-- The order `std::sort` arranges by: `a` may precede `b` when `b < a` does not hold. -/
def pair_le (a b : ℚ × ℚ) : Prop := ¬ pair_lt b a

instance : DecidableRel pair_le := fun a b => by unfold pair_le; infer_instance

/-- Source `std::sort(sorted.begin(), sorted.end())` (devices.cc:189). -/
def sort_intervals (intervals : List (ℚ × ℚ)) : List (ℚ × ℚ) :=
  List.insertionSort pair_le intervals

/-- Source devices.cc:195-204, the merge loop: `cur_start`, `cur_end` are the loop
variables, the argument list is `sorted[i..]`, the result is what the loop and the final
`merged.push_back` append to `merged`. -/
def merge_loop (cur_start cur_end : ℚ) : List (ℚ × ℚ) → List (ℚ × ℚ)
  | [] => [(cur_start, cur_end)]
  | s :: rest =>
    if s.1 ≤ cur_end then merge_loop cur_start (max cur_end s.2) rest
    else (cur_start, cur_end) :: merge_loop s.1 s.2 rest

/-- Source devices.cc:188-204: sort the bands and merge them into runs (`merged`).
The source only reaches this with a non-empty list. -/
def merge_intervals (intervals : List (ℚ × ℚ)) : List (ℚ × ℚ) :=
  match sort_intervals intervals with
  | [] => []
  | s0 :: rest => merge_loop s0.1 s0.2 rest

/-- Source devices.cc:207-216, the gap loop: `prev_end` is the loop variable, the
argument list is the rest of `merged`, the result is what the loop and the trailing
`if (prev_end < rel_max.value())` append to `result`. -/
def gaps_loop (prev_end rel_max : ℚ) : List (ℚ × ℚ) → List (ℚ × ℚ)
  | [] => if prev_end < rel_max then [(prev_end, rel_max)] else []
  | interval :: rest =>
    if interval.1 > prev_end then
      (prev_end, interval.1) :: gaps_loop (max prev_end interval.2) rel_max rest
    else gaps_loop (max prev_end interval.2) rel_max rest

/-- Source `Device::find_uncovered_intervals` (devices.cc:177). `none` is the
`std::bad_optional_access` thrown by `rel_min.value()` / `rel_max.value()`. -/
def Device.find_uncovered_intervals (d : Device) : Option (List (ℚ × ℚ)) :=
  let intervals := d.warnings ++ d.cautions ++ d.optimals
  if intervals.isEmpty then
    match d.rel_min, d.rel_max with
    | some lo, some hi => some [(lo, hi)]
    | _, _ => none
  else
    let merged := merge_intervals intervals
    match d.rel_min, d.rel_max with
    | some lo, some hi => some (gaps_loop lo hi merged)
    | _, _ => none

/-- Source `intervals_to_color[interval] = color` on a
`std::map<std::pair<float, float>, Color>` (devices.cc:233): the map is the list of its
entries in ascending key order; an equivalent key keeps its entry and takes the new colour,
a new key is inserted at its place in the order. -/
def map_assign (interval : ℚ × ℚ) (color : Color) :
    List ((ℚ × ℚ) × Color) → List ((ℚ × ℚ) × Color)
  | [] => [(interval, color)]
  | e :: rest =>
    if pair_lt interval e.1 then (interval, color) :: e :: rest
    else if pair_lt e.1 interval then e :: map_assign interval color rest
    else (e.1, color) :: rest

/-- Source lambda `add_to_map` (devices.cc:228). -/
def add_to_map (intervals_to_color : List ((ℚ × ℚ) × Color)) (intervals : List (ℚ × ℚ))
    (color : Color) : List ((ℚ × ℚ) × Color) :=
  intervals.foldl (fun m interval => map_assign interval color m) intervals_to_color

/-- Source lambda `normalize` (devices.cc:244): a difference, a difference and a quotient
of `float`s, each rounded. The outer `none` is the `std::bad_optional_access` of
`rel_min.value()` / `rel_max.value()`; the inner `none` is the non-finite quotient the
source computes when `rel_max - rel_min` is zero. -/
def Device.normalize (R : Rounding) (d : Device) (value : ℚ) : Option (Option ℚ) :=
  match d.rel_min, d.rel_max with
  | some lo, some hi => some (float_div R (R.f32 (value - lo)) (R.f32 (hi - lo)))
  | _, _ => none

/-- Source lambda `set_stops` (devices.cc:241): every map entry, in key order, appends
two stops of its colour to the gradient `lg`. -/
def Device.set_stops (R : Rounding) (d : Device) (lg : List (Color × Option ℚ)) :
    List ((ℚ × ℚ) × Color) → Option (List (Color × Option ℚ))
  | [] => some lg
  | e :: rest =>
    match d.normalize R e.1.1, d.normalize R e.1.2 with
    | some mn, some mx => d.set_stops R (lg ++ [(e.2, mn), (e.2, mx)]) rest
    | _, _ => none

/-- Source `Device::set_ui_thresholds` (devices.cc:220). `none` is an escaping
`std::bad_optional_access`. -/
def Device.set_ui_thresholds (R : Rounding) (d : Device) : Option Device :=
  let d := { d with ui_thresholds := Decorator.color Color.Default }
  if d.type = DeviceType.Analog then
    match d.find_uncovered_intervals with
    | none => none
    | some uncovered =>
      let intervals_to_color := add_to_map [] d.warnings Color.Red1
      let intervals_to_color := add_to_map intervals_to_color d.cautions Color.Yellow1
      let intervals_to_color := add_to_map intervals_to_color d.optimals Color.Green1
      let intervals_to_color := add_to_map intervals_to_color uncovered Color.Default
      match d.set_stops R [] intervals_to_color with
      | none => none
      | some stops => some { d with ui_thresholds := Decorator.gradient 270 stops }
  else some d

/-- Source expression `value * (rel_max - rel_min) + rel_min` of `value_color` and
`value_text` (dui.cc:28, 60): a difference, a product and a sum of `float`s, each
rounded to `float`. -/
def scale_value (R : Rounding) (value rel_max rel_min : ℚ) : ℚ :=
  R.f32 (R.f32 (value * R.f32 (rel_max - rel_min)) + rel_min)

/-- Source `value_color` (dui.cc:23). `none` is the `std::bad_optional_access` of
`device.rel_max.value()` / `device.rel_min.value()`. -/
def value_color (R : Rounding) (device : Device) (value : ℚ) : Option Decorator :=
  match device.type with
  | DeviceType.Analog =>
    match device.rel_max, device.rel_min with
    | some rel_max, some rel_min =>
      let value_scaled := scale_value R value rel_max rel_min
      if device.is_warning value_scaled then some (Decorator.color Color.Red1)
      else if device.is_caution value_scaled then some (Decorator.color Color.Yellow1)
      else if device.is_optimal value_scaled then some (Decorator.color Color.Green1)
      else some (Decorator.color Color.Default)
    | _, _ => none
  | DeviceType.Digital => some (Decorator.color Color.Default)

/-- Source `float val = _value_analog - 0.005;` (devices.cc:74): the literal `0.005` is
a `double`, the difference is a `double`, and the initialisation rounds it to `float`. -/
def decreased (R : Rounding) (value : ℚ) : ℚ :=
  R.f32 (R.f64 (value - R.f64 0.005))

/-- Source `float val = _value_analog + 0.005;` (devices.cc:80), rounded as `decreased`. -/
def increased (R : Rounding) (value : ℚ) : ℚ :=
  R.f32 (R.f64 (value + R.f64 0.005))

/-- Source `Device::update_value` (devices.cc:69); `rand` is the `float`
`static_cast<float>(std::rand()) / RAND_MAX` drawn by the call. The literals `0.4`, `0.6`,
`0.99` are `double`s (`R.f64` of the decimal), `0.01f`, `0.99f` are `float`s (`R.f32` of
the decimal). -/
def Device.update_value (R : Rounding) (d : Device) (rand : ℚ) : Device :=
  match d.type with
  | DeviceType.Analog =>
    if rand ≤ R.f64 0.4 then
      let val := decreased R d._value_analog
      let val := if val ≤ 0.0 then R.f32 0.01 else val
      { d with _value_analog := val }
    else if rand ≥ R.f64 0.6 then
      let val := increased R d._value_analog
      let val := if val ≥ 1.0 then R.f32 0.99 else val
      { d with _value_analog := val }
    else d
  | DeviceType.Digital =>
    if rand ≥ R.f64 0.99 then
      { d with _value_digital := if d._value_digital = 1 then 0 else 1 }
    else d

/-- A run of `update_value` calls, one per drawn value, in order. -/
def Device.update_values (R : Rounding) (d : Device) (rands : List ℚ) : Device :=
  rands.foldl (Device.update_value R) d

/-- The spec's `contains`: some interval `[lo, hi)` of the list has `lo ≤ v < hi`. -/
def Covered (v : ℚ) (intervals : List (ℚ × ℚ)) : Prop :=
  ∃ i ∈ intervals, i.1 ≤ v ∧ v < i.2

/-- Runs laid out left to right from `p` on: every run starts at or after the end of the
one before it (at or after `p` for the first) and does not end before it starts. -/
def RunsFrom (p : ℚ) : List (ℚ × ℚ) → Prop
  | [] => True
  | x :: rest => p ≤ x.1 ∧ x.1 ≤ x.2 ∧ RunsFrom x.2 rest

/-- The gaps tile the range `[lo, hi)` together with the merged runs: the gaps are in
ascending order and pairwise disjoint (each ends where or before every later one starts),
no value lies in a gap and in a run, and a value lies in a gap or a run exactly when it
lies in the range. Every interval, the range included, is read half-open. -/
def TilesRange (gaps merged : List (ℚ × ℚ)) (lo hi : ℚ) : Prop :=
  gaps.Pairwise (fun a b => a.2 ≤ b.1) ∧
  (∀ v, ¬ (Covered v gaps ∧ Covered v merged)) ∧
  (∀ v, Covered v gaps ∨ Covered v merged ↔ lo ≤ v ∧ v < hi)

/-- An Analog device with the given range and bands, as input of the examples; the
fields no classification reads are fixed. -/
def analog_example (rel_min rel_max : ℚ) (warnings cautions optimals : List (ℚ × ℚ)) :
    Device :=
  { name := "A0", pin := 0, type := DeviceType.Analog, modality := Modality.In,
    is_active_low := none, units := none, units_abbreviation := none,
    abs_min := some 0, abs_max := some 0, rel_min := some rel_min, rel_max := some rel_max,
    warnings := warnings, cautions := cautions, optimals := optimals,
    ui_thresholds := Decorator.color Color.Default,
    _value_analog := 0.5, _value_digital := 0,
    _value_analog_hist := List.replicate hist_size 0,
    _value_digital_hist := List.replicate hist_size 0 }

/-- An Analog device whose live value is `x`, as input of the examples of the walk. -/
def analog_at (x : ℚ) : Device :=
  { analog_example 0 1 [] [] [] with _value_analog := x }

/-- An Analog device whose ring of Analog values holds `x` in every slot, as input of
the examples of the resampling. -/
def analog_ring (x : ℚ) : Device :=
  { analog_example 0 1 [] [] [] with _value_analog_hist := List.replicate hist_size x }

/-- A Digital device with the given live value and band fields, as input of the
examples. -/
def digital_example (value : Int) (rel_min rel_max : Option ℚ)
    (warnings cautions optimals : List (ℚ × ℚ)) : Device :=
  { name := "D0", pin := 0, type := DeviceType.Digital, modality := Modality.In,
    is_active_low := some false, units := none, units_abbreviation := none,
    abs_min := none, abs_max := none, rel_min := rel_min, rel_max := rel_max,
    warnings := warnings, cautions := cautions, optimals := optimals,
    ui_thresholds := Decorator.color Color.Red1,
    _value_analog := 0, _value_digital := value,
    _value_analog_hist := List.replicate hist_size 0,
    _value_digital_hist := List.replicate hist_size 0 }

/-! ## History ring, resampling and kind switching (definitions) -/

/-- Source `Device::record_value_to_hist` (devices.cc:99): each ring is rotated left by
one place (`std::rotate(begin, begin + 1, end)`) and its last slot `hist_size - 1` is
overwritten with the live value of its kind. -/
def Device.record_value_to_hist (d : Device) : Device :=
  { d with
    _value_analog_hist := (d._value_analog_hist.rotate 1).set (hist_size - 1) d._value_analog,
    _value_digital_hist :=
      (d._value_digital_hist.rotate 1).set (hist_size - 1) d._value_digital }

/-- Source `_value_analog.store(a)` and `_value_digital.store(g)`: the live values a
recording tick finds. -/
def Device.store_values (d : Device) (v : ℚ × Int) : Device :=
  { d with _value_analog := v.1, _value_digital := v.2 }

/-- A run of recording ticks: before tick `k` the live values are `vs[k]` (analog,
digital), then `record_value_to_hist` runs. -/
def Device.record_ticks (d : Device) (vs : List (ℚ × Int)) : Device :=
  vs.foldl (fun d v => (d.store_values v).record_value_to_hist) d

/-- Source implicit conversion `float → int` of `transform.push_back(vals[index] * height)`
in `get_value_analog_transform`: truncation toward zero (a value outside the range of `int`
is undefined in the source). -/
def float_to_int (q : ℚ) : Int := if 0 ≤ q then Int.floor q else Int.ceil q

/-- Source `int index = vals.size() * i / width` (devices.cc:113, 124) for the loop
values `0 ≤ i < width`: an unsigned division, the product fits the unsigned type. -/
def hist_index (size i width : Nat) : Nat := size * i / width

/-- Source `Device::get_value_analog_transform` (devices.cc:108). The loop
`for (int i = 0; i < width; i++)` runs over `i = 0 .. width - 1` and not at all when
`width ≤ 0`; `getD` stands for `vals[index]`, whose index is below the ring length. In
`vals[index] * height` the `int` `height` is converted to `float` and the product is a
`float`, both rounded, before `push_back` converts it to `int`. -/
def Device.get_value_analog_transform (R : Rounding) (d : Device) (width height : Int) :
    List Int :=
  (List.range width.toNat).map (fun i =>
    float_to_int
      (R.f32
        (d._value_analog_hist.getD (hist_index d._value_analog_hist.length i width.toNat) 0
          * R.f32 height)))

/-- Source `Device::get_value_digital_transform` (devices.cc:119). -/
def Device.get_value_digital_transform (d : Device) (width height : Int) : List Int :=
  (List.range width.toNat).map (fun i =>
    d._value_digital_hist.getD (hist_index d._value_digital_hist.length i width.toNat) 0
      * height)

/-- Source `Device::get_value_transform` (devices.cc:130). -/
def Device.get_value_transform (R : Rounding) (d : Device) (width height : Int) : List Int :=
  match d.type with
  | DeviceType.Analog => d.get_value_analog_transform R width height
  | DeviceType.Digital => d.get_value_digital_transform width height

/-- Source `Device::clear_optionals` (devices.h:90). -/
def Device.clear_optionals (d : Device) : Device :=
  { d with
    is_active_low := none, units := none, units_abbreviation := none,
    abs_min := none, abs_max := none, rel_min := none, rel_max := none,
    warnings := [], cautions := [], optimals := [],
    _value_analog := 0, _value_digital := 0 }

/-- Source `Device::to_in` (devices.h:107). -/
def Device.to_in (d : Device) : Device := { d with modality := Modality.In }

/-- Source `Device::to_in_out` (devices.h:109). -/
def Device.to_in_out (d : Device) : Device := { d with modality := Modality.InOut }

/-- Source `Device::to_digital` (devices.h:111); `rand` is the value of `std::rand()`. -/
def Device.to_digital (d : Device) (is_active_low : Bool) (rand : Nat) : Device :=
  { d.clear_optionals with
    type := DeviceType.Digital, is_active_low := some is_active_low,
    _value_digital := ((rand % 2 : Nat) : Int) }

/-- Source `units.value().substr(units.value().find(",") + 1)` under the guard
`units.value().find(",") != std::string::npos` (devices.h:124): the text after the first
comma, when there is a comma. -/
def abbreviation_of (units : String) : Option String :=
  if ',' ∈ units.data then
    some (String.mk ((units.data.dropWhile (fun c => c != ',')).drop 1))
  else none

/-- Source `Device::to_analog` (devices.h:118); `rand` is the value
`static_cast<float>(std::rand()) / RAND_MAX`. -/
def Device.to_analog (d : Device) (units : Option String) (abs_min abs_max : Nat)
    (rel_min rel_max : ℚ) (rand : ℚ) : Device :=
  { d.clear_optionals with
    type := DeviceType.Analog, units := units,
    units_abbreviation := units.bind abbreviation_of,
    abs_min := some abs_min, abs_max := some abs_max,
    rel_min := some rel_min, rel_max := some rel_max,
    _value_analog := rand }

/-- Source local `intervals_to_color` of `Device::set_ui_thresholds` after the four
`add_to_map` calls (devices.cc:227-239), the band map; `none` is the
`std::bad_optional_access` of `find_uncovered_intervals`. -/
def Device.intervals_to_color (d : Device) : Option (List ((ℚ × ℚ) × Color)) :=
  match d.find_uncovered_intervals with
  | none => none
  | some uncovered =>
    let intervals_to_color := add_to_map [] d.warnings Color.Red1
    let intervals_to_color := add_to_map intervals_to_color d.cautions Color.Yellow1
    let intervals_to_color := add_to_map intervals_to_color d.optimals Color.Green1
    some (add_to_map intervals_to_color uncovered Color.Default)

/-! ## Loading the collection (definitions)

The toml++ library is not part of the repository; a table enters the model as what the
library calls of `from_toml` report for it. -/

/-- What toml++ reports for one key of a table when the source reads
`table->get(key)->value<T>()`: `absent` when `get` returns a null pointer, `mistyped` when
the node exists and `value<T>()` is an empty optional, `value v` when it holds `v`. -/
inductive TomlField (α : Type) where
  | absent
  | mistyped
  | value (v : α)

/-- One table of a `Warnings` / `Cautions` / `Optimals` array as `parse_pairs` reads it:
`none` when `get("min")` (`get("max")`) is a null pointer, else the result of
`value_or<float>(0.0)`. -/
structure TomlInterval where
  min : Option ℚ
  max : Option ℚ

/-- One device table as `from_toml` reads it. A band array is `none` when the guard of
`parse_pairs` (key present, an array, an array of tables) is false. -/
structure DeviceTable where
  name : TomlField String
  pin : TomlField Nat
  is_active_low : TomlField Bool
  units : TomlField String
  abs_min : TomlField Nat
  abs_max : TomlField Nat
  rel_min : TomlField ℚ
  rel_max : TomlField ℚ
  Warnings : Option (List TomlInterval)
  Cautions : Option (List TomlInterval)
  Optimals : Option (List TomlInterval)

/-- The parsed file as `from_toml` reads it: `config["Devices"][type][modality]` is `none`
when `is_array_of_tables()` is false, else the tables of the array. -/
def Config : Type := DeviceType → Modality → Option (List DeviceTable)

/-- How the body of the `try` block of `from_toml` ends, with the collection as it is at
that moment: `done` at the end of the loops, `thrown` when `std::bad_optional_access`
leaves the block, `undefined` when a null pointer is dereferenced. -/
inductive Outcome where
  | done (devices : List Device)
  | thrown (devices : List Device)
  | undefined

/-- Source `table->get(key)->value<T>().value()` followed by the rest `k` of the block. -/
def TomlField.required {α : Type} (f : TomlField α) (devices : List Device)
    (k : α → Outcome) : Outcome :=
  match f with
  | TomlField.absent => Outcome.undefined
  | TomlField.mistyped => Outcome.thrown devices
  | TomlField.value v => k v

/-- Source constructor `Device(name, pin)` (devices.h:85): optionals empty, band lists
empty, both rings zero. `uninit` holds the members the constructor does not set from its
arguments (`type`, `modality`, the live values, `ui_thresholds`). -/
def Device.construct (name : String) (pin : Nat) (uninit : Device) : Device :=
  { uninit with
    name := name, pin := pin,
    is_active_low := none, units := none, units_abbreviation := none,
    abs_min := none, abs_max := none, rel_min := none, rel_max := none,
    warnings := [], cautions := [], optimals := [],
    _value_analog_hist := List.replicate hist_size 0,
    _value_digital_hist := List.replicate hist_size 0 }

/-- Source `parse_pairs` (devices.cc:164): appends one pair per table of the array to
`intervals`; `none` is the null pointer dereference of a table without `min` or `max`. -/
def parse_pairs (node : Option (List TomlInterval)) (intervals : List (ℚ × ℚ)) :
    Option (List (ℚ × ℚ)) :=
  match node with
  | none => some intervals
  | some toml_intervals =>
    toml_intervals.foldlM (fun acc interval =>
      match interval.min, interval.max with
      | some mn, some mx => some (acc ++ [(mn, mx)])
      | _, _ => none) intervals

/-- Source devices.cc:324, the closing `dev->set_ui_thresholds()` of the loop body, `dev`
being the last element of the collection. -/
def load_finish (R : Rounding) (devices : List Device) (dev : Device) : Outcome :=
  match dev.set_ui_thresholds R with
  | some dev => Outcome.done (devices ++ [dev])
  | none =>
    Outcome.thrown (devices ++ [{ dev with ui_thresholds := Decorator.color Color.Default }])

/-- Source devices.cc:275-324, the body of the innermost loop of `from_toml` for one
device table: `name` and `pin` are read, the device is appended to the collection
(`devices.emplace_back`), then modality and the fields of the kind are read into it.
`rand_int` is the `std::rand()` of `to_digital`, `rand_unit` the
`static_cast<float>(std::rand()) / RAND_MAX` of `to_analog`. -/
def load_device (R : Rounding) (uninit : Device) (rand_int : Nat) (rand_unit : ℚ)
    (type : DeviceType) (modality : Modality) (devices : List Device)
    (d_table : DeviceTable) : Outcome :=
  d_table.name.required devices fun name =>
  d_table.pin.required devices fun pin =>
    let dev := Device.construct name pin uninit
    let dev := match modality with
      | Modality.In => dev.to_in
      | Modality.InOut => dev.to_in_out
    match type with
    | DeviceType.Digital =>
      d_table.is_active_low.required (devices ++ [dev]) fun is_active_low =>
        load_finish R devices (dev.to_digital is_active_low rand_int)
    | DeviceType.Analog =>
      match d_table.units with
      | TomlField.absent => Outcome.undefined
      | units =>
        let units : Option String := match units with
          | TomlField.value u => some u
          | _ => none
        d_table.abs_min.required (devices ++ [dev]) fun abs_min =>
        d_table.abs_max.required (devices ++ [dev]) fun abs_max =>
        d_table.rel_min.required (devices ++ [dev]) fun rel_min =>
        d_table.rel_max.required (devices ++ [dev]) fun rel_max =>
          let dev := dev.to_analog units abs_min abs_max rel_min rel_max rand_unit
          match parse_pairs d_table.Warnings dev.warnings with
          | none => Outcome.undefined
          | some warnings =>
            let dev := { dev with warnings := warnings }
            match parse_pairs d_table.Cautions dev.cautions with
            | none => Outcome.undefined
            | some cautions =>
              let dev := { dev with cautions := cautions }
              match parse_pairs d_table.Optimals dev.optimals with
              | none => Outcome.undefined
              | some optimals => load_finish R devices { dev with optimals := optimals }

/-- Source `all_types` (devices.h:31). -/
def all_types : List DeviceType := [DeviceType.Analog, DeviceType.Digital]

/-- Source `all_modalities` (devices.h:46). -/
def all_modalities : List Modality := [Modality.In, Modality.InOut]

/-- The device tables in the order the three nested loops of `from_toml` visit them. -/
def config_tables (config : Config) : List (DeviceType × Modality × DeviceTable) :=
  all_types.flatMap fun type =>
    all_modalities.flatMap fun modality =>
      match config type modality with
      | none => []
      | some tables => tables.map fun d_table => (type, modality, d_table)

/-- The loops of `from_toml` over the tables still to visit; the device loaded when the
collection holds `n` devices uses the draws `rand_int n`, `rand_unit n`. -/
def load_devices (R : Rounding) (uninit : Device) (rand_int : Nat → Nat)
    (rand_unit : Nat → ℚ) :
    List (DeviceType × Modality × DeviceTable) → List Device → Outcome
  | [], devices => Outcome.done devices
  | (type, modality, d_table) :: rest, devices =>
    match load_device R uninit (rand_int devices.length) (rand_unit devices.length)
        type modality devices d_table with
    | Outcome.done devices => load_devices R uninit rand_int rand_unit rest devices
    | outcome => outcome

/-- Source `Devices::from_toml` (devices.cc:259). `config` is `none` when
`toml::parse_file` throws `toml::parse_error`; the `catch` clauses end the function with the
collection as the exception left it. The result is the collection on return, `none` when
a null pointer was dereferenced. -/
def from_toml (R : Rounding) (uninit : Device) (rand_int : Nat → Nat) (rand_unit : Nat → ℚ)
    (devices : List Device) (config : Option Config) : Option (List Device) :=
  match config with
  | none => some devices
  | some config =>
    match load_devices R uninit rand_int rand_unit (config_tables config) devices with
    | Outcome.done devices => some devices
    | Outcome.thrown devices => some devices
    | Outcome.undefined => none

/-- A Digital device table whose `is_active_low` holds `is_active_low`, as input of the
examples. -/
def digital_table (name : String) (pin : Nat) (is_active_low : TomlField Bool) :
    DeviceTable :=
  { name := TomlField.value name, pin := TomlField.value pin,
    is_active_low := is_active_low, units := TomlField.absent,
    abs_min := TomlField.absent, abs_max := TomlField.absent,
    rel_min := TomlField.absent, rel_max := TomlField.absent,
    Warnings := none, Cautions := none, Optimals := none }

/-- An Analog device table whose `rel_min` holds `rel_min`, as input of the examples. -/
def analog_table (name : String) (pin : Nat) (rel_min : TomlField ℚ) : DeviceTable :=
  { name := TomlField.value name, pin := TomlField.value pin,
    is_active_low := TomlField.absent, units := TomlField.value "Volt,V",
    abs_min := TomlField.value 0, abs_max := TomlField.value 1023,
    rel_min := rel_min, rel_max := TomlField.value 5,
    Warnings := none, Cautions := none, Optimals := none }

/-- A file whose only device array is `Devices.<type>.In`, holding `tables`. -/
def config_of (type : DeviceType) (tables : List DeviceTable) : Config :=
  fun t m => if t = type ∧ m = Modality.In then some tables else none

/-! ## Value text and gradient layout (definitions) -/

/-- The `ftxui::Element` values `value_text` builds: `text(s)`, `e | decorator`,
`hbox(a, b)` and `e | bold`. -/
inductive Element where
  | text (s : String)
  | decorated (e : Element) (d : Decorator)
  | hbox (a b : Element)
  | bold (e : Element)

/-- Source `value_text` (dui.cc:54). `float_to_string` is the two-decimal formatter of
devices.h, taken as a parameter; `none` is the `std::bad_optional_access` of
`rel_max.value()`, `rel_min.value()` or `is_active_low.value()`. -/
def value_text (R : Rounding) (float_to_string : ℚ → String) (device : Device)
    (value : ℚ) : Option Element :=
  match device.type with
  | DeviceType.Analog =>
    match device.rel_max, device.rel_min with
    | some rel_max, some rel_min =>
      let value_scaled := scale_value R value rel_max rel_min
      let value_str := float_to_string value_scaled
      let units_abbreviation_str :=
        match device.units_abbreviation with
        | some abbreviation => " " ++ abbreviation
        | none => ""
      match value_color R device value with
      | some color =>
        some (Element.bold (Element.hbox (Element.decorated (Element.text value_str) color)
          (Element.text units_abbreviation_str)))
      | none => none
    | _, _ => none
  | DeviceType.Digital =>
    match device.is_active_low with
    | some is_active_low =>
      let value_str :=
        if is_active_low then (if value = 0 then "Active" else "Inactive")
        else (if value = 0 then "Inactive" else "Active")
      some (Element.bold (Element.text value_str))
    | none => none

/-- Intervals laid end to end from `p` to `q`: the first starts at `p`, each next one
starts where the one before ends, the last ends at `q`. -/
def Chained (p q : ℚ) : List (ℚ × ℚ) → Prop
  | [] => p = q
  | x :: rest => x.1 = p ∧ Chained x.2 q rest

/-- Two bands do not overlap: one ends where or before the other starts. -/
def Apart (a b : ℚ × ℚ) : Prop := a.2 ≤ b.1 ∨ b.2 ≤ a.1

/-! ## Floating-point rounding -/

theorem pow2_eq (e : Int) : pow2 e = (2 : ℚ) ^ e := by
  unfold pow2
  split_ifs with h
  · obtain ⟨n, rfl⟩ := Int.eq_ofNat_of_zero_le h
    simp
  · push_neg at h
    obtain ⟨n, hn⟩ := Int.eq_ofNat_of_zero_le (neg_nonneg.2 h.le)
    have : e = -(n : Int) := by omega
    subst this
    simp

theorem pow2_pos (e : Int) : 0 < pow2 e := by
  rw [pow2_eq]; positivity

theorem pow2_add (a b : Int) : pow2 (a + b) = pow2 a * pow2 b := by
  simp only [pow2_eq]
  exact zpow_add₀ (by norm_num) a b

theorem pow2_le {a b : Int} (h : a ≤ b) : pow2 a ≤ pow2 b := by
  simp only [pow2_eq]
  exact zpow_le_zpow_right₀ (by norm_num) h

theorem pow2_lt_iff {a b : Int} : pow2 a < pow2 b ↔ a < b := by
  simp only [pow2_eq]
  exact zpow_lt_zpow_iff_right₀ (by norm_num)

theorem log2_fuel_spec : ∀ (fuel n : Nat), 0 < n → n ≤ fuel →
    2 ^ log2_fuel fuel n ≤ n ∧ n < 2 ^ (log2_fuel fuel n + 1) := by
  intro fuel
  induction fuel with
  | zero => intro n h0 h1; omega
  | succ fuel ih =>
    intro n h0 h1
    unfold log2_fuel
    split_ifs with h
    · constructor <;> simp <;> omega
    · have := ih (n / 2) (by omega) (by omega)
      constructor
      · rw [pow_succ]; omega
      · rw [pow_succ]; omega

theorem abs_eq_natAbs_div (q : ℚ) : |q| = (q.num.natAbs : ℚ) / (q.den : ℚ) := by
  have h : (q.num.natAbs : ℚ) = |(q.num : ℚ)| := by
    rw [Nat.cast_natAbs, Int.cast_abs]
  rw [h]
  conv_lhs => rw [← Rat.num_div_den q]
  rw [abs_div, Nat.abs_cast]

theorem exponent_spec (q : ℚ) (hq : q ≠ 0) :
    pow2 (exponent q) ≤ |q| ∧ |q| < pow2 (exponent q + 1) := by
  have hn : 0 < q.num.natAbs := Int.natAbs_pos.2 (Rat.num_ne_zero.2 hq)
  have hd : 0 < q.den := q.den_pos
  obtain ⟨n1, n2⟩ := log2_fuel_spec _ _ hn le_rfl
  obtain ⟨d1, d2⟩ := log2_fuel_spec _ _ hd le_rfl
  have hlow : pow2 ((log2_fuel q.num.natAbs q.num.natAbs : Int) - (log2_fuel q.den q.den : Int) - 1)
      ≤ |q| := by
    rw [abs_eq_natAbs_div, pow2_eq, le_div_iff₀ (by exact_mod_cast hd)]
    have e1 : (2 : ℚ) ^ ((log2_fuel q.num.natAbs q.num.natAbs : Int) - (log2_fuel q.den q.den : Int) - 1)
        * (2 : ℚ) ^ (log2_fuel q.den q.den + 1) = (2 : ℚ) ^ (log2_fuel q.num.natAbs q.num.natAbs) := by
      rw [← zpow_natCast, ← zpow_natCast, ← zpow_add₀ (by norm_num)]
      congr 1
      push_cast
      ring
    have e2 : ((q.den : ℚ)) ≤ (2 : ℚ) ^ (log2_fuel q.den q.den + 1) := by exact_mod_cast d2.le
    have e3 : (2 : ℚ) ^ (log2_fuel q.num.natAbs q.num.natAbs) ≤ (q.num.natAbs : ℚ) := by
      exact_mod_cast n1
    calc _ ≤ (2 : ℚ) ^ ((log2_fuel q.num.natAbs q.num.natAbs : Int) - (log2_fuel q.den q.den : Int) - 1)
          * (2 : ℚ) ^ (log2_fuel q.den q.den + 1) :=
          mul_le_mul_of_nonneg_left e2 (by positivity)
      _ = _ := e1
      _ ≤ _ := e3
  have hhigh : |q| <
      pow2 ((log2_fuel q.num.natAbs q.num.natAbs : Int) - (log2_fuel q.den q.den : Int) + 1) := by
    rw [abs_eq_natAbs_div, pow2_eq, div_lt_iff₀ (by exact_mod_cast hd)]
    have e1 : (2 : ℚ) ^ ((log2_fuel q.num.natAbs q.num.natAbs : Int) - (log2_fuel q.den q.den : Int) + 1)
        * (2 : ℚ) ^ (log2_fuel q.den q.den) = (2 : ℚ) ^ (log2_fuel q.num.natAbs q.num.natAbs + 1) := by
      rw [← zpow_natCast, ← zpow_natCast, ← zpow_add₀ (by norm_num)]
      congr 1
      push_cast
      ring
    have e2 : (2 : ℚ) ^ (log2_fuel q.den q.den) ≤ (q.den : ℚ) := by exact_mod_cast d1
    have e3 : (q.num.natAbs : ℚ) < (2 : ℚ) ^ (log2_fuel q.num.natAbs q.num.natAbs + 1) := by
      exact_mod_cast n2
    calc _ < (2 : ℚ) ^ (log2_fuel q.num.natAbs q.num.natAbs + 1) := e3
      _ = _ := e1.symm
      _ ≤ _ := mul_le_mul_of_nonneg_left e2 (by positivity)
  unfold exponent
  simp only
  split_ifs with h
  · exact ⟨h, hhigh⟩
  · refine ⟨hlow, ?_⟩
    rw [sub_add_cancel]
    exact not_le.1 h

theorem exponent_neg (q : ℚ) : exponent (-q) = exponent q := by
  unfold exponent
  simp

theorem exponent_mono {a b : ℚ} (ha : a ≠ 0) (hb : b ≠ 0) (h : |a| ≤ |b|) :
    exponent a ≤ exponent b := by
  have h1 := (exponent_spec a ha).1
  have h2 := (exponent_spec b hb).2
  have : pow2 (exponent a) < pow2 (exponent b + 1) := lt_of_le_of_lt (h1.trans h) h2
  have := pow2_lt_iff.1 this
  omega

theorem exponent_lt_of_abs_lt {q : ℚ} {k : Int} (hq : q ≠ 0) (h : |q| < pow2 k) :
    exponent q < k :=
  pow2_lt_iff.1 (lt_of_le_of_lt (exponent_spec q hq).1 h)

theorem le_exponent_of_le_abs {q : ℚ} {k : Int} (hq : q ≠ 0) (h : pow2 k ≤ |q|) :
    k ≤ exponent q := by
  have := pow2_lt_iff.1 (lt_of_le_of_lt h (exponent_spec q hq).2)
  omega

/-! ### Rounding to an integer -/

theorem rat_floor_eq (t : ℚ) : Rat.floor t = ⌊t⌋ := rfl

theorem round_half_even_intCast (n : Int) : round_half_even (n : ℚ) = n := by
  unfold round_half_even
  simp [rat_floor_eq]

theorem round_half_even_cases (t : ℚ) :
    round_half_even t = Rat.floor t ∨ round_half_even t = Rat.floor t + 1 := by
  unfold round_half_even
  simp only
  split_ifs <;> simp

theorem floor_le_round_half_even (t : ℚ) : Rat.floor t ≤ round_half_even t := by
  rcases round_half_even_cases t with h | h <;> omega

theorem round_half_even_le_floor_add_one (t : ℚ) : round_half_even t ≤ Rat.floor t + 1 := by
  rcases round_half_even_cases t with h | h <;> omega

theorem round_half_even_mono {t u : ℚ} (h : t ≤ u) : round_half_even t ≤ round_half_even u := by
  have hf : Rat.floor t ≤ Rat.floor u := by
    rw [rat_floor_eq, rat_floor_eq]
    exact Int.floor_mono h
  rcases lt_or_eq_of_le hf with hlt | heq
  · calc round_half_even t ≤ Rat.floor t + 1 := round_half_even_le_floor_add_one t
      _ ≤ Rat.floor u := hlt
      _ ≤ round_half_even u := floor_le_round_half_even u
  · unfold round_half_even
    simp only
    rw [heq]
    have hr : t - Rat.floor u ≤ u - Rat.floor u := by linarith
    split_ifs <;> first | omega | (exfalso; linarith)

theorem round_half_even_neg (t : ℚ) : round_half_even (-t) = - round_half_even t := by
  unfold round_half_even
  simp only [rat_floor_eq]
  by_cases hi : (⌊t⌋ : ℚ) = t
  · have h1 : ⌊-t⌋ = -⌊t⌋ := by
      rw [← hi, ← Int.cast_neg, Int.floor_intCast, Int.floor_intCast]
    rw [h1]
    have h2 : t - (⌊t⌋ : ℚ) = 0 := by linarith
    have h3 : -t - ((-⌊t⌋ : Int) : ℚ) = 0 := by push_cast; linarith
    rw [h2, h3]
    norm_num
  · have hlt : (⌊t⌋ : ℚ) < t := lt_of_le_of_ne (Int.floor_le t) hi
    have h1 : ⌊-t⌋ = -⌊t⌋ - 1 := by
      rw [Int.floor_eq_iff]
      push_cast
      constructor
      · have := Int.lt_floor_add_one t
        linarith
      · linarith
    rw [h1]
    push_cast
    have hlt2 := Int.lt_floor_add_one t
    split_ifs <;> first | omega | (exfalso; linarith)

/-! ### Rounding to a binary format -/

theorem float_round_zero (p : Nat) (emin : Int) : float_round p emin 0 = 0 := by
  simp [float_round]

theorem float_round_of_ne (p : Nat) (emin : Int) (q : ℚ) (hq : q ≠ 0) :
    float_round p emin q =
      round_half_even (q / pow2 (max (exponent q) emin - (p - 1)))
        * pow2 (max (exponent q) emin - (p - 1)) := by
  unfold float_round
  rw [if_neg hq]

theorem float_round_neg (p : Nat) (emin : Int) (q : ℚ) :
    float_round p emin (-q) = - float_round p emin q := by
  by_cases hq : q = 0
  · subst hq; simp [float_round_zero]
  · rw [float_round_of_ne p emin (-q) (neg_ne_zero.2 hq), float_round_of_ne p emin q hq,
      exponent_neg, neg_div, round_half_even_neg]
    push_cast
    ring

theorem float_round_nonneg (p : Nat) (emin : Int) (q : ℚ) (hq : 0 ≤ q) :
    0 ≤ float_round p emin q := by
  by_cases h0 : q = 0
  · subst h0; simp [float_round_zero]
  · rw [float_round_of_ne p emin q h0]
    refine mul_nonneg ?_ (pow2_pos _).le
    have h1 : 0 ≤ q / pow2 (max (exponent q) emin - (p - 1)) := div_nonneg hq (pow2_pos _).le
    have h2 := round_half_even_mono h1
    rw [show (0 : ℚ) = ((0 : Int) : ℚ) by simp, round_half_even_intCast] at h2
    exact_mod_cast h2

theorem pow2_natCast (n : Nat) : pow2 (n : Int) = (((2 : Int) ^ n : Int) : ℚ) := by
  rw [pow2_eq]
  push_cast
  rw [zpow_natCast]

theorem float_round_fixed (p : Nat) (emin : Int) (m c : Int)
    (hc : emin - (p - 1) ≤ c) (hm : |m| < 2 ^ p) :
    float_round p emin (m * pow2 c) = m * pow2 c := by
  by_cases h0 : m = 0
  · subst h0; simp [float_round_zero]
  · have hq : (m : ℚ) * pow2 c ≠ 0 :=
      mul_ne_zero (by exact_mod_cast h0) (pow2_pos c).ne.symm
    have habs : |(m : ℚ) * pow2 c| < pow2 (p + c) := by
      rw [abs_mul, abs_of_pos (pow2_pos c), pow2_add, pow2_natCast]
      refine mul_lt_mul_of_pos_right ?_ (pow2_pos c)
      have : ((|m| : Int) : ℚ) < (((2 : Int) ^ p : Int) : ℚ) := by exact_mod_cast hm
      simpa using this
    have he := exponent_lt_of_abs_lt hq habs
    have hE : max (exponent ((m : ℚ) * pow2 c)) emin - (p - 1) ≤ c := by
      rcases max_cases (exponent ((m : ℚ) * pow2 c)) emin with ⟨h, _⟩ | ⟨h, _⟩ <;> rw [h] <;> omega
    obtain ⟨j, hj⟩ := Int.eq_ofNat_of_zero_le (sub_nonneg.2 hE)
    have hsplit : pow2 c = pow2 (j : Int) *
        pow2 (max (exponent ((m : ℚ) * pow2 c)) emin - (p - 1)) := by
      rw [← pow2_add, ← hj]
      congr 1
      ring
    rw [float_round_of_ne p emin _ hq]
    have hdiv : (m : ℚ) * pow2 c / pow2 (max (exponent ((m : ℚ) * pow2 c)) emin - (p - 1))
        = ((m * 2 ^ j : Int) : ℚ) := by
      rw [div_eq_iff (pow2_pos _).ne.symm]
      conv_lhs => rw [hsplit]
      rw [pow2_natCast]
      push_cast
      ring
    rw [hdiv, round_half_even_intCast]
    conv_rhs => rw [hsplit]
    rw [pow2_natCast]
    push_cast
    ring

theorem float_round_fixed_le (p : Nat) (hp : 1 ≤ p) (emin : Int) (m c : Int)
    (hc : emin - (p - 1) ≤ c) (hm : |m| ≤ 2 ^ p) :
    float_round p emin (m * pow2 c) = m * pow2 c := by
  rcases lt_or_eq_of_le hm with h | h
  · exact float_round_fixed p emin m c hc h
  · obtain ⟨k, rfl⟩ : ∃ k, p = k + 1 := ⟨p - 1, by omega⟩
    have hm2 : m = 2 ^ (k + 1) ∨ m = -(2 ^ (k + 1)) := by
      rcases abs_cases m with ⟨h1, _⟩ | ⟨h1, _⟩
      · left; omega
      · right; omega
    have key : ∀ s : Int, (s = 1 ∨ s = -1) →
        float_round (k + 1) emin (((s * 2 ^ (k + 1) : Int) : ℚ) * pow2 c)
          = ((s * 2 ^ (k + 1) : Int) : ℚ) * pow2 c := by
      intro s hs
      have e : ((s * 2 ^ (k + 1) : Int) : ℚ) * pow2 c = ((s * 2 ^ k : Int) : ℚ) * pow2 (c + 1) := by
        rw [pow2_add]
        have : pow2 1 = 2 := by rw [pow2_eq]; norm_num
        rw [this]
        push_cast
        ring
      rw [e]
      refine float_round_fixed (k + 1) emin (s * 2 ^ k) (c + 1) (by omega) ?_
      rw [abs_mul, abs_pow]
      have : |s| = 1 := by rcases hs with h | h <;> rw [h] <;> rfl
      rw [this, one_mul, pow_succ]
      have : (0 : Int) < |2| ^ k := by positivity
      simp only [abs_two] at this ⊢
      omega
    rcases hm2 with h1 | h1
    · have := key 1 (Or.inl rfl)
      rw [one_mul] at this
      rw [h1]; exact this
    · have := key (-1) (Or.inr rfl)
      rw [neg_one_mul] at this
      rw [h1]; exact this

theorem div_ulp_lt (p : Nat) (emin : Int) (q : ℚ) (hq : q ≠ 0) :
    |q / pow2 (max (exponent q) emin - (p - 1))| < pow2 p := by
  rw [abs_div, abs_of_pos (pow2_pos _), div_lt_iff₀ (pow2_pos _), ← pow2_add]
  refine lt_of_lt_of_le (exponent_spec q hq).2 (pow2_le ?_)
  have := le_max_left (exponent q) emin
  omega

theorem float_round_form (p : Nat) (emin : Int) (q : ℚ) :
    ∃ m c : Int, emin - (p - 1) ≤ c ∧ |m| ≤ 2 ^ p ∧ float_round p emin q = m * pow2 c := by
  by_cases hq : q = 0
  · exact ⟨0, emin - (p - 1), le_rfl, by simp, by simp [hq, float_round_zero]⟩
  · refine ⟨round_half_even (q / pow2 (max (exponent q) emin - (p - 1))),
      max (exponent q) emin - (p - 1), ?_, ?_, float_round_of_ne p emin q hq⟩
    · have := le_max_right (exponent q) emin
      omega
    · have h := div_ulp_lt p emin q hq
      rw [pow2_natCast] at h
      obtain ⟨h1, h2⟩ := abs_lt.1 h
      have u := round_half_even_mono h2.le
      have l := round_half_even_mono h1.le
      rw [round_half_even_intCast] at u
      rw [← Int.cast_neg, round_half_even_intCast] at l
      exact abs_le.2 ⟨l, u⟩

theorem float_round_idem (p : Nat) (hp : 1 ≤ p) (emin : Int) (q : ℚ) :
    float_round p emin (float_round p emin q) = float_round p emin q := by
  obtain ⟨m, c, hc, hm, h⟩ := float_round_form p emin q
  rw [h]
  exact float_round_fixed_le p hp emin m c hc hm

theorem float_round_mono_pos (p : Nat) (hp : 1 ≤ p) (emin : Int) (a b : ℚ)
    (ha : 0 < a) (hab : a ≤ b) : float_round p emin a ≤ float_round p emin b := by
  have hb : 0 < b := lt_of_lt_of_le ha hab
  have hE : max (exponent a) emin ≤ max (exponent b) emin :=
    max_le_max (exponent_mono ha.ne.symm hb.ne.symm
      (by rw [abs_of_pos ha, abs_of_pos hb]; exact hab)) le_rfl
  rw [float_round_of_ne p emin a ha.ne.symm, float_round_of_ne p emin b hb.ne.symm]
  rcases lt_or_eq_of_le hE with hlt | heq
  · have hEb : max (exponent b) emin = exponent b := by
      rcases max_cases (exponent b) emin with ⟨h, _⟩ | ⟨h, _⟩
      · exact h
      · have := le_max_right (exponent a) emin
        omega
    have h1 : (round_half_even (a / pow2 (max (exponent a) emin - (p - 1))) : ℚ)
        * pow2 (max (exponent a) emin - (p - 1)) ≤ pow2 (max (exponent a) emin + 1) := by
      have e : pow2 (max (exponent a) emin + 1)
          = pow2 (p : Int) * pow2 (max (exponent a) emin - (p - 1)) := by
        rw [← pow2_add]; congr 1; ring
      rw [e]
      refine mul_le_mul_of_nonneg_right ?_ (pow2_pos _).le
      have h := (abs_lt.1 (div_ulp_lt p emin a ha.ne.symm)).2
      rw [pow2_natCast] at h ⊢
      have u := round_half_even_mono h.le
      rw [round_half_even_intCast] at u
      exact_mod_cast u
    have h2 : pow2 (exponent b) ≤ (round_half_even (b / pow2 (exponent b - (p - 1))) : ℚ)
        * pow2 (exponent b - (p - 1)) := by
      obtain ⟨k, rfl⟩ : ∃ k, p = k + 1 := ⟨p - 1, by omega⟩
      have e : pow2 (exponent b) = pow2 (k : Int) * pow2 (exponent b - ((k + 1 : Nat) - 1)) := by
        rw [← pow2_add]; congr 1; push_cast; ring
      conv_lhs => rw [e]
      refine mul_le_mul_of_nonneg_right ?_ (pow2_pos _).le
      have hb1 := (exponent_spec b hb.ne.symm).1
      rw [abs_of_pos hb] at hb1
      have h : pow2 (k : Int) ≤ b / pow2 (exponent b - ((k + 1 : Nat) - 1)) := by
        rw [le_div_iff₀ (pow2_pos _), ← e]
        exact hb1
      rw [pow2_natCast] at h ⊢
      have l := round_half_even_mono h
      rw [round_half_even_intCast] at l
      exact_mod_cast l
    rw [hEb]
    calc _ ≤ pow2 (max (exponent a) emin + 1) := h1
      _ ≤ pow2 (exponent b) := pow2_le (by omega)
      _ ≤ _ := h2
  · rw [heq]
    refine mul_le_mul_of_nonneg_right ?_ (pow2_pos _).le
    have : a / pow2 (max (exponent b) emin - (p - 1)) ≤ b / pow2 (max (exponent b) emin - (p - 1)) :=
      div_le_div_of_nonneg_right hab (pow2_pos _).le
    exact_mod_cast round_half_even_mono this

theorem float_round_mono (p : Nat) (hp : 1 ≤ p) (emin : Int) (a b : ℚ) (hab : a ≤ b) :
    float_round p emin a ≤ float_round p emin b := by
  rcases lt_trichotomy 0 a with ha | ha | ha
  · exact float_round_mono_pos p hp emin a b ha hab
  · subst ha
    rw [float_round_zero]
    exact float_round_nonneg p emin b hab
  · rcases le_or_lt 0 b with hb | hb
    · have h1 := float_round_nonneg p emin (-a) (by linarith)
      rw [float_round_neg] at h1
      have h2 := float_round_nonneg p emin b hb
      linarith
    · have h := float_round_mono_pos p hp emin (-b) (-a) (by linarith) (by linarith)
      rw [float_round_neg, float_round_neg] at h
      linarith

theorem round_half_even_near (t : ℚ) : |(round_half_even t : ℚ) - t| ≤ 1 / 2 := by
  have h1 := Int.floor_le t
  have h2 := Int.lt_floor_add_one t
  unfold round_half_even
  simp only [rat_floor_eq]
  rw [abs_le]
  split_ifs <;> push_cast <;> constructor <;> linarith

theorem float_round_near (p : Nat) (emin : Int) (q : ℚ) (k : Int) (hk : emin ≤ k)
    (hq : |q| < pow2 (k + 1)) : |float_round p emin q - q| ≤ pow2 (k - p) := by
  by_cases h0 : q = 0
  · subst h0
    rw [float_round_zero, sub_zero, abs_zero]
    exact (pow2_pos _).le
  · have he := exponent_lt_of_abs_lt h0 hq
    have hE : max (exponent q) emin ≤ k := max_le (by omega) hk
    rw [float_round_of_ne p emin q h0]
    have hu := pow2_pos (max (exponent q) emin - (p - 1))
    have e : (round_half_even (q / pow2 (max (exponent q) emin - (p - 1))) : ℚ)
          * pow2 (max (exponent q) emin - (p - 1)) - q
        = ((round_half_even (q / pow2 (max (exponent q) emin - (p - 1))) : ℚ)
          - q / pow2 (max (exponent q) emin - (p - 1)))
          * pow2 (max (exponent q) emin - (p - 1)) := by
      field_simp
    rw [e, abs_mul, abs_of_pos hu]
    have h2 : pow2 (max (exponent q) emin - (p - 1)) = 2 * pow2 (max (exponent q) emin - p) := by
      have : pow2 1 = 2 := by rw [pow2_eq]; norm_num
      rw [← this, ← pow2_add]
      congr 1
      ring
    calc _ ≤ 1 / 2 * pow2 (max (exponent q) emin - (p - 1)) :=
          mul_le_mul_of_nonneg_right (round_half_even_near _) hu.le
      _ = pow2 (max (exponent q) emin - p) := by rw [h2]; ring
      _ ≤ pow2 (k - p) := pow2_le (by omega)

theorem float_round_near_two (p : Nat) (hp : 2 ≤ p) (emin : Int) (he : emin ≤ 0) (q : ℚ)
    (hq : |q| ≤ 2) : |float_round p emin q - q| ≤ 1 / 2 ^ p := by
  have h1 : pow2 1 = 2 := by rw [pow2_eq]; norm_num
  rcases lt_or_eq_of_le hq with h | h
  · have := float_round_near p emin q 0 he (by rw [zero_add, h1]; exact h)
    rw [zero_sub, pow2_eq, zpow_neg, zpow_natCast] at this
    rw [one_div]
    exact this
  · have hfix : float_round p emin q = q := by
      have hm : |(1 : Int)| < 2 ^ p :=
        lt_of_lt_of_le (by norm_num) (pow_le_pow_right₀ (by norm_num : (1 : Int) ≤ 2) hp)
      have hm2 : |(-1 : Int)| < 2 ^ p := by simpa using hm
      rcases abs_cases q with ⟨h2, _⟩ | ⟨h2, _⟩
      · have := float_round_fixed p emin 1 1 (by omega) hm
        rw [h1] at this
        have hq2 : q = ((1 : Int) : ℚ) * 2 := by push_cast; linarith
        rw [hq2]; exact this
      · have := float_round_fixed p emin (-1) 1 (by omega) hm2
        rw [h1] at this
        have hq2 : q = ((-1 : Int) : ℚ) * 2 := by push_cast; linarith
        rw [hq2]; exact this
    rw [hfix, sub_self, abs_zero]
    positivity

theorem float_round_grid (p : Nat) (emin : Int) (q : ℚ) :
    ∃ n : Int, float_round p emin q = n * pow2 (emin - (p - 1)) := by
  obtain ⟨m, c, hc, _, h⟩ := float_round_form p emin q
  obtain ⟨j, hj⟩ := Int.eq_ofNat_of_zero_le (sub_nonneg.2 hc)
  refine ⟨m * 2 ^ j, ?_⟩
  have hsplit : pow2 c = pow2 (j : Int) * pow2 (emin - (p - 1)) := by
    rw [← pow2_add, ← hj]
    congr 1
    ring
  rw [h, hsplit, pow2_natCast]
  push_cast
  ring

theorem float_round_sub_pos (p : Nat) (hp : 1 ≤ p) (emin : Int) (a b : ℚ)
    (ha : float_round p emin a = a) (hb : float_round p emin b = b) (hab : a < b) :
    0 < float_round p emin (b - a) := by
  obtain ⟨na, hna⟩ := float_round_grid p emin a
  obtain ⟨nb, hnb⟩ := float_round_grid p emin b
  rw [ha] at hna
  rw [hb] at hnb
  have hu := pow2_pos (emin - (p - 1))
  have hlt : (na : ℚ) < nb := by
    rw [hna, hnb] at hab
    exact lt_of_mul_lt_mul_right hab hu.le
  have hle : (na : ℚ) + 1 ≤ nb := by exact_mod_cast Int.add_one_le_iff.2 (by exact_mod_cast hlt)
  have hge : pow2 (emin - (p - 1)) ≤ b - a := by
    rw [hna, hnb]
    nlinarith
  have hfix := float_round_fixed p emin 1 (emin - (p - 1)) le_rfl
    (by
      rw [abs_one]
      exact one_lt_pow₀ (by norm_num) (by omega))
  rw [Int.cast_one, one_mul] at hfix
  have := float_round_mono p hp emin _ _ hge
  rw [hfix] at this
  exact lt_of_lt_of_le hu this

theorem float_round_gap (p : Nat) (emin : Int) (x : ℚ) (n e : Int)
    (hx : float_round p emin x = x) (he : emin ≤ e)
    (hn1 : 2 ^ (p - 1) ≤ n) (hn2 : n < 2 ^ p) (hp : 1 ≤ p) :
    x ≤ n * pow2 (e - (p - 1)) ∨ (n + 1) * pow2 (e - (p - 1)) ≤ x := by
  by_contra hcon
  rw [not_or, not_le, not_le] at hcon
  obtain ⟨h1, h2⟩ := hcon
  have hu := pow2_pos (e - (p - 1))
  obtain ⟨k, rfl⟩ : ∃ k, p = k + 1 := ⟨p - 1, by omega⟩
  simp only [Nat.add_sub_cancel] at hn1
  have e1 : pow2 e = (((2 : Int) ^ k : Int) : ℚ) * pow2 (e - ((k + 1 : Nat) - 1)) := by
    rw [← pow2_natCast, ← pow2_add]; congr 1; push_cast; ring
  have e2 : pow2 (e + 1) = (((2 : Int) ^ (k + 1) : Int) : ℚ) * pow2 (e - ((k + 1 : Nat) - 1)) := by
    rw [← pow2_natCast, ← pow2_add]; congr 1; push_cast; ring
  have hn1q : (((2 : Int) ^ k : Int) : ℚ) ≤ n := by exact_mod_cast hn1
  have hn2q : (n : ℚ) + 1 ≤ (((2 : Int) ^ (k + 1) : Int) : ℚ) := by
    exact_mod_cast Int.add_one_le_iff.2 hn2
  have hlow : pow2 e < x := by
    rw [e1]
    exact lt_of_le_of_lt (mul_le_mul_of_nonneg_right hn1q hu.le) h1
  have hhigh : x < pow2 (e + 1) := by
    rw [e2]
    exact lt_of_lt_of_le h2 (mul_le_mul_of_nonneg_right hn2q hu.le)
  have hpos : 0 < x := lt_trans (pow2_pos e) hlow
  have hx0 : x ≠ 0 := hpos.ne.symm
  have hexp : exponent x = e := by
    have a := le_exponent_of_le_abs hx0 (by rw [abs_of_pos hpos]; exact hlow.le)
    have b := exponent_lt_of_abs_lt hx0 (by rw [abs_of_pos hpos]; exact hhigh)
    omega
  rw [float_round_of_ne _ emin x hx0, hexp, max_eq_left he] at hx
  have hk1 : (n : ℚ) < round_half_even (x / pow2 (e - ((k + 1 : Nat) - 1))) := by
    have := lt_of_lt_of_eq h1 hx.symm
    exact lt_of_mul_lt_mul_right this hu.le
  have hk2 : (round_half_even (x / pow2 (e - ((k + 1 : Nat) - 1))) : ℚ) < n + 1 := by
    have := lt_of_eq_of_lt hx h2
    exact lt_of_mul_lt_mul_right this hu.le
  have hk1' : n < round_half_even (x / pow2 (e - ((k + 1 : Nat) - 1))) := by exact_mod_cast hk1
  have hk2' : round_half_even (x / pow2 (e - ((k + 1 : Nat) - 1))) < n + 1 := by
    exact_mod_cast hk2
  omega

/-- Between the adjacent `float`s `n / 2 ^ j` and `(n + 1) / 2 ^ j` of one binade there is
no `float`. -/
theorem ieee_f32_gap (x : ℚ) (n : Int) (j : Nat) (hx : ieee.f32 x = x)
    (hj : j ≤ 149) (hn1 : 2 ^ 23 ≤ n) (hn2 : n < 2 ^ 24) :
    x ≤ (n : ℚ) / 2 ^ j ∨ ((n : ℚ) + 1) / 2 ^ j ≤ x := by
  have h := float_round_gap 24 (-126) x n (23 - (j : Int)) hx (by omega) hn1 hn2 (by norm_num)
  have e : pow2 (23 - (j : Int) - ((24 : Nat) - 1)) = 1 / 2 ^ j := by
    rw [pow2_eq]
    have : (23 - (j : Int) - ((24 : Nat) - 1)) = -(j : Int) := by push_cast; ring
    rw [this, zpow_neg, zpow_natCast, one_div]
  rw [e] at h
  rcases h with h | h
  · left; rw [div_eq_mul_one_div]; exact h
  · right; rw [div_eq_mul_one_div]; exact h

theorem ieee_lawful : ieee.Lawful where
  f32_mono := float_round_mono 24 (by norm_num) (-126)
  f64_mono := float_round_mono 53 (by norm_num) (-1022)
  f32_idem := float_round_idem 24 (by norm_num) (-126)
  f64_f32 := by
    intro q
    obtain ⟨m, c, hc, hm, h⟩ := float_round_form 24 (-126) q
    show float_round 53 (-1022) (float_round 24 (-126) q) = float_round 24 (-126) q
    rw [h]
    refine float_round_fixed 53 (-1022) m c ?_ ?_
    · push_cast at hc ⊢; omega
    · refine lt_of_le_of_lt hm ?_
      norm_num
  f32_dyadic := by
    intro n k hn hk
    have e : (n : ℚ) / 2 ^ k = (n : ℚ) * pow2 (-(k : Int)) := by
      rw [pow2_eq, zpow_neg, zpow_natCast]
      rfl
    show float_round 24 (-126) ((n : ℚ) / 2 ^ k) = (n : ℚ) / 2 ^ k
    rw [e]
    refine float_round_fixed_le 24 (by norm_num) (-126) n (-(k : Int)) ?_ hn
    push_cast
    omega
  f64_zero := float_round_zero 53 (-1022)
  f32_near := float_round_near_two 24 (by norm_num) (-126) (by norm_num)
  f64_near := float_round_near_two 53 (by norm_num) (-1022) (by norm_num)
  f32_sub_pos := float_round_sub_pos 24 (by norm_num) (-126)

theorem unrounded_lawful : unrounded.Lawful where
  f32_mono := fun _ _ h => h
  f64_mono := fun _ _ h => h
  f32_idem := fun _ => rfl
  f64_f32 := fun _ => rfl
  f32_dyadic := fun _ _ _ _ => rfl
  f64_zero := rfl
  f32_near := fun q _ => by simp [unrounded]
  f64_near := fun q _ => by simp [unrounded]
  f32_sub_pos := fun a b _ _ h => sub_pos.2 h

/-! ## The containment test -/

theorem in_intervals_iff (v : ℚ) (intervals : List (ℚ × ℚ)) :
    in_intervals v intervals = true ↔ Covered v intervals := by
  unfold Covered
  induction intervals with
  | nil => simp [in_intervals]
  | cons i rest ih =>
    by_cases h : v ≥ i.1 ∧ v < i.2
    · simp only [in_intervals, h, and_self, if_true, true_iff]
      exact ⟨i, List.mem_cons_self _ _, h.1, h.2⟩
    · simp only [in_intervals, h, if_false, ih, List.mem_cons]
      constructor
      · rintro ⟨j, hj, hv⟩
        exact ⟨j, Or.inr hj, hv⟩
      · rintro ⟨j, hj | hj, hv⟩
        · exact absurd (hj ▸ hv) h
        · exact ⟨j, hj, hv⟩

theorem covered_nil (v : ℚ) : ¬ Covered v [] := by
  simp [Covered]

theorem covered_cons (v : ℚ) (x : ℚ × ℚ) (l : List (ℚ × ℚ)) :
    Covered v (x :: l) ↔ (x.1 ≤ v ∧ v < x.2) ∨ Covered v l := by
  simp [Covered]

theorem covered_append (v : ℚ) (l₁ l₂ : List (ℚ × ℚ)) :
    Covered v (l₁ ++ l₂) ↔ Covered v l₁ ∨ Covered v l₂ := by
  simp only [Covered, List.mem_append]
  constructor
  · rintro ⟨i, hi | hi, hv⟩
    · exact Or.inl ⟨i, hi, hv⟩
    · exact Or.inr ⟨i, hi, hv⟩
  · rintro (⟨i, hi, hv⟩ | ⟨i, hi, hv⟩)
    · exact ⟨i, Or.inl hi, hv⟩
    · exact ⟨i, Or.inr hi, hv⟩

theorem covered_of_perm {l₁ l₂ : List (ℚ × ℚ)} (h : l₁.Perm l₂) (v : ℚ) :
    Covered v l₁ ↔ Covered v l₂ := by
  unfold Covered
  constructor
  · rintro ⟨i, hi, hv⟩
    exact ⟨i, h.mem_iff.1 hi, hv⟩
  · rintro ⟨i, hi, hv⟩
    exact ⟨i, h.mem_iff.2 hi, hv⟩

/-- C1: `in_intervals v intervals` is true exactly when some interval `(lo, hi)` of the
list has `lo ≤ v < hi` (so do `is_warning`, `is_caution`, `is_optimal` on their lists);
the upper bound is excluded, the lower bound of a non-empty interval is included, and
`[(1, 2)]` contains `1` and not `2`. -/
theorem in_intervals_spec :
    (∀ (v : ℚ) (intervals : List (ℚ × ℚ)),
      in_intervals v intervals = true ↔ ∃ i ∈ intervals, i.1 ≤ v ∧ v < i.2) ∧
    (∀ (d : Device) (v : ℚ),
      (d.is_warning v = true ↔ ∃ i ∈ d.warnings, i.1 ≤ v ∧ v < i.2) ∧
      (d.is_caution v = true ↔ ∃ i ∈ d.cautions, i.1 ≤ v ∧ v < i.2) ∧
      (d.is_optimal v = true ↔ ∃ i ∈ d.optimals, i.1 ≤ v ∧ v < i.2)) ∧
    (∀ lo hi : ℚ, in_intervals hi [(lo, hi)] = false) ∧
    (∀ lo hi : ℚ, in_intervals lo [(lo, hi)] = true ↔ lo < hi) ∧
    in_intervals 1 [(1, 2)] = true ∧ in_intervals 2 [(1, 2)] = false := by
  refine ⟨in_intervals_iff, fun d v => ⟨in_intervals_iff _ _, in_intervals_iff _ _,
    in_intervals_iff _ _⟩, ?_, ?_, by decide, by decide⟩
  · intro lo hi
    simp [in_intervals]
  · intro lo hi
    simp [in_intervals]

/-! ## Sorting the bands -/

theorem pair_le_iff (a b : ℚ × ℚ) :
    pair_le a b ↔ a.1 < b.1 ∨ (a.1 = b.1 ∧ a.2 ≤ b.2) := by
  unfold pair_le pair_lt
  rcases lt_trichotomy a.1 b.1 with h | h | h
  · simp [h, not_lt.2 h.le, h.ne]
  · simp [h]
  · simp [h, not_lt.2 h.le, h.ne']

theorem pair_le_fst {a b : ℚ × ℚ} (h : pair_le a b) : a.1 ≤ b.1 := by
  rcases (pair_le_iff a b).1 h with h | h
  · exact h.le
  · exact h.1.le

instance pair_le_total : IsTotal (ℚ × ℚ) pair_le where
  total a b := by
    rw [pair_le_iff, pair_le_iff]
    rcases lt_trichotomy a.1 b.1 with h | h | h
    · exact Or.inl (Or.inl h)
    · rcases le_total a.2 b.2 with h2 | h2
      · exact Or.inl (Or.inr ⟨h, h2⟩)
      · exact Or.inr (Or.inr ⟨h.symm, h2⟩)
    · exact Or.inr (Or.inl h)

instance pair_le_trans : IsTrans (ℚ × ℚ) pair_le where
  trans a b c := by
    rw [pair_le_iff, pair_le_iff, pair_le_iff]
    rintro (h | ⟨h, h2⟩) (k | ⟨k, k2⟩)
    · exact Or.inl (h.trans k)
    · exact Or.inl (k ▸ h)
    · exact Or.inl (h ▸ k)
    · exact Or.inr ⟨h.trans k, h2.trans k2⟩

theorem sort_intervals_perm (l : List (ℚ × ℚ)) : (sort_intervals l).Perm l :=
  List.perm_insertionSort pair_le l

theorem sort_intervals_sorted (l : List (ℚ × ℚ)) :
    (sort_intervals l).Pairwise (fun a b => a.1 ≤ b.1) :=
  (List.sorted_insertionSort pair_le l).imp (fun h => pair_le_fst h)

/-! ## The merge loop -/

theorem merge_loop_covered (v : ℚ) :
    ∀ (rest : List (ℚ × ℚ)) (cs ce : ℚ), rest.Pairwise (fun a b => a.1 ≤ b.1) →
      (∀ x ∈ rest, cs ≤ x.1) →
      (Covered v (merge_loop cs ce rest) ↔ (cs ≤ v ∧ v < ce) ∨ Covered v rest) := by
  intro rest
  induction rest with
  | nil =>
    intro cs ce _ _
    simp [merge_loop, Covered]
  | cons x rest ih =>
    intro cs ce hs hlo
    have hx : cs ≤ x.1 := hlo x (List.mem_cons_self _ _)
    have hrest : ∀ y ∈ rest, cs ≤ y.1 := fun y hy => hlo y (List.mem_cons_of_mem _ hy)
    rw [List.pairwise_cons] at hs
    by_cases h : x.1 ≤ ce
    · rw [merge_loop, if_pos h, ih cs (max ce x.2) hs.2 hrest, covered_cons]
      constructor
      · rintro (⟨h1, h2⟩ | h1)
        · rcases lt_max_iff.1 h2 with h3 | h3
          · exact Or.inl ⟨h1, h3⟩
          · by_cases h4 : v < ce
            · exact Or.inl ⟨h1, h4⟩
            · exact Or.inr (Or.inl ⟨h.trans (not_lt.1 h4), h3⟩)
        · exact Or.inr (Or.inr h1)
      · rintro (⟨h1, h2⟩ | ⟨h1, h2⟩ | h1)
        · exact Or.inl ⟨h1, lt_max_iff.2 (Or.inl h2)⟩
        · exact Or.inl ⟨hx.trans h1, lt_max_iff.2 (Or.inr h2)⟩
        · exact Or.inr h1
    · rw [merge_loop, if_neg h, covered_cons, ih x.1 x.2 hs.2 hs.1, covered_cons]

theorem merge_loop_runsFrom :
    ∀ (rest : List (ℚ × ℚ)) (p cs ce : ℚ), rest.Pairwise (fun a b => a.1 ≤ b.1) →
      (∀ x ∈ rest, cs ≤ x.1) → (∀ x ∈ rest, x.1 ≤ x.2) → p ≤ cs → cs ≤ ce →
      RunsFrom p (merge_loop cs ce rest) := by
  intro rest
  induction rest with
  | nil =>
    intro p cs ce _ _ _ hp hc
    simp [merge_loop, RunsFrom, hp, hc]
  | cons x rest ih =>
    intro p cs ce hs hlo hwf hp hc
    have hrest : ∀ y ∈ rest, cs ≤ y.1 := fun y hy => hlo y (List.mem_cons_of_mem _ hy)
    have hwf2 : ∀ y ∈ rest, y.1 ≤ y.2 := fun y hy => hwf y (List.mem_cons_of_mem _ hy)
    rw [List.pairwise_cons] at hs
    by_cases h : x.1 ≤ ce
    · rw [merge_loop, if_pos h]
      exact ih p cs (max ce x.2) hs.2 hrest hwf2 hp (hc.trans (le_max_left _ _))
    · rw [merge_loop, if_neg h]
      exact ⟨hp, hc, ih ce x.1 x.2 hs.2 hs.1 hwf2 (not_le.1 h).le
        (hwf x (List.mem_cons_self _ _))⟩

/-- Whatever relation `r` between the two ends holds for every band and survives a
larger upper end holds for every merged run (used with `≤` and with `<`). -/
theorem merge_loop_ends (r : ℚ → ℚ → Prop) (hr : ∀ a b c, r a b → b ≤ c → r a c) :
    ∀ (rest : List (ℚ × ℚ)) (cs ce : ℚ), (∀ x ∈ rest, r x.1 x.2) → r cs ce →
      ∀ y ∈ merge_loop cs ce rest, r y.1 y.2 := by
  intro rest
  induction rest with
  | nil =>
    intro cs ce _ hc y hy
    simp only [merge_loop, List.mem_singleton] at hy
    subst hy
    exact hc
  | cons x rest ih =>
    intro cs ce hwf hc y hy
    have hwf2 : ∀ z ∈ rest, r z.1 z.2 := fun z hz => hwf z (List.mem_cons_of_mem _ hz)
    by_cases h : x.1 ≤ ce
    · rw [merge_loop, if_pos h] at hy
      exact ih cs (max ce x.2) hwf2 (hr _ _ _ hc (le_max_left _ _)) y hy
    · rw [merge_loop, if_neg h, List.mem_cons] at hy
      rcases hy with hy | hy
      · subst hy
        exact hc
      · exact ih x.1 x.2 hwf2 (hwf x (List.mem_cons_self _ _)) y hy

theorem merge_loop_le_max (R : ℚ) :
    ∀ (rest : List (ℚ × ℚ)) (cs ce : ℚ), (∀ x ∈ rest, x.2 ≤ R) → ce ≤ R →
      ∀ y ∈ merge_loop cs ce rest, y.2 ≤ R := by
  intro rest
  induction rest with
  | nil =>
    intro cs ce _ hc y hy
    simp only [merge_loop, List.mem_singleton] at hy
    subst hy
    exact hc
  | cons x rest ih =>
    intro cs ce hwf hc y hy
    have hwf2 : ∀ z ∈ rest, z.2 ≤ R := fun z hz => hwf z (List.mem_cons_of_mem _ hz)
    by_cases h : x.1 ≤ ce
    · rw [merge_loop, if_pos h] at hy
      exact ih cs (max ce x.2) hwf2 (max_le hc (hwf x (List.mem_cons_self _ _))) y hy
    · rw [merge_loop, if_neg h, List.mem_cons] at hy
      rcases hy with hy | hy
      · subst hy
        exact hc
      · exact ih x.1 x.2 hwf2 (hwf x (List.mem_cons_self _ _)) y hy

theorem merge_intervals_covered (v : ℚ) (l : List (ℚ × ℚ)) :
    Covered v (merge_intervals l) ↔ Covered v l := by
  rw [← covered_of_perm (sort_intervals_perm l) v]
  have hs := sort_intervals_sorted l
  unfold merge_intervals
  cases hsl : sort_intervals l with
  | nil => simp
  | cons s0 rest =>
    rw [hsl, List.pairwise_cons] at hs
    simp only
    rw [merge_loop_covered v rest s0.1 s0.2 hs.2 hs.1, covered_cons]

theorem merge_intervals_runsFrom (p : ℚ) (l : List (ℚ × ℚ))
    (hlo : ∀ x ∈ l, p ≤ x.1) (hwf : ∀ x ∈ l, x.1 ≤ x.2) :
    RunsFrom p (merge_intervals l) := by
  have hs := sort_intervals_sorted l
  have hmem : ∀ x ∈ sort_intervals l, x ∈ l := fun x hx => (sort_intervals_perm l).mem_iff.1 hx
  unfold merge_intervals
  cases hsl : sort_intervals l with
  | nil => simp [RunsFrom]
  | cons s0 rest =>
    rw [hsl] at hs hmem
    rw [List.pairwise_cons] at hs
    simp only
    exact merge_loop_runsFrom rest p s0.1 s0.2 hs.2 hs.1
      (fun x hx => hwf x (hmem x (List.mem_cons_of_mem _ hx)))
      (hlo s0 (hmem s0 (List.mem_cons_self _ _)))
      (hwf s0 (hmem s0 (List.mem_cons_self _ _)))

theorem merge_intervals_ends (r : ℚ → ℚ → Prop) (hr : ∀ a b c, r a b → b ≤ c → r a c)
    (l : List (ℚ × ℚ)) (hwf : ∀ x ∈ l, r x.1 x.2) :
    ∀ y ∈ merge_intervals l, r y.1 y.2 := by
  have hmem : ∀ x ∈ sort_intervals l, x ∈ l := fun x hx => (sort_intervals_perm l).mem_iff.1 hx
  unfold merge_intervals
  cases hsl : sort_intervals l with
  | nil => simp
  | cons s0 rest =>
    rw [hsl] at hmem
    simp only
    exact merge_loop_ends r hr rest s0.1 s0.2
      (fun x hx => hwf x (hmem x (List.mem_cons_of_mem _ hx)))
      (hwf s0 (hmem s0 (List.mem_cons_self _ _)))

theorem merge_intervals_le_max (R : ℚ) (l : List (ℚ × ℚ)) (hhi : ∀ x ∈ l, x.2 ≤ R) :
    ∀ y ∈ merge_intervals l, y.2 ≤ R := by
  have hmem : ∀ x ∈ sort_intervals l, x ∈ l := fun x hx => (sort_intervals_perm l).mem_iff.1 hx
  unfold merge_intervals
  cases hsl : sort_intervals l with
  | nil => simp
  | cons s0 rest =>
    rw [hsl] at hmem
    simp only
    exact merge_loop_le_max R rest s0.1 s0.2
      (fun x hx => hhi x (hmem x (List.mem_cons_of_mem _ hx)))
      (hhi s0 (hmem s0 (List.mem_cons_self _ _)))

/-! ## The gap loop -/

theorem gaps_loop_lt (R : ℚ) :
    ∀ (m : List (ℚ × ℚ)) (p : ℚ), ∀ g ∈ gaps_loop p R m, g.1 < g.2 := by
  intro m
  induction m with
  | nil =>
    intro p g hg
    by_cases h : p < R
    · simp only [gaps_loop, if_pos h, List.mem_singleton] at hg
      subst hg
      exact h
    · simp [gaps_loop, if_neg h] at hg
  | cons x rest ih =>
    intro p g hg
    by_cases h : x.1 > p
    · rw [gaps_loop, if_pos h, List.mem_cons] at hg
      rcases hg with hg | hg
      · subst hg
        exact h
      · exact ih _ g hg
    · rw [gaps_loop, if_neg h] at hg
      exact ih _ g hg

theorem gaps_loop_ge (R : ℚ) :
    ∀ (m : List (ℚ × ℚ)) (p : ℚ), ∀ g ∈ gaps_loop p R m, p ≤ g.1 := by
  intro m
  induction m with
  | nil =>
    intro p g hg
    by_cases h : p < R
    · simp only [gaps_loop, if_pos h, List.mem_singleton] at hg
      subst hg
      exact le_refl _
    · simp [gaps_loop, if_neg h] at hg
  | cons x rest ih =>
    intro p g hg
    by_cases h : x.1 > p
    · rw [gaps_loop, if_pos h, List.mem_cons] at hg
      rcases hg with hg | hg
      · subst hg
        exact le_refl _
      · exact (le_max_left _ _).trans (ih _ g hg)
    · rw [gaps_loop, if_neg h] at hg
      exact (le_max_left _ _).trans (ih _ g hg)

/-- Consecutive gaps are separated by the run between them: whatever relation `r` holds
between the two ends of every run holds between the end of a gap and the start of every
later gap (used with `≤` and with `<`). -/
theorem gaps_loop_pairwise (r : ℚ → ℚ → Prop) (hr : ∀ a b c, r a b → b ≤ c → r a c)
    (R : ℚ) :
    ∀ (m : List (ℚ × ℚ)) (p : ℚ), (∀ x ∈ m, r x.1 x.2) →
      (gaps_loop p R m).Pairwise (fun a b => r a.2 b.1) := by
  intro m
  induction m with
  | nil =>
    intro p _
    by_cases h : p < R
    · simp [gaps_loop, if_pos h]
    · simp [gaps_loop, if_neg h]
  | cons x rest ih =>
    intro p hwf
    have hwf2 : ∀ z ∈ rest, r z.1 z.2 := fun z hz => hwf z (List.mem_cons_of_mem _ hz)
    by_cases h : x.1 > p
    · rw [gaps_loop, if_pos h, List.pairwise_cons]
      refine ⟨fun g hg => ?_, ih _ hwf2⟩
      exact hr _ _ _ (hwf x (List.mem_cons_self _ _))
        ((le_max_right _ _).trans (gaps_loop_ge R rest _ g hg))
    · rw [gaps_loop, if_neg h]
      exact ih _ hwf2

theorem not_covered_of_lt (v : ℚ) :
    ∀ (m : List (ℚ × ℚ)) (q : ℚ), RunsFrom q m → v < q → ¬ Covered v m := by
  intro m
  induction m with
  | nil =>
    intro q _ _
    exact covered_nil v
  | cons x rest ih =>
    intro q hq hv
    obtain ⟨h1, h2, h3⟩ := hq
    rw [covered_cons]
    rintro (⟨h4, _⟩ | h4)
    · exact absurd (hv.trans_le h1) (not_lt.2 h4)
    · exact ih x.2 h3 (hv.trans_le (h1.trans h2)) h4

theorem gaps_loop_covered (v R : ℚ) :
    ∀ (m : List (ℚ × ℚ)) (p : ℚ), RunsFrom p m → (∀ x ∈ m, x.2 ≤ R) →
      (Covered v (gaps_loop p R m) ↔ p ≤ v ∧ v < R ∧ ¬ Covered v m) := by
  intro m
  induction m with
  | nil =>
    intro p _ _
    by_cases h : p < R
    · simp [gaps_loop, if_pos h, Covered]
    · simp only [gaps_loop, if_neg h]
      constructor
      · intro hc
        exact absurd hc (covered_nil v)
      · rintro ⟨h1, h2, _⟩
        exact absurd (h1.trans_lt h2) h
  | cons x rest ih =>
    intro p hq hhi
    obtain ⟨h1, h2, h3⟩ := hq
    have hx : x.2 ≤ R := hhi x (List.mem_cons_self _ _)
    have hhi2 : ∀ z ∈ rest, z.2 ≤ R := fun z hz => hhi z (List.mem_cons_of_mem _ hz)
    have hmax : max p x.2 = x.2 := max_eq_right (h1.trans h2)
    have IH := ih x.2 h3 hhi2
    by_cases h : x.1 > p
    · rw [gaps_loop, if_pos h, hmax, covered_cons, IH, covered_cons]
      constructor
      · rintro (⟨h4, h5⟩ | ⟨h4, h5, h6⟩)
        · refine ⟨h4, h5.trans_le (h2.trans hx), ?_⟩
          rintro (⟨h7, _⟩ | h7)
          · exact absurd h5 (not_lt.2 h7)
          · exact not_covered_of_lt v rest x.2 h3 (h5.trans_le h2) h7
        · refine ⟨(h1.trans h2).trans h4, h5, ?_⟩
          rintro (⟨_, h8⟩ | h7)
          · exact absurd h8 (not_lt.2 h4)
          · exact h6 h7
      · rintro ⟨h4, h5, h6⟩
        by_cases h7 : v < x.1
        · exact Or.inl ⟨h4, h7⟩
        · refine Or.inr ⟨?_, h5, fun h8 => h6 (Or.inr h8)⟩
          by_contra h9
          exact h6 (Or.inl ⟨not_lt.1 h7, not_le.1 h9⟩)
    · rw [gaps_loop, if_neg h, hmax, IH, covered_cons]
      have hpx : x.1 = p := le_antisymm (not_lt.1 h) h1
      constructor
      · rintro ⟨h4, h5, h6⟩
        refine ⟨(h1.trans h2).trans h4, h5, ?_⟩
        rintro (⟨_, h8⟩ | h7)
        · exact absurd h8 (not_lt.2 h4)
        · exact h6 h7
      · rintro ⟨h4, h5, h6⟩
        refine ⟨?_, h5, fun h8 => h6 (Or.inr h8)⟩
        by_contra h9
        exact h6 (Or.inl ⟨hpx ▸ h4, not_le.1 h9⟩)

/-! ## `find_uncovered_intervals` -/

theorem find_uncovered_intervals_eq (d : Device) (lo hi : ℚ)
    (hne : d.warnings ++ d.cautions ++ d.optimals ≠ [])
    (hlo : d.rel_min = some lo) (hhi : d.rel_max = some hi) :
    d.find_uncovered_intervals =
      some (gaps_loop lo hi (merge_intervals (d.warnings ++ d.cautions ++ d.optimals))) := by
  unfold Device.find_uncovered_intervals
  have h : (d.warnings ++ d.cautions ++ d.optimals).isEmpty = false := by
    cases hb : d.warnings ++ d.cautions ++ d.optimals with
    | nil => exact absurd hb hne
    | cons _ _ => rfl
  simp only [h, hlo, hhi]
  rfl

/-- C2, as stated, fails in three ways, each at a one-band list with the range `0 .. 10`:
the band `(20, 30)` above the range gives the gap `(0, 20)` (`15` lies in the gap and
outside the range); the band `(-5, 3)` starting below the range gives the gap `(3, 10)`
(`-1` lies in the merged band and outside the range); the band `(5, 3)` with its ends
reversed gives the gaps `(0, 5)` and `(3, 10)`, which overlap. -/
theorem find_uncovered_intervals_not_tiling :
    ((analog_example 0 10 [(20, 30)] [] []).find_uncovered_intervals = some [(0, 20)] ∧
      merge_intervals ((analog_example 0 10 [(20, 30)] [] []).warnings ++
        (analog_example 0 10 [(20, 30)] [] []).cautions ++
        (analog_example 0 10 [(20, 30)] [] []).optimals) = [(20, 30)] ∧
      ¬ TilesRange [(0, 20)] [(20, 30)] 0 10) ∧
    ((analog_example 0 10 [(-5, 3)] [] []).find_uncovered_intervals = some [(3, 10)] ∧
      merge_intervals ((analog_example 0 10 [(-5, 3)] [] []).warnings ++
        (analog_example 0 10 [(-5, 3)] [] []).cautions ++
        (analog_example 0 10 [(-5, 3)] [] []).optimals) = [(-5, 3)] ∧
      ¬ TilesRange [(3, 10)] [(-5, 3)] 0 10) ∧
    ((analog_example 0 10 [(5, 3)] [] []).find_uncovered_intervals
        = some [(0, 5), (3, 10)] ∧
      merge_intervals ((analog_example 0 10 [(5, 3)] [] []).warnings ++
        (analog_example 0 10 [(5, 3)] [] []).cautions ++
        (analog_example 0 10 [(5, 3)] [] []).optimals) = [(5, 3)] ∧
      ¬ TilesRange [(0, 5), (3, 10)] [(5, 3)] 0 10) := by
  refine ⟨⟨by decide, by decide, ?_⟩, ⟨by decide, by decide, ?_⟩, ⟨by decide, by decide, ?_⟩⟩
  · rintro ⟨_, _, h⟩
    have h15 := (h 15).1
      (Or.inl ⟨(0, 20), List.mem_singleton.2 rfl, by norm_num, by norm_num⟩)
    norm_num at h15
  · rintro ⟨_, _, h⟩
    have h1 := (h (-1)).1
      (Or.inr ⟨(-5, 3), List.mem_singleton.2 rfl, by norm_num, by norm_num⟩)
    norm_num at h1
  · rintro ⟨h, _, _⟩
    rw [List.pairwise_cons] at h
    have h2 := h.1 (3, 10) (List.mem_singleton.2 rfl)
    norm_num at h2

/-- C2, amended: when the combined band list is non-empty and every band `(a, b)` has
`relMin ≤ a ≤ b ≤ relMax`, `find_uncovered_intervals` returns gaps that tile
`[relMin, relMax)` together with the merged bands (ascending, pairwise disjoint, no
overlap with a merged run, no value of the range left out), and the merged runs cover
exactly what the input bands cover. -/
theorem find_uncovered_intervals_tiles (d : Device) (lo hi : ℚ)
    (hne : d.warnings ++ d.cautions ++ d.optimals ≠ [])
    (hlo : d.rel_min = some lo) (hhi : d.rel_max = some hi)
    (hb : ∀ b ∈ d.warnings ++ d.cautions ++ d.optimals, lo ≤ b.1 ∧ b.1 ≤ b.2 ∧ b.2 ≤ hi) :
    ∃ gaps, d.find_uncovered_intervals = some gaps ∧
      TilesRange gaps (merge_intervals (d.warnings ++ d.cautions ++ d.optimals)) lo hi ∧
      ∀ v, Covered v (merge_intervals (d.warnings ++ d.cautions ++ d.optimals)) ↔
        Covered v (d.warnings ++ d.cautions ++ d.optimals) := by
  refine ⟨_, find_uncovered_intervals_eq d lo hi hne hlo hhi, ?_,
    fun v => merge_intervals_covered v _⟩
  have hruns := merge_intervals_runsFrom lo _ (fun x hx => (hb x hx).1)
    (fun x hx => (hb x hx).2.1)
  have hmax := merge_intervals_le_max hi _ (fun x hx => (hb x hx).2.2)
  have hends := merge_intervals_ends (fun a b => a ≤ b) (fun _ _ _ h1 h2 => h1.trans h2) _
    (fun x hx => (hb x hx).2.1)
  have hcov := fun v => gaps_loop_covered v hi _ lo hruns hmax
  refine ⟨gaps_loop_pairwise (fun a b => a ≤ b) (fun _ _ _ h1 h2 => h1.trans h2) hi _ lo hends,
    fun v hv => ((hcov v).1 hv.1).2.2 hv.2, fun v => ⟨?_, ?_⟩⟩
  · rintro (h | h)
    · exact ⟨((hcov v).1 h).1, ((hcov v).1 h).2.1⟩
    · obtain ⟨b, hbm, h1, h2⟩ := (merge_intervals_covered v _).1 h
      exact ⟨(hb b hbm).1.trans h1, h2.trans_le (hb b hbm).2.2⟩
  · rintro ⟨h1, h2⟩
    by_cases h : Covered v (merge_intervals (d.warnings ++ d.cautions ++ d.optimals))
    · exact Or.inr h
    · exact Or.inl ((hcov v).2 ⟨h1, h2, h⟩)

theorem find_uncovered_intervals_tiles_witness :
    ∃ gaps, (analog_example 0 10 [(1, 4)] [(4, 4)] [(3, 10)]).find_uncovered_intervals
        = some gaps ∧
      TilesRange gaps (merge_intervals ((analog_example 0 10 [(1, 4)] [(4, 4)] [(3, 10)]).warnings
        ++ (analog_example 0 10 [(1, 4)] [(4, 4)] [(3, 10)]).cautions
        ++ (analog_example 0 10 [(1, 4)] [(4, 4)] [(3, 10)]).optimals)) 0 10 ∧
      ∀ v, Covered v (merge_intervals ((analog_example 0 10 [(1, 4)] [(4, 4)] [(3, 10)]).warnings
        ++ (analog_example 0 10 [(1, 4)] [(4, 4)] [(3, 10)]).cautions
        ++ (analog_example 0 10 [(1, 4)] [(4, 4)] [(3, 10)]).optimals)) ↔
        Covered v ((analog_example 0 10 [(1, 4)] [(4, 4)] [(3, 10)]).warnings
        ++ (analog_example 0 10 [(1, 4)] [(4, 4)] [(3, 10)]).cautions
        ++ (analog_example 0 10 [(1, 4)] [(4, 4)] [(3, 10)]).optimals) :=
  find_uncovered_intervals_tiles (analog_example 0 10 [(1, 4)] [(4, 4)] [(3, 10)]) 0 10
    (by decide) rfl rfl (by decide)

/-- C3: with `relMin < relMax`, at least one band and every band `(a, b)` having
`relMin ≤ a < b ≤ relMax`, `find_uncovered_intervals` returns the uncovered stretches in
ascending order: a value lies in a returned gap exactly when it lies in the range and in no
band, every gap is non-empty and inside the range, and every gap ends strictly before each
later gap starts (a covered stretch separates them). -/
theorem find_uncovered_intervals_complement (d : Device) (lo hi : ℚ)
    (_hrange : lo < hi)
    (hne : d.warnings ++ d.cautions ++ d.optimals ≠ [])
    (hlo : d.rel_min = some lo) (hhi : d.rel_max = some hi)
    (hb : ∀ b ∈ d.warnings ++ d.cautions ++ d.optimals, lo ≤ b.1 ∧ b.1 < b.2 ∧ b.2 ≤ hi) :
    ∃ gaps, d.find_uncovered_intervals = some gaps ∧
      (∀ v, in_intervals v gaps = true ↔
        lo ≤ v ∧ v < hi ∧ d.is_warning v = false ∧ d.is_caution v = false ∧
          d.is_optimal v = false) ∧
      (∀ g ∈ gaps, lo ≤ g.1 ∧ g.1 < g.2 ∧ g.2 ≤ hi) ∧
      gaps.Pairwise (fun a b => a.2 < b.1) := by
  refine ⟨_, find_uncovered_intervals_eq d lo hi hne hlo hhi, ?_, ?_, ?_⟩
  · intro v
    have hruns := merge_intervals_runsFrom lo _ (fun x hx => (hb x hx).1)
      (fun x hx => (hb x hx).2.1.le)
    have hmax := merge_intervals_le_max hi _ (fun x hx => (hb x hx).2.2)
    rw [in_intervals_iff, gaps_loop_covered v hi _ lo hruns hmax, merge_intervals_covered,
      covered_append, covered_append]
    simp only [Device.is_warning, Device.is_caution, Device.is_optimal,
      ← in_intervals_iff, not_or, Bool.not_eq_true, and_assoc]
  · intro g hg
    have hruns := merge_intervals_runsFrom lo _ (fun x hx => (hb x hx).1)
      (fun x hx => (hb x hx).2.1.le)
    have hmax := merge_intervals_le_max hi _ (fun x hx => (hb x hx).2.2)
    have hlt := gaps_loop_lt hi _ lo g hg
    have hc1 := (gaps_loop_covered g.1 hi _ lo hruns hmax).1 ⟨g, hg, le_refl _, hlt⟩
    refine ⟨hc1.1, hlt, ?_⟩
    by_contra hgt
    have hm : max g.1 hi < g.2 := max_lt hlt (not_le.1 hgt)
    have hc2 := (gaps_loop_covered (max g.1 hi) hi _ lo hruns hmax).1
      ⟨g, hg, le_max_left _ _, hm⟩
    exact absurd hc2.2.1 (not_lt.2 (le_max_right _ _))
  · exact gaps_loop_pairwise (fun a b => a < b) (fun _ _ _ h1 h2 => h1.trans_le h2) hi _ lo
      (merge_intervals_ends (fun a b => a < b) (fun _ _ _ h1 h2 => h1.trans_le h2) _
        (fun x hx => (hb x hx).2.1))

theorem find_uncovered_intervals_complement_witness :
    (analog_example 0 10 [(0, 2)] [(1, 3)] [(5, 6)]).find_uncovered_intervals
        = some [(3, 5), (6, 10)] ∧
    ∃ gaps, (analog_example 0 10 [(0, 2)] [(1, 3)] [(5, 6)]).find_uncovered_intervals
        = some gaps ∧
      (∀ v, in_intervals v gaps = true ↔
        0 ≤ v ∧ v < 10 ∧ (analog_example 0 10 [(0, 2)] [(1, 3)] [(5, 6)]).is_warning v = false ∧
          (analog_example 0 10 [(0, 2)] [(1, 3)] [(5, 6)]).is_caution v = false ∧
          (analog_example 0 10 [(0, 2)] [(1, 3)] [(5, 6)]).is_optimal v = false) ∧
      (∀ g ∈ gaps, 0 ≤ g.1 ∧ g.1 < g.2 ∧ g.2 ≤ 10) ∧
      gaps.Pairwise (fun a b => a.2 < b.1) :=
  ⟨by decide,
    find_uncovered_intervals_complement (analog_example 0 10 [(0, 2)] [(1, 3)] [(5, 6)]) 0 10
      (by decide) (by decide) rfl rfl (by decide)⟩

/-- C4: with `warnings`, `cautions` and `optimals` all empty and `rel_min`, `rel_max`
present, `find_uncovered_intervals` returns exactly `[(rel_min, rel_max)]`. -/
theorem find_uncovered_intervals_no_bands (d : Device) (lo hi : ℚ)
    (hw : d.warnings = []) (hc : d.cautions = []) (ho : d.optimals = [])
    (hlo : d.rel_min = some lo) (hhi : d.rel_max = some hi) :
    d.find_uncovered_intervals = some [(lo, hi)] := by
  simp [Device.find_uncovered_intervals, hw, hc, ho, hlo, hhi]

theorem find_uncovered_intervals_no_bands_witness :
    (analog_example 0 10 [] [] []).find_uncovered_intervals = some [(0, 10)] :=
  find_uncovered_intervals_no_bands (analog_example 0 10 [] [] []) 0 10 rfl rfl rfl rfl rfl

/-! ## Classification -/

/-- C5: for an Analog device with `rel_min`, `rel_max` present, `value_color` of a
normalised value `v` looks at the scaled value, the `float` the source computes as
`v * (rel_max - rel_min) + rel_min`: Red1 if some warning band contains it (whatever the
other lists hold, so also when an optimal band contains it too), else Yellow1 if some
caution band does, else Green1 if some optimal band does, else Default. -/
theorem value_color_priority (R : Rounding) (d : Device) (lo hi v : ℚ)
    (ht : d.type = DeviceType.Analog)
    (hlo : d.rel_min = some lo) (hhi : d.rel_max = some hi) :
    (Covered (scale_value R v hi lo) d.warnings →
      value_color R d v = some (Decorator.color Color.Red1)) ∧
    (¬ Covered (scale_value R v hi lo) d.warnings → Covered (scale_value R v hi lo) d.cautions →
      value_color R d v = some (Decorator.color Color.Yellow1)) ∧
    (¬ Covered (scale_value R v hi lo) d.warnings → ¬ Covered (scale_value R v hi lo) d.cautions →
      Covered (scale_value R v hi lo) d.optimals →
      value_color R d v = some (Decorator.color Color.Green1)) ∧
    (¬ Covered (scale_value R v hi lo) d.warnings → ¬ Covered (scale_value R v hi lo) d.cautions →
      ¬ Covered (scale_value R v hi lo) d.optimals →
      value_color R d v = some (Decorator.color Color.Default)) ∧
    (Covered (scale_value R v hi lo) d.warnings ∧ Covered (scale_value R v hi lo) d.optimals →
      value_color R d v = some (Decorator.color Color.Red1)) := by
  simp only [← in_intervals_iff, Bool.not_eq_true]
  simp only [value_color, ht, hlo, hhi, Device.is_warning, Device.is_caution,
    Device.is_optimal]
  refine ⟨fun h => ?_, fun h1 h2 => ?_, fun h1 h2 h3 => ?_, fun h1 h2 h3 => ?_, fun h => ?_⟩
  · simp [h]
  · simp [h1, h2]
  · simp [h1, h2, h3]
  · simp [h1, h2, h3]
  · simp [h.1]

theorem value_color_priority_witness :
    scale_value ieee (3 / 8) 10 0 = 15 / 4 ∧
    value_color ieee (analog_example 0 10 [(0, 5)] [] [(3, 8)]) (3 / 8)
      = some (Decorator.color Color.Red1) ∧
    scale_value ieee (16777215 / 16777216) 2 1 = 2 ∧
    value_color ieee (analog_example 1 2 [(1, 2)] [] []) (16777215 / 16777216)
      = some (Decorator.color Color.Default) :=
  have e1 : scale_value ieee (3 / 8) 10 0 = 15 / 4 := by decide!
  have e2 : scale_value ieee (16777215 / 16777216) 2 1 = 2 := by decide!
  have hw : Covered (scale_value ieee (3 / 8) 10 0) [(0, 5)] :=
    ⟨(0, 5), List.mem_singleton.2 rfl, by rw [e1]; norm_num, by rw [e1]; norm_num⟩
  have ho : Covered (scale_value ieee (3 / 8) 10 0) [(3, 8)] :=
    ⟨(3, 8), List.mem_singleton.2 rfl, by rw [e1]; norm_num, by rw [e1]; norm_num⟩
  have hn : ¬ Covered (scale_value ieee (16777215 / 16777216) 2 1) [(1, 2)] := by
    rw [e2]
    rintro ⟨i, hi, _, h2⟩
    rw [List.mem_singleton.1 hi] at h2
    exact lt_irrefl _ h2
  have hnil : ∀ x : ℚ, ¬ Covered x [] := fun x h => by
    obtain ⟨i, hi, _⟩ := h
    exact List.not_mem_nil i hi
  ⟨e1,
    (value_color_priority ieee (analog_example 0 10 [(0, 5)] [] [(3, 8)]) 0 10 (3 / 8)
      rfl rfl rfl).2.2.2.2 ⟨hw, ho⟩,
    e2,
    (value_color_priority ieee (analog_example 1 2 [(1, 2)] [] []) 1 2 (16777215 / 16777216)
      rfl rfl rfl).2.2.2.1 hn (hnil _) (hnil _)⟩

/-- C6: for a Digital device, whatever its value, band lists and range fields hold
(absent range included), `value_color` is Default and `set_ui_thresholds` returns the
device with `ui_thresholds` set to the plain Default colour and nothing else changed. -/
theorem digital_default (R : Rounding) (d : Device) (v : ℚ) (ht : d.type = DeviceType.Digital) :
    value_color R d v = some (Decorator.color Color.Default) ∧
    d.set_ui_thresholds R
      = some { d with ui_thresholds := Decorator.color Color.Default } := by
  constructor
  · simp [value_color, ht]
  · simp [Device.set_ui_thresholds, ht]

theorem digital_default_witness :
    value_color ieee (digital_example 1 none none [(0, 1)] [(0, 1)] [(0, 1)]) 1
      = some (Decorator.color Color.Default) ∧
    (digital_example 1 none none [(0, 1)] [(0, 1)] [(0, 1)]).set_ui_thresholds ieee
      = some { digital_example 1 none none [(0, 1)] [(0, 1)] [(0, 1)] with
          ui_thresholds := Decorator.color Color.Default } :=
  digital_default ieee (digital_example 1 none none [(0, 1)] [(0, 1)] [(0, 1)]) 1 rfl

/-! ## The value simulator -/

theorem Rounding.Lawful.f32_eq {R : Rounding} (hR : R.Lawful) (q : ℚ) (n : Int) (k : Nat)
    (hq : q = (n : ℚ) / 2 ^ k) (hn : |n| ≤ 2 ^ 24) (hk : k ≤ 149) : R.f32 q = q := by
  rw [hq]
  exact hR.f32_dyadic n k hn hk

theorem Rounding.Lawful.f64_eq {R : Rounding} (hR : R.Lawful) (q : ℚ) (n : Int) (k : Nat)
    (hq : q = (n : ℚ) / 2 ^ k) (hn : |n| ≤ 2 ^ 24) (hk : k ≤ 149) : R.f64 q = q := by
  have h := hR.f64_f32 q
  rwa [hR.f32_eq q n k hq hn hk] at h

theorem Rounding.Lawful.f64_of_f32 {R : Rounding} (hR : R.Lawful) (x : ℚ)
    (hx : R.f32 x = x) : R.f64 x = x := by
  have h := hR.f64_f32 x
  rwa [hx] at h

theorem step_bounds {R : Rounding} (hR : R.Lawful) :
    1 / 256 ≤ R.f64 0.005 ∧ R.f64 0.005 ≤ 1 / 128 := by
  have h1 := hR.f64_mono (1 / 256) 0.005 (by norm_num)
  have h2 := hR.f64_mono 0.005 (1 / 128) (by norm_num)
  rw [hR.f64_eq (1 / 256) 1 8 (by norm_num) (by norm_num) (by norm_num)] at h1
  rw [hR.f64_eq (1 / 128) 1 7 (by norm_num) (by norm_num) (by norm_num)] at h2
  exact ⟨h1, h2⟩

theorem floor_bounds {R : Rounding} (hR : R.Lawful) :
    1 / 128 ≤ R.f32 0.01 ∧ R.f32 0.01 ≤ 1 / 64 := by
  have h1 := hR.f32_mono (1 / 128) 0.01 (by norm_num)
  have h2 := hR.f32_mono 0.01 (1 / 64) (by norm_num)
  rw [hR.f32_eq (1 / 128) 1 7 (by norm_num) (by norm_num) (by norm_num)] at h1
  rw [hR.f32_eq (1 / 64) 1 6 (by norm_num) (by norm_num) (by norm_num)] at h2
  exact ⟨h1, h2⟩

theorem ceiling_bounds {R : Rounding} (hR : R.Lawful) :
    1 / 2 ≤ R.f32 0.99 ∧ R.f32 0.99 ≤ 127 / 128 := by
  have h1 := hR.f32_mono (1 / 2) 0.99 (by norm_num)
  have h2 := hR.f32_mono 0.99 (127 / 128) (by norm_num)
  rw [hR.f32_eq (1 / 2) 1 1 (by norm_num) (by norm_num) (by norm_num)] at h1
  rw [hR.f32_eq (127 / 128) 127 7 (by norm_num) (by norm_num) (by norm_num)] at h2
  exact ⟨h1, h2⟩

theorem threshold_bounds {R : Rounding} (hR : R.Lawful) :
    R.f64 0.4 ≤ 7 / 16 ∧ 1 / 2 ≤ R.f64 0.6 := by
  have h1 := hR.f64_mono 0.4 (7 / 16) (by norm_num)
  have h2 := hR.f64_mono (1 / 2) 0.6 (by norm_num)
  rw [hR.f64_eq (7 / 16) 7 4 (by norm_num) (by norm_num) (by norm_num)] at h1
  rw [hR.f64_eq (1 / 2) 1 1 (by norm_num) (by norm_num) (by norm_num)] at h2
  exact ⟨h1, h2⟩

theorem not_le_of_ge_threshold {R : Rounding} (hR : R.Lawful) {r : ℚ}
    (hr : r ≥ R.f64 0.6) : ¬ r ≤ R.f64 0.4 := by
  have h := threshold_bounds hR
  intro h2
  have : (1 : ℚ) / 2 ≤ 7 / 16 := h.2.trans (hr.trans (h2.trans h.1))
  norm_num at this

theorem decreased_le {R : Rounding} (hR : R.Lawful) (x : ℚ) (hx : x ≤ 1) :
    decreased R x ≤ 255 / 256 := by
  have hc := (step_bounds hR).1
  have h1 := hR.f64_mono (x - R.f64 0.005) (255 / 256) (by linarith)
  rw [hR.f64_eq (255 / 256) 255 8 (by norm_num) (by norm_num) (by norm_num)] at h1
  have h2 := hR.f32_mono _ _ h1
  rw [hR.f32_eq (255 / 256) 255 8 (by norm_num) (by norm_num) (by norm_num)] at h2
  exact h2

theorem increased_ge {R : Rounding} (hR : R.Lawful) (x : ℚ) (hx : 0 ≤ x) :
    1 / 256 ≤ increased R x := by
  have hc := (step_bounds hR).1
  have h1 := hR.f64_mono (1 / 256) (x + R.f64 0.005) (by linarith)
  rw [hR.f64_eq (1 / 256) 1 8 (by norm_num) (by norm_num) (by norm_num)] at h1
  have h2 := hR.f32_mono _ _ h1
  rw [hR.f32_eq (1 / 256) 1 8 (by norm_num) (by norm_num) (by norm_num)] at h2
  exact h2

theorem decreased_le_self {R : Rounding} (hR : R.Lawful) (x : ℚ) (hx : R.f32 x = x) :
    decreased R x ≤ x := by
  have hc := (step_bounds hR).1
  have h1 := hR.f64_mono (x - R.f64 0.005) x (by linarith)
  rw [hR.f64_of_f32 x hx] at h1
  have h2 := hR.f32_mono _ _ h1
  rw [hx] at h2
  exact h2

theorem self_le_increased {R : Rounding} (hR : R.Lawful) (x : ℚ) (hx : R.f32 x = x) :
    x ≤ increased R x := by
  have hc := (step_bounds hR).1
  have h1 := hR.f64_mono x (x + R.f64 0.005) (by linarith)
  rw [hR.f64_of_f32 x hx] at h1
  have h2 := hR.f32_mono _ _ h1
  rw [hx] at h2
  exact h2

theorem step_near {R : Rounding} (hR : R.Lawful) (x : ℚ) (h0 : 0 ≤ x) (h1 : x ≤ 1) :
    |decreased R x - (x - 0.005)| ≤ 1 / 2 ^ 23 ∧
    |increased R x - (x + 0.005)| ≤ 1 / 2 ^ 23 := by
  obtain ⟨c1, c2⟩ := step_bounds hR
  have hc := abs_le.1 (hR.f64_near 0.005 (by rw [abs_of_pos] <;> norm_num))
  have one32 := hR.f32_eq 1 1 0 (by norm_num) (by norm_num) (by norm_num)
  have two64 := hR.f64_eq 2 2 0 (by norm_num) (by norm_num) (by norm_num)
  have mone64 := hR.f64_eq (-1) (-1) 0 (by norm_num) (by norm_num) (by norm_num)
  constructor
  · have ha : |x - R.f64 0.005| ≤ 2 := abs_le.2 ⟨by linarith, by linarith⟩
    have hy := abs_le.1 (hR.f64_near _ ha)
    have hl := hR.f64_mono (-1) (x - R.f64 0.005) (by linarith)
    have hu := hR.f64_mono (x - R.f64 0.005) 2 (by linarith)
    rw [mone64] at hl
    rw [two64] at hu
    have hz := abs_le.1 (hR.f32_near (R.f64 (x - R.f64 0.005)) (abs_le.2 ⟨by linarith, hu⟩))
    unfold decreased
    rw [abs_le]
    norm_num at hc hy hz ⊢
    constructor <;> linarith
  · have ha : |x + R.f64 0.005| ≤ 2 := abs_le.2 ⟨by linarith, by linarith⟩
    have hy := abs_le.1 (hR.f64_near _ ha)
    have hl := hR.f64_mono (-1) (x + R.f64 0.005) (by linarith)
    have hu := hR.f64_mono (x + R.f64 0.005) 2 (by linarith)
    rw [mone64] at hl
    rw [two64] at hu
    have hz := abs_le.1 (hR.f32_near (R.f64 (x + R.f64 0.005)) (abs_le.2 ⟨by linarith, hu⟩))
    unfold increased
    rw [abs_le]
    norm_num at hc hy hz ⊢
    constructor <;> linarith

theorem decreased_mono {R : Rounding} (hR : R.Lawful) (a b : ℚ) (h : a ≤ b) :
    decreased R a ≤ decreased R b :=
  hR.f32_mono _ _ (hR.f64_mono _ _ (by linarith))

theorem increased_mono {R : Rounding} (hR : R.Lawful) (a b : ℚ) (h : a ≤ b) :
    increased R a ≤ increased R b :=
  hR.f32_mono _ _ (hR.f64_mono _ _ (by linarith))

/-- For a `float` `r`, comparing with the `double` literals `0.4`, `0.6`, `0.99` is
comparing with the decimals: no `float` lies between a decimal and its `double`. -/
theorem thresholds_decimal (r : ℚ) (hr : ieee.f32 r = r) :
    (r ≤ ieee.f64 0.4 ↔ r ≤ 0.4) ∧ (r ≥ ieee.f64 0.6 ↔ r ≥ 0.6) ∧
    (r ≥ ieee.f64 0.99 ↔ r ≥ 0.99) := by
  have g1 := ieee_f32_gap r 13421772 25 hr (by norm_num) (by norm_num) (by norm_num)
  have g2 := ieee_f32_gap r 10066329 24 hr (by norm_num) (by norm_num) (by norm_num)
  have g3 := ieee_f32_gap r 16609443 24 hr (by norm_num) (by norm_num) (by norm_num)
  have a1 : (13421772 / 33554432 : ℚ) ≤ ieee.f64 0.4 := by decide!
  have a2 : ieee.f64 0.4 < (13421773 / 33554432 : ℚ) := by decide!
  have b1 : (10066329 / 16777216 : ℚ) < ieee.f64 0.6 := by decide!
  have b2 : ieee.f64 0.6 ≤ (10066330 / 16777216 : ℚ) := by decide!
  have c1 : (16609443 / 16777216 : ℚ) < ieee.f64 0.99 := by decide!
  have c2 : ieee.f64 0.99 ≤ (16609444 / 16777216 : ℚ) := by decide!
  norm_num at g1 g2 g3 a1 a2 b1 b2 c1 c2 ⊢
  refine ⟨?_, ?_, ?_⟩
  · constructor <;> intro h <;> rcases g1 with g | g <;> linarith
  · constructor <;> intro h <;> rcases g2 with g | g <;> linarith
  · constructor <;> intro h <;> rcases g3 with g | g <;> linarith

/-- For a `float` live value `x`, the guards on the stepped values are the decimal
conditions: the decrease step keeps its stepped value exactly when `0.005 < x`, the
increase step exactly when `x < 0.995`. -/
theorem guards_decimal (x : ℚ) (hx : ieee.f32 x = x) :
    (0 < decreased ieee x ↔ 0.005 < x) ∧ (increased ieee x < 1 ↔ x < 0.995) := by
  have g1 := ieee_f32_gap x 10737418 31 hx (by norm_num) (by norm_num) (by norm_num)
  have g2 := ieee_f32_gap x 16693329 24 hx (by norm_num) (by norm_num) (by norm_num)
  have d1 : decreased ieee (10737418 / 2147483648) ≤ 0 := by decide!
  have d2 : 0 < decreased ieee (10737419 / 2147483648) := by decide!
  have i1 : increased ieee (16693329 / 16777216) < 1 := by decide!
  have i2 : 1 ≤ increased ieee (16693330 / 16777216) := by decide!
  have e1 : ((10737418 : Int) : ℚ) / 2 ^ 31 = 10737418 / 2147483648 := by norm_num
  have e2 : (((10737418 : Int) : ℚ) + 1) / 2 ^ 31 = 10737419 / 2147483648 := by norm_num
  have e3 : ((16693329 : Int) : ℚ) / 2 ^ 24 = 16693329 / 16777216 := by norm_num
  have e4 : (((16693329 : Int) : ℚ) + 1) / 2 ^ 24 = 16693330 / 16777216 := by norm_num
  rw [e1, e2] at g1
  rw [e3, e4] at g2
  have down : 0 < decreased ieee x ↔ 0.005 < x := by
    constructor
    · intro h
      rcases g1 with g | g
      · exact absurd (lt_of_lt_of_le h ((decreased_mono ieee_lawful _ _ g).trans d1))
          (lt_irrefl _)
      · exact lt_of_lt_of_le (by norm_num) g
    · intro h
      rcases g1 with g | g
      · exfalso
        norm_num at g h
        linarith
      · exact lt_of_lt_of_le d2 (decreased_mono ieee_lawful _ _ g)
  have up : increased ieee x < 1 ↔ x < 0.995 := by
    constructor
    · intro h
      rcases g2 with g | g
      · exact lt_of_le_of_lt g (by norm_num)
      · exact absurd (lt_of_le_of_lt (i2.trans (increased_mono ieee_lawful _ _ g)) h)
          (lt_irrefl _)
    · intro h
      rcases g2 with g | g
      · exact lt_of_le_of_lt (increased_mono ieee_lawful _ _ g) i1
      · exfalso
        norm_num at g h
        linarith
  exact ⟨down, up⟩

theorem update_value_type (R : Rounding) (d : Device) (r : ℚ) :
    (d.update_value R r).type = d.type := by
  unfold Device.update_value
  cases ht : d.type <;> simp only <;> split_ifs <;> simp [ht]

theorem update_value_analog (R : Rounding) (d : Device) (r : ℚ)
    (ht : d.type = DeviceType.Analog) :
    (d.update_value R r)._value_analog =
      if r ≤ R.f64 0.4 then
        (if decreased R d._value_analog ≤ 0.0 then R.f32 0.01 else decreased R d._value_analog)
      else if r ≥ R.f64 0.6 then
        (if increased R d._value_analog ≥ 1.0 then R.f32 0.99 else increased R d._value_analog)
      else d._value_analog := by
  unfold Device.update_value
  rw [ht]
  simp only
  split_ifs <;> rfl

theorem update_value_digital (R : Rounding) (d : Device) (r : ℚ)
    (ht : d.type = DeviceType.Digital) :
    (d.update_value R r)._value_digital =
      if r ≥ R.f64 0.99 then (if d._value_digital = 1 then 0 else 1)
      else d._value_digital := by
  unfold Device.update_value
  rw [ht]
  simp only
  split_ifs <;> rfl

theorem update_value_open {R : Rounding} (hR : R.Lawful) (d : Device) (r : ℚ)
    (ht : d.type = DeviceType.Analog)
    (h0 : 0 < d._value_analog) (h1 : d._value_analog < 1) :
    0 < (d.update_value R r)._value_analog ∧ (d.update_value R r)._value_analog < 1 := by
  have hf := floor_bounds hR
  have hc := ceiling_bounds hR
  have hd := decreased_le hR d._value_analog h1.le
  have hi := increased_ge hR d._value_analog h0.le
  rw [update_value_analog R d r ht]
  split_ifs with a b c e <;> constructor <;> norm_num at * <;> linarith

theorem update_values_open {R : Rounding} (hR : R.Lawful) (rs : List ℚ) :
    ∀ d : Device, d.type = DeviceType.Analog → 0 < d._value_analog → d._value_analog < 1 →
      0 < (d.update_values R rs)._value_analog ∧ (d.update_values R rs)._value_analog < 1 := by
  induction rs with
  | nil =>
    intro d _ h0 h1
    exact ⟨h0, h1⟩
  | cons r rs ih =>
    intro d ht h0 h1
    have h := update_value_open hR d r ht h0 h1
    exact ih (d.update_value R r) ((update_value_type R d r).trans ht) h.1 h.2

theorem update_value_float {R : Rounding} (hR : R.Lawful) (d : Device) (r : ℚ)
    (ht : d.type = DeviceType.Analog) (hx : R.f32 d._value_analog = d._value_analog) :
    R.f32 (d.update_value R r)._value_analog = (d.update_value R r)._value_analog := by
  rw [update_value_analog R d r ht]
  unfold decreased increased
  split_ifs <;> first | exact hR.f32_idem _ | exact hx

theorem update_values_float {R : Rounding} (hR : R.Lawful) (rs : List ℚ) :
    ∀ d : Device, d.type = DeviceType.Analog → R.f32 d._value_analog = d._value_analog →
      R.f32 (d.update_values R rs)._value_analog = (d.update_values R rs)._value_analog := by
  induction rs with
  | nil =>
    intro d _ hx
    exact hx
  | cons r rs ih =>
    intro d ht hx
    exact ih (d.update_value R r) ((update_value_type R d r).trans ht)
      (update_value_float hR d r ht hx)

theorem update_values_type (R : Rounding) (rs : List ℚ) :
    ∀ d : Device, (d.update_values R rs).type = d.type := by
  induction rs with
  | nil => intro d; rfl
  | cons r rs ih =>
    intro d
    exact (ih (d.update_value R r)).trans (update_value_type R d r)

theorem update_values_append (R : Rounding) (d : Device) (rs : List ℚ) (r : ℚ) :
    d.update_values R (rs ++ [r]) = (d.update_values R rs).update_value R r := by
  simp [Device.update_values, List.foldl_append]

/-- C7: for an Analog device whose live value lies strictly between 0 and 1, the live
value after one `update_value` step, and after any sequence of steps (decrease steps,
increase steps or unchanged ones in any order), again lies strictly between 0 and 1. -/
theorem update_value_preserves_open_unit (R : Rounding) (hR : R.Lawful) (d : Device)
    (ht : d.type = DeviceType.Analog)
    (h0 : 0 < d._value_analog) (h1 : d._value_analog < 1) :
    (∀ r : ℚ, 0 < (d.update_value R r)._value_analog ∧
      (d.update_value R r)._value_analog < 1) ∧
    (∀ rs : List ℚ,
      0 < (d.update_values R rs)._value_analog ∧ (d.update_values R rs)._value_analog < 1) :=
  ⟨fun r => update_value_open hR d r ht h0 h1, fun rs => update_values_open hR rs d ht h0 h1⟩

theorem update_value_preserves_open_unit_witness :
    (analog_at (1 / 256)).type = DeviceType.Analog ∧
    0 < (analog_at (1 / 256))._value_analog ∧ (analog_at (1 / 256))._value_analog < 1 ∧
    ((analog_at (1 / 256)).update_value ieee 0)._value_analog = 5368709 / 536870912 ∧
    (∀ r : ℚ, 0 < ((analog_at (1 / 256)).update_value ieee r)._value_analog ∧
      ((analog_at (1 / 256)).update_value ieee r)._value_analog < 1) ∧
    (∀ rs : List ℚ, 0 < ((analog_at (1 / 256)).update_values ieee rs)._value_analog ∧
      ((analog_at (1 / 256)).update_values ieee rs)._value_analog < 1) :=
  ⟨rfl, by norm_num [analog_at], by norm_num [analog_at], by decide!,
    update_value_preserves_open_unit ieee ieee_lawful (analog_at (1 / 256)) rfl
      (by norm_num [analog_at]) (by norm_num [analog_at])⟩

/-- C8, as stated, fails: from the live value `1 / 64`, in `[0.01, 0.99]`, two decrease
steps give `3019899 / 536870912`, about `0.0056`, below the floor `0.01`, and from
`63 / 64` two increase steps give `4170711 / 4194304`, about `0.9944`, above the ceiling
`0.99` (the guards compare the stepped value with `0` and with `1`). -/
theorem update_value_leaves_clamp_band :
    (analog_at (1 / 64)).type = DeviceType.Analog ∧
    (0.01 ≤ (analog_at (1 / 64))._value_analog ∧ (analog_at (1 / 64))._value_analog ≤ 0.99) ∧
    ((analog_at (1 / 64)).update_values ieee [0, 0])._value_analog
      = 3019899 / 536870912 ∧
    ((analog_at (1 / 64)).update_values ieee [0, 0])._value_analog < 0.01 ∧
    ((analog_at (1 / 64)).update_values ieee [0, 0])._value_analog < ieee.f32 0.01 ∧
    (0.01 ≤ (analog_at (63 / 64))._value_analog ∧
      (analog_at (63 / 64))._value_analog ≤ 0.99) ∧
    ((analog_at (63 / 64)).update_values ieee [1, 1])._value_analog
      = 4170711 / 4194304 ∧
    0.99 < ((analog_at (63 / 64)).update_values ieee [1, 1])._value_analog ∧
    ieee.f32 0.99 < ((analog_at (63 / 64)).update_values ieee [1, 1])._value_analog := by
  refine ⟨rfl, ⟨?_, ?_⟩, ?_, ?_, ?_, ⟨?_, ?_⟩, ?_, ?_, ?_⟩ <;> decide!

/-- C8, amended: starting from any live value between the floor `0.01f` and the ceiling
`0.99f`, after any sequence of `update_value` steps the live value of an Analog device is
strictly above `0` and strictly below `1`; a further decrease step whose stepped value is
`≤ 0` sets it to `0.01f`, and a further increase step whose stepped value is `≥ 1` sets
it to `0.99f`. In IEEE arithmetic, for `float`s, these are the steps with `r ≤ 0.4` from
a live value `x` with `x - 0.005 ≤ 0` and with `r ≥ 0.6` from one with `x + 0.005 ≥ 1`. -/
theorem update_values_within_unit (R : Rounding) (hR : R.Lawful) (d : Device) (rs : List ℚ)
    (ht : d.type = DeviceType.Analog)
    (h1 : R.f32 0.01 ≤ d._value_analog) (h2 : d._value_analog ≤ R.f32 0.99) :
    0 < (d.update_values R rs)._value_analog ∧ (d.update_values R rs)._value_analog < 1 ∧
    (∀ r : ℚ, r ≤ R.f64 0.4 → decreased R (d.update_values R rs)._value_analog ≤ 0 →
      (d.update_values R (rs ++ [r]))._value_analog = R.f32 0.01) ∧
    (∀ r : ℚ, r ≥ R.f64 0.6 → increased R (d.update_values R rs)._value_analog ≥ 1 →
      (d.update_values R (rs ++ [r]))._value_analog = R.f32 0.99) ∧
    (R = ieee → R.f32 d._value_analog = d._value_analog → ∀ r : ℚ, R.f32 r = r →
      (r ≤ 0.4 → (d.update_values R rs)._value_analog - 0.005 ≤ 0 →
        (d.update_values R (rs ++ [r]))._value_analog = R.f32 0.01) ∧
      (r ≥ 0.6 → (d.update_values R rs)._value_analog + 0.005 ≥ 1 →
        (d.update_values R (rs ++ [r]))._value_analog = R.f32 0.99)) := by
  have h0 : 0 < d._value_analog :=
    lt_of_lt_of_le (lt_of_lt_of_le (by norm_num) (floor_bounds hR).1) h1
  have h3 : d._value_analog < 1 :=
    lt_of_le_of_lt (h2.trans (ceiling_bounds hR).2) (by norm_num)
  have hopen := update_values_open hR rs d ht h0 h3
  have htype := (update_values_type R rs d).trans ht
  have hdown : ∀ r : ℚ, r ≤ R.f64 0.4 →
      decreased R (d.update_values R rs)._value_analog ≤ 0 →
      (d.update_values R (rs ++ [r]))._value_analog = R.f32 0.01 := by
    intro r hr hv
    rw [update_values_append, update_value_analog _ _ _ htype, if_pos hr, if_pos]
    norm_num
    exact hv
  have hup : ∀ r : ℚ, r ≥ R.f64 0.6 →
      increased R (d.update_values R rs)._value_analog ≥ 1 →
      (d.update_values R (rs ++ [r]))._value_analog = R.f32 0.99 := by
    intro r hr hv
    rw [update_values_append, update_value_analog _ _ _ htype,
      if_neg (not_le_of_ge_threshold hR hr), if_pos hr, if_pos]
    norm_num
    exact hv
  refine ⟨hopen.1, hopen.2, hdown, hup, ?_⟩
  intro hi hx r hr
  subst hi
  have hcur := update_values_float ieee_lawful rs d ht hx
  have hg := guards_decimal _ hcur
  have hth := thresholds_decimal r hr
  refine ⟨fun h4 h5 => hdown r (hth.1.2 h4) ?_, fun h4 h5 => hup r (hth.2.1.2 h4) ?_⟩
  · refine not_lt.1 (fun h6 => ?_)
    have := hg.1.1 h6
    norm_num at this h5
    linarith
  · refine not_lt.1 (fun h6 => ?_)
    have := hg.2.1 h6
    norm_num at this h5
    linarith

theorem update_values_within_unit_witness :
    (ieee.f32 0.01 ≤ (analog_at (1 / 2))._value_analog ∧
      (analog_at (1 / 2))._value_analog ≤ ieee.f32 0.99) ∧
    0 < ((analog_at (1 / 2)).update_values ieee [0, 1])._value_analog ∧
    ((analog_at (1 / 2)).update_values ieee [0, 1])._value_analog < 1 ∧
    (∀ r : ℚ, r ≤ ieee.f64 0.4 →
      decreased ieee ((analog_at (1 / 2)).update_values ieee [0, 1])._value_analog ≤ 0 →
      ((analog_at (1 / 2)).update_values ieee ([0, 1] ++ [r]))._value_analog
        = ieee.f32 0.01) ∧
    (∀ r : ℚ, r ≥ ieee.f64 0.6 →
      increased ieee ((analog_at (1 / 2)).update_values ieee [0, 1])._value_analog ≥ 1 →
      ((analog_at (1 / 2)).update_values ieee ([0, 1] ++ [r]))._value_analog
        = ieee.f32 0.99) ∧
    ((0 : ℚ) ≤ 0.4 →
      ((analog_at (ieee.f32 0.01)).update_values ieee [0])._value_analog - 0.005 ≤ 0 →
      ((analog_at (ieee.f32 0.01)).update_values ieee ([0] ++ [0]))._value_analog
        = ieee.f32 0.01) :=
  have h := update_values_within_unit ieee ieee_lawful (analog_at (1 / 2)) [0, 1] rfl
    (by decide!) (by decide!)
  ⟨⟨by decide!, by decide!⟩, h.1, h.2.1, h.2.2.1, h.2.2.2.1,
    ((update_values_within_unit ieee ieee_lawful (analog_at (ieee.f32 0.01)) [0] rfl
      (by decide!) (by decide!)).2.2.2.2 rfl (by decide!) 0 (by decide!)).1⟩

/-- C9, as stated, fails: the step is computed in `double` and stored as `float`, so
from the live value `0.5` a decrease step (`r = 0 ≤ 0.4`, `0.5 - 0.005 > 0`) stores
`4152361 / 8388608`, not `0.5 - 0.005`, and an increase step (`r = 1 ≥ 0.6`,
`0.5 + 0.005 < 1`) stores `4236247 / 8388608`, not `0.5 + 0.005`. -/
theorem update_value_step_inexact :
    (analog_at (1 / 2)).type = DeviceType.Analog ∧
    (0 : ℚ) ≤ 0.4 ∧ (analog_at (1 / 2))._value_analog - 0.005 > 0 ∧
    ((analog_at (1 / 2)).update_value ieee 0)._value_analog = 4152361 / 8388608 ∧
    ((analog_at (1 / 2)).update_value ieee 0)._value_analog
      ≠ (analog_at (1 / 2))._value_analog - 0.005 ∧
    (1 : ℚ) ≥ 0.6 ∧ (analog_at (1 / 2))._value_analog + 0.005 < 1 ∧
    ((analog_at (1 / 2)).update_value ieee 1)._value_analog = 4236247 / 8388608 ∧
    ((analog_at (1 / 2)).update_value ieee 1)._value_analog
      ≠ (analog_at (1 / 2))._value_analog + 0.005 := by
  have hd : ((analog_at (1 / 2)).update_value ieee 0)._value_analog = 4152361 / 8388608 := by
    decide!
  have hu : ((analog_at (1 / 2)).update_value ieee 1)._value_analog = 4236247 / 8388608 := by
    decide!
  refine ⟨rfl, by norm_num, by norm_num [analog_at], hd, ?_, by norm_num,
    by norm_num [analog_at], hu, ?_⟩
  · rw [hd]; norm_num [analog_at]
  · rw [hu]; norm_num [analog_at]

/-- C9, amended: for an Analog device with old live value `x`, `update_value` leaves `x`
when `r` lies strictly between the `double`s `0.4` and `0.6`; when `r ≤ 0.4` and the
stepped value `decreased x` (the `double` difference `x - 0.005` stored as `float`) is
`> 0` the new live value is `decreased x`; when `r ≥ 0.6` and the stepped value
`increased x` is `< 1` the new live value is `increased x`; `r = 0.4` and `r = 0.6`
step; for `0 ≤ x ≤ 1` the stepped values are within `2 ^ -23` of `x - 0.005` and of
`x + 0.005`. In IEEE arithmetic, for `float`s `x` and `r`, the cases are `0.4 < r < 0.6`,
`r ≤ 0.4` with `x - 0.005 > 0`, and `r ≥ 0.6` with `x + 0.005 < 1`. -/
theorem update_value_step (R : Rounding) (hR : R.Lawful) (d : Device) (r : ℚ)
    (ht : d.type = DeviceType.Analog) :
    (R.f64 0.4 < r → r < R.f64 0.6 →
      (d.update_value R r)._value_analog = d._value_analog) ∧
    (r ≤ R.f64 0.4 → decreased R d._value_analog > 0 →
      (d.update_value R r)._value_analog = decreased R d._value_analog) ∧
    (r ≥ R.f64 0.6 → increased R d._value_analog < 1 →
      (d.update_value R r)._value_analog = increased R d._value_analog) ∧
    (decreased R d._value_analog > 0 →
      (d.update_value R (R.f64 0.4))._value_analog = decreased R d._value_analog) ∧
    (increased R d._value_analog < 1 →
      (d.update_value R (R.f64 0.6))._value_analog = increased R d._value_analog) ∧
    (0 ≤ d._value_analog → d._value_analog ≤ 1 →
      |decreased R d._value_analog - (d._value_analog - 0.005)| ≤ 1 / 2 ^ 23 ∧
      |increased R d._value_analog - (d._value_analog + 0.005)| ≤ 1 / 2 ^ 23) ∧
    (R = ieee → R.f32 d._value_analog = d._value_analog → R.f32 r = r →
      (0.4 < r → r < 0.6 → (d.update_value R r)._value_analog = d._value_analog) ∧
      (r ≤ 0.4 → d._value_analog - 0.005 > 0 →
        (d.update_value R r)._value_analog = decreased R d._value_analog) ∧
      (r ≥ 0.6 → d._value_analog + 0.005 < 1 →
        (d.update_value R r)._value_analog = increased R d._value_analog)) := by
  have hdown : ∀ q : ℚ, q ≤ R.f64 0.4 → decreased R d._value_analog > 0 →
      (d.update_value R q)._value_analog = decreased R d._value_analog := by
    intro q hq hx
    rw [update_value_analog R d q ht, if_pos hq, if_neg]
    norm_num
    exact hx
  have hup : ∀ q : ℚ, q ≥ R.f64 0.6 → increased R d._value_analog < 1 →
      (d.update_value R q)._value_analog = increased R d._value_analog := by
    intro q hq hx
    rw [update_value_analog R d q ht, if_neg (not_le_of_ge_threshold hR hq), if_pos hq, if_neg]
    norm_num
    exact hx
  have hmid : R.f64 0.4 < r → r < R.f64 0.6 →
      (d.update_value R r)._value_analog = d._value_analog := by
    intro h1 h2
    rw [update_value_analog R d r ht, if_neg (not_le.2 h1), if_neg (not_le.2 h2)]
  refine ⟨hmid, hdown r, hup r, hdown _ (le_refl _), hup _ (le_refl _),
    fun h0 h1 => step_near hR _ h0 h1, ?_⟩
  intro hi hx hr
  subst hi
  have hg := guards_decimal _ hx
  have hth := thresholds_decimal r hr
  refine ⟨fun h1 h2 => hmid ?_ ?_, fun h1 h2 => hdown r (hth.1.2 h1) (hg.1.2 ?_),
    fun h1 h2 => hup r (hth.2.1.2 h1) (hg.2.2 ?_)⟩
  · exact not_le.1 (fun h => absurd (hth.1.1 h) (not_le.2 h1))
  · exact not_le.1 (fun h => absurd (hth.2.1.1 h) (not_le.2 h2))
  · norm_num at h2 ⊢
    linarith
  · norm_num at h2 ⊢
    linarith

theorem update_value_step_witness :
    (analog_at (1 / 2)).type = DeviceType.Analog ∧
    ((analog_at (1 / 2)).update_value ieee (1 / 2))._value_analog
      = (analog_at (1 / 2))._value_analog ∧
    decreased ieee (analog_at (1 / 2))._value_analog = 4152361 / 8388608 ∧
    ((analog_at (1 / 2)).update_value ieee (ieee.f64 0.4))._value_analog
      = decreased ieee (analog_at (1 / 2))._value_analog ∧
    increased ieee (analog_at (1 / 2))._value_analog = 4236247 / 8388608 ∧
    ((analog_at (1 / 2)).update_value ieee (ieee.f64 0.6))._value_analog
      = increased ieee (analog_at (1 / 2))._value_analog ∧
    |decreased ieee (analog_at (1 / 2))._value_analog
      - ((analog_at (1 / 2))._value_analog - 0.005)| ≤ 1 / 2 ^ 23 ∧
    ((analog_at (1 / 2)).update_value ieee 0)._value_analog
      = decreased ieee (analog_at (1 / 2))._value_analog :=
  ⟨rfl,
    (update_value_step ieee ieee_lawful (analog_at (1 / 2)) (1 / 2) rfl).1
      (by decide!) (by decide!),
    by decide!,
    (update_value_step ieee ieee_lawful (analog_at (1 / 2)) 0 rfl).2.2.2.1 (by decide!),
    by decide!,
    (update_value_step ieee ieee_lawful (analog_at (1 / 2)) 0 rfl).2.2.2.2.1 (by decide!),
    ((update_value_step ieee ieee_lawful (analog_at (1 / 2)) 0 rfl).2.2.2.2.2.1
      (by norm_num [analog_at]) (by norm_num [analog_at])).1,
    ((update_value_step ieee ieee_lawful (analog_at (1 / 2)) 0 rfl).2.2.2.2.2.2 rfl
      (by decide!) (by decide!)).2.1 (by norm_num) (by norm_num [analog_at])⟩

theorem update_values_digital (R : Rounding) (rs : List ℚ) :
    ∀ d : Device, d.type = DeviceType.Digital → (d._value_digital = 0 ∨ d._value_digital = 1) →
      ((d.update_values R rs)._value_digital = 0 ∨
        (d.update_values R rs)._value_digital = 1) := by
  induction rs with
  | nil =>
    intro d _ hv
    exact hv
  | cons r rs ih =>
    intro d ht hv
    refine ih (d.update_value R r) ((update_value_type R d r).trans ht) ?_
    rw [update_value_digital R d r ht]
    split_ifs
    · exact Or.inl rfl
    · exact Or.inr rfl
    · exact hv

/-- C10: for a Digital device whose live value is `0` or `1`, `update_value` with
`r ≥ 0.99` turns `0` into `1` and `1` into `0`, with `r < 0.99` leaves it unchanged; after
any sequence of steps the live value is still `0` or `1`, and two flips in a row restore
the original value. The source compares with the `double` `0.99`, which for a `float` `r`
in IEEE arithmetic is comparing with the decimal. -/
theorem update_value_digital_flip (R : Rounding) (d : Device)
    (ht : d.type = DeviceType.Digital)
    (hv : d._value_digital = 0 ∨ d._value_digital = 1) :
    (∀ r : ℚ, r ≥ R.f64 0.99 →
      (d._value_digital = 0 → (d.update_value R r)._value_digital = 1) ∧
      (d._value_digital = 1 → (d.update_value R r)._value_digital = 0)) ∧
    (∀ r : ℚ, r < R.f64 0.99 → (d.update_value R r)._value_digital = d._value_digital) ∧
    (∀ rs : List ℚ, (d.update_values R rs)._value_digital = 0 ∨
      (d.update_values R rs)._value_digital = 1) ∧
    (∀ r₁ r₂ : ℚ, r₁ ≥ R.f64 0.99 → r₂ ≥ R.f64 0.99 →
      ((d.update_value R r₁).update_value R r₂)._value_digital = d._value_digital) ∧
    (R = ieee → ∀ r : ℚ, R.f32 r = r →
      (r ≥ 0.99 →
        (d._value_digital = 0 → (d.update_value R r)._value_digital = 1) ∧
        (d._value_digital = 1 → (d.update_value R r)._value_digital = 0)) ∧
      (r < 0.99 → (d.update_value R r)._value_digital = d._value_digital)) := by
  have hflip : ∀ r : ℚ, r ≥ R.f64 0.99 →
      (d._value_digital = 0 → (d.update_value R r)._value_digital = 1) ∧
      (d._value_digital = 1 → (d.update_value R r)._value_digital = 0) := by
    intro r hr
    constructor
    · intro h
      rw [update_value_digital R d r ht, if_pos hr, h]
      rfl
    · intro h
      rw [update_value_digital R d r ht, if_pos hr, h]
      rfl
  have hkeep : ∀ r : ℚ, r < R.f64 0.99 →
      (d.update_value R r)._value_digital = d._value_digital := by
    intro r hr
    rw [update_value_digital R d r ht, if_neg (not_le.2 hr)]
  refine ⟨hflip, hkeep, fun rs => update_values_digital R rs d ht hv, fun r₁ r₂ h₁ h₂ => ?_,
    ?_⟩
  · rw [update_value_digital R _ r₂ ((update_value_type R d r₁).trans ht), if_pos h₂,
      update_value_digital R d r₁ ht, if_pos h₁]
    rcases hv with h | h <;> rw [h] <;> rfl
  · intro hi r hr
    subst hi
    have hth := (thresholds_decimal r hr).2.2
    exact ⟨fun h => hflip r (hth.2 h),
      fun h => hkeep r (not_le.1 (fun h2 => absurd (hth.1 h2) (not_le.2 h)))⟩

theorem update_value_digital_flip_witness :
    ((digital_example 0 none none [] [] []).update_value ieee 1)._value_digital = 1 ∧
    ((digital_example 0 none none [] [] []).update_value ieee (1 / 2))._value_digital = 0 ∧
    (((digital_example 0 none none [] [] []).update_value ieee 1).update_value ieee
      (127 / 128))._value_digital = 0 ∧
    ((digital_example 0 none none [] [] []).update_value ieee (63 / 64))._value_digital
      = 0 :=
  ⟨((update_value_digital_flip ieee (digital_example 0 none none [] [] []) rfl
      (Or.inl rfl)).1 1 (by decide!)).1 rfl,
    (update_value_digital_flip ieee (digital_example 0 none none [] [] []) rfl
      (Or.inl rfl)).2.1 (1 / 2) (by decide!),
    (update_value_digital_flip ieee (digital_example 0 none none [] [] []) rfl
      (Or.inl rfl)).2.2.2.1 1 (127 / 128) (by decide!) (by decide!),
    ((update_value_digital_flip ieee (digital_example 0 none none [] [] []) rfl
      (Or.inl rfl)).2.2.2.2 rfl (63 / 64) (by decide!)).2 (by norm_num)⟩

/-! ## The history ring -/

/-- Rotating a ring of `hist_size` slots left by one and overwriting the last slot is
dropping the first slot and appending the new value. -/
theorem rotate_set_last {α : Type} (l : List α) (x : α) (hl : l.length = hist_size) :
    (l.rotate 1).set (hist_size - 1) x = l.drop 1 ++ [x] := by
  have h1 : 1 ≤ l.length := by rw [hl]; decide
  have hd : (l.drop 1).length = hist_size - 1 := by rw [List.length_drop, hl]
  have ht : (l.take 1).length = 1 := by
    rw [List.length_take]
    exact min_eq_left h1
  rw [List.rotate_eq_drop_append_take h1, List.set_append, hd, if_neg (lt_irrefl _),
    Nat.sub_self]
  congr 1
  match hlt : l.take 1, ht with
  | [a], _ => rfl

theorem record_value_to_hist_analog (d : Device)
    (ha : d._value_analog_hist.length = hist_size) :
    d.record_value_to_hist._value_analog_hist = d._value_analog_hist.drop 1 ++ [d._value_analog] :=
  rotate_set_last _ _ ha

theorem record_value_to_hist_digital (d : Device)
    (hd : d._value_digital_hist.length = hist_size) :
    d.record_value_to_hist._value_digital_hist
      = d._value_digital_hist.drop 1 ++ [d._value_digital] :=
  rotate_set_last _ _ hd

theorem drop_one_append_length {α : Type} (l : List α) (x : α) (hl : l.length = hist_size) :
    (l.drop 1 ++ [x]).length = hist_size := by
  rw [List.length_append, List.length_drop, hl]
  rfl

theorem getElem?_drop_one_append {α : Type} (l : List α) (x : α) (hl : l.length = hist_size) :
    (∀ i, i < hist_size - 1 → (l.drop 1 ++ [x])[i]? = l[i + 1]?) ∧
    (l.drop 1 ++ [x])[hist_size - 1]? = some x := by
  have hd : (l.drop 1).length = hist_size - 1 := by rw [List.length_drop, hl]
  constructor
  · intro i hi
    rw [List.getElem?_append_left (by rw [hd]; exact hi), List.getElem?_drop, Nat.add_comm]
  · rw [List.getElem?_append_right (by rw [hd]), hd, Nat.sub_self]
    rfl

/-- C11: one `record_value_to_hist` call on rings of 200 slots shifts each ring left by
one and appends the live value of its kind: the new ring still has 200 slots, slot `i`
holds what slot `i + 1` held for every `i < 199`, and slot 199 holds the live value. -/
theorem record_value_to_hist_shift (d : Device)
    (ha : d._value_analog_hist.length = 200) (hd : d._value_digital_hist.length = 200) :
    (d.record_value_to_hist._value_analog_hist.length = 200 ∧
      (∀ i, i < 199 →
        d.record_value_to_hist._value_analog_hist[i]? = d._value_analog_hist[i + 1]?) ∧
      d.record_value_to_hist._value_analog_hist[199]? = some d._value_analog) ∧
    (d.record_value_to_hist._value_digital_hist.length = 200 ∧
      (∀ i, i < 199 →
        d.record_value_to_hist._value_digital_hist[i]? = d._value_digital_hist[i + 1]?) ∧
      d.record_value_to_hist._value_digital_hist[199]? = some d._value_digital) := by
  rw [record_value_to_hist_analog d ha, record_value_to_hist_digital d hd]
  exact ⟨⟨drop_one_append_length _ _ ha, getElem?_drop_one_append _ _ ha⟩,
    ⟨drop_one_append_length _ _ hd, getElem?_drop_one_append _ _ hd⟩⟩

theorem record_value_to_hist_shift_witness :
    ((analog_at 0.25).record_value_to_hist._value_analog_hist.length = 200 ∧
      (∀ i, i < 199 → (analog_at 0.25).record_value_to_hist._value_analog_hist[i]?
        = (analog_at 0.25)._value_analog_hist[i + 1]?) ∧
      (analog_at 0.25).record_value_to_hist._value_analog_hist[199]?
        = some (analog_at 0.25)._value_analog) ∧
    ((analog_at 0.25).record_value_to_hist._value_digital_hist.length = 200 ∧
      (∀ i, i < 199 → (analog_at 0.25).record_value_to_hist._value_digital_hist[i]?
        = (analog_at 0.25)._value_digital_hist[i + 1]?) ∧
      (analog_at 0.25).record_value_to_hist._value_digital_hist[199]?
        = some (analog_at 0.25)._value_digital) :=
  record_value_to_hist_shift (analog_at 0.25) (List.length_replicate _ _)
    (List.length_replicate _ _)

theorem record_ticks_hist (vs : List (ℚ × Int)) :
    ∀ d : Device, d._value_analog_hist.length = hist_size →
      d._value_digital_hist.length = hist_size →
      (d.record_ticks vs)._value_analog_hist
        = (d._value_analog_hist ++ vs.map Prod.fst).drop vs.length ∧
      (d.record_ticks vs)._value_digital_hist
        = (d._value_digital_hist ++ vs.map Prod.snd).drop vs.length := by
  induction vs with
  | nil =>
    intro d _ _
    simp [Device.record_ticks]
  | cons v vs ih =>
    intro d ha hd
    have ha1 : (d.store_values v).record_value_to_hist._value_analog_hist
        = d._value_analog_hist.drop 1 ++ [v.1] :=
      record_value_to_hist_analog (d.store_values v) ha
    have hd1 : (d.store_values v).record_value_to_hist._value_digital_hist
        = d._value_digital_hist.drop 1 ++ [v.2] :=
      record_value_to_hist_digital (d.store_values v) hd
    have h := ih ((d.store_values v).record_value_to_hist)
      (by rw [ha1]; exact drop_one_append_length _ _ ha)
      (by rw [hd1]; exact drop_one_append_length _ _ hd)
    have hstep : d.record_ticks (v :: vs)
        = ((d.store_values v).record_value_to_hist).record_ticks vs := rfl
    have hla : 1 ≤ d._value_analog_hist.length := by rw [ha]; decide
    have hld : 1 ≤ d._value_digital_hist.length := by rw [hd]; decide
    rw [hstep, h.1, h.2, ha1, hd1]
    simp only [List.map_cons, List.length_cons, List.append_assoc, List.singleton_append]
    rw [← List.drop_append_of_le_length hla, ← List.drop_append_of_le_length hld,
      List.drop_drop, List.drop_drop, Nat.add_comm 1]
    exact ⟨rfl, rfl⟩

theorem drop_ring_append {α : Type} (h m : List α) (hl : h.length = 200) :
    (200 ≤ m.length → (h ++ m).drop m.length = m.drop (m.length - 200)) ∧
    (m.length < 200 → ∀ z, h = List.replicate 200 z →
      (h ++ m).drop m.length = List.replicate (200 - m.length) z ++ m) := by
  constructor
  · intro hm
    rw [List.drop_append_eq_append_drop, hl, List.drop_of_length_le (by rw [hl]; exact hm),
      List.nil_append]
  · intro hm z hz
    rw [List.drop_append_eq_append_drop, hl, Nat.sub_eq_zero_of_le hm.le, List.drop_zero, hz,
      List.drop_replicate]

/-- C12: on rings of 200 slots, after the recording ticks `v_0 .. v_{n-1}` with `n ≥ 200`
each ring holds exactly the last 200 recorded values in recording order
(`ring[i] = v_{n-200+i}`): after 200 ticks the ring is `[v_0 .. v_199]`, after 201 ticks
`[v_1 .. v_200]`; for `n < 200` ticks on rings of zeros the ring is `200 - n` zeros
followed by `v_0 .. v_{n-1}`. -/
theorem record_ticks_fifo (d : Device) (vs : List (ℚ × Int))
    (ha : d._value_analog_hist.length = 200) (hd : d._value_digital_hist.length = 200) :
    (200 ≤ vs.length →
      (∀ i, i < 200 → (d.record_ticks vs)._value_analog_hist[i]?
        = (vs.map Prod.fst)[vs.length - 200 + i]?) ∧
      (∀ i, i < 200 → (d.record_ticks vs)._value_digital_hist[i]?
        = (vs.map Prod.snd)[vs.length - 200 + i]?)) ∧
    (vs.length = 200 →
      (d.record_ticks vs)._value_analog_hist = vs.map Prod.fst ∧
      (d.record_ticks vs)._value_digital_hist = vs.map Prod.snd) ∧
    (vs.length = 201 →
      (d.record_ticks vs)._value_analog_hist = (vs.map Prod.fst).drop 1 ∧
      (d.record_ticks vs)._value_digital_hist = (vs.map Prod.snd).drop 1) ∧
    (vs.length < 200 →
      (d._value_analog_hist = List.replicate 200 0 →
        (d.record_ticks vs)._value_analog_hist
          = List.replicate (200 - vs.length) 0 ++ vs.map Prod.fst) ∧
      (d._value_digital_hist = List.replicate 200 0 →
        (d.record_ticks vs)._value_digital_hist
          = List.replicate (200 - vs.length) 0 ++ vs.map Prod.snd)) := by
  have h := record_ticks_hist vs d ha hd
  have la : (vs.map Prod.fst).length = vs.length := List.length_map _ _
  have ld : (vs.map Prod.snd).length = vs.length := List.length_map _ _
  have ka := drop_ring_append d._value_analog_hist (vs.map Prod.fst) ha
  have kd := drop_ring_append d._value_digital_hist (vs.map Prod.snd) hd
  rw [la] at ka
  rw [ld] at kd
  rw [h.1, h.2]
  refine ⟨fun hn => ?_, fun hn => ?_, fun hn => ?_, fun hn => ⟨fun hz => ?_, fun hz => ?_⟩⟩
  · rw [ka.1 hn, kd.1 hn]
    exact ⟨fun i _ => List.getElem?_drop _ _ _, fun i _ => List.getElem?_drop _ _ _⟩
  · rw [ka.1 hn.ge, kd.1 hn.ge, hn]
    exact ⟨rfl, rfl⟩
  · rw [ka.1 (by omega), kd.1 (by omega), hn]
    exact ⟨rfl, rfl⟩
  · exact ka.2 hn 0 hz
  · exact kd.2 hn 0 hz

theorem record_ticks_fifo_witness :
    ((analog_at 0.25).record_ticks [(0.5, 1), (0.75, 0)])._value_analog_hist
        = List.replicate (200 - 2) 0 ++ [0.5, 0.75] ∧
    ((analog_at 0.25).record_ticks [(0.5, 1), (0.75, 0)])._value_digital_hist
        = List.replicate (200 - 2) 0 ++ [1, 0] :=
  ⟨((record_ticks_fifo (analog_at 0.25) [(0.5, 1), (0.75, 0)] (List.length_replicate _ _)
      (List.length_replicate _ _)).2.2.2 (by decide)).1 rfl,
    ((record_ticks_fifo (analog_at 0.25) [(0.5, 1), (0.75, 0)] (List.length_replicate _ _)
      (List.length_replicate _ _)).2.2.2 (by decide)).2 rfl⟩

/-! ## Resampling -/

theorem hist_index_lt (size i width : Nat) (hs : 0 < size) (hi : i < width) :
    hist_index size i width < size := by
  unfold hist_index
  rw [Nat.div_lt_iff_lt_mul (Nat.lt_of_le_of_lt (Nat.zero_le i) hi)]
  exact Nat.mul_lt_mul_of_pos_left hi hs

theorem getD_of_lt {α : Type} (l : List α) (k : Nat) (z : α) (hk : k < l.length) :
    some (l.getD k z) = l[k]? := by
  rw [List.getD_eq_getElem?_getD, List.getElem?_eq_getElem hk]
  rfl

theorem float_to_int_trunc (q : ℚ) :
    |(float_to_int q : ℚ)| ≤ |q| ∧ |q - float_to_int q| < 1 := by
  unfold float_to_int
  split_ifs with h
  · have h1 := Int.floor_le q
    have h2 := Int.lt_floor_add_one q
    have h3 : (0 : ℚ) ≤ ⌊q⌋ := by exact_mod_cast Int.floor_nonneg.2 h
    rw [abs_of_nonneg h3, abs_of_nonneg h, abs_lt]
    exact ⟨h1, by linarith, by linarith⟩
  · have h0 : q ≤ 0 := (not_le.1 h).le
    have h1 := Int.le_ceil q
    have h2 := Int.ceil_lt_add_one q
    have h3 : ((⌈q⌉ : Int) : ℚ) ≤ 0 := by exact_mod_cast Int.ceil_le.2 (by simpa using h0)
    rw [abs_of_nonpos h3, abs_of_nonpos h0, abs_lt]
    exact ⟨by linarith, by linarith, by linarith⟩

/-- C13: for `width > 0` and rings of 200 slots, `get_value_transform` returns exactly
`width` entries; entry `i` is the ring slot `200 * i / width` (integer division, the slot
itself, no neighbour enters) of the ring of the device's kind times `height`: for an
Analog device the `float` product, converted to `int` by truncation toward zero (the
integer no larger in magnitude and less than `1` away), for a Digital one the exact
integer product; for `width = 10` the slots are `0, 20, .., 180`. -/
theorem get_value_transform_samples (R : Rounding) (d : Device) (width height : Int)
    (hw : 0 < width)
    (ha : d._value_analog_hist.length = 200) (hd : d._value_digital_hist.length = 200) :
    (d.get_value_transform R width height).length = width.toNat ∧
    (∀ i : Nat, (i : Int) < width →
      (d.type = DeviceType.Analog → (d.get_value_transform R width height)[i]? =
        (d._value_analog_hist[200 * i / width.toNat]?).map
          (fun x => float_to_int (R.f32 (x * R.f32 height)))) ∧
      (d.type = DeviceType.Digital → (d.get_value_transform R width height)[i]? =
        (d._value_digital_hist[200 * i / width.toNat]?).map (fun x => x * height))) ∧
    (∀ q : ℚ, |(float_to_int q : ℚ)| ≤ |q| ∧ |q - float_to_int q| < 1) ∧
    (List.range 10).map (fun i => hist_index 200 i 10)
      = [0, 20, 40, 60, 80, 100, 120, 140, 160, 180] := by
  refine ⟨?_, fun i hi => ⟨fun ht => ?_, fun ht => ?_⟩, float_to_int_trunc, by decide⟩
  · cases ht : d.type <;>
      simp [Device.get_value_transform, ht, Device.get_value_analog_transform,
        Device.get_value_digital_transform]
  · have hi2 : i < width.toNat := by omega
    have hk := hist_index_lt 200 i width.toNat (by decide) hi2
    have hx := getD_of_lt d._value_analog_hist (hist_index 200 i width.toNat) 0
      (by rw [ha]; exact hk)
    simp only [Device.get_value_transform, ht, Device.get_value_analog_transform,
      List.getElem?_map, List.getElem?_range hi2, Option.map_some', ha]
    show _ = Option.map _ d._value_analog_hist[hist_index 200 i width.toNat]?
    rw [← hx]
    rfl
  · have hi2 : i < width.toNat := by omega
    have hk := hist_index_lt 200 i width.toNat (by decide) hi2
    have hx := getD_of_lt d._value_digital_hist (hist_index 200 i width.toNat) 0
      (by rw [hd]; exact hk)
    simp only [Device.get_value_transform, ht, Device.get_value_digital_transform,
      List.getElem?_map, List.getElem?_range hi2, Option.map_some', hd]
    show _ = Option.map _ d._value_digital_hist[hist_index 200 i width.toNat]?
    rw [← hx]
    rfl

theorem get_value_transform_samples_witness :
    ((analog_ring (ieee.f32 0.29)).get_value_transform ieee 10 100).length = 10 ∧
    ((analog_ring (ieee.f32 0.29)).get_value_transform ieee 10 100)[9]? =
      ((analog_ring (ieee.f32 0.29))._value_analog_hist[200 * 9 / 10]?).map
        (fun x => float_to_int (ieee.f32 (x * ieee.f32 ((100 : Int) : ℚ)))) ∧
    (analog_ring (ieee.f32 0.29)).get_value_transform ieee 10 100
      = [29, 29, 29, 29, 29, 29, 29, 29, 29, 29] ∧
    (analog_ring (ieee.f32 0.29)).get_value_transform ieee 2 (-10) = [-2, -2] ∧
    float_to_int (ieee.f32 0.29 * 100) = 28 :=
  ⟨(get_value_transform_samples ieee (analog_ring (ieee.f32 0.29)) 10 100 (by decide)
      (List.length_replicate _ _) (List.length_replicate _ _)).1,
    ((get_value_transform_samples ieee (analog_ring (ieee.f32 0.29)) 10 100 (by decide)
      (List.length_replicate _ _) (List.length_replicate _ _)).2.1 9 (by decide)).1 rfl,
    by decide!, by decide!, by decide!⟩

/-! ## The band map -/

theorem pair_lt_irrefl (a : ℚ × ℚ) : ¬ pair_lt a a := by
  unfold pair_lt
  rintro (h | ⟨_, h⟩) <;> exact lt_irrefl _ h

theorem pair_eq_of_not_lt {a b : ℚ × ℚ} (h1 : ¬ pair_lt a b) (h2 : ¬ pair_lt b a) : a = b := by
  unfold pair_lt at h1 h2
  push_neg at h1 h2
  have hf : a.1 = b.1 := le_antisymm h2.1 h1.1
  have hs : a.2 = b.2 := le_antisymm (h2.2 hf.ge) (h1.2 hf.le)
  exact Prod.ext hf hs

theorem pair_lt_trans {a b c : ℚ × ℚ} (h1 : pair_lt a b) (h2 : pair_lt b c) : pair_lt a c := by
  unfold pair_lt at *
  rcases h1 with h1 | ⟨h1, h1'⟩ <;> rcases h2 with h2 | ⟨h2, h2'⟩
  · exact Or.inl (h1.trans h2)
  · exact Or.inl (h1.trans_le (not_lt.1 h2))
  · exact Or.inl ((not_lt.1 h1).trans_lt h2)
  · exact Or.inr ⟨not_lt.2 ((not_lt.1 h1).trans (not_lt.1 h2)), h1'.trans h2'⟩

theorem mem_map_assign_self (k : ℚ × ℚ) (c : Color) (m : List ((ℚ × ℚ) × Color)) :
    (k, c) ∈ map_assign k c m := by
  induction m with
  | nil => simp [map_assign]
  | cons e rest ih =>
    unfold map_assign
    split_ifs with h1 h2
    · exact List.mem_cons_self _ _
    · exact List.mem_cons_of_mem _ ih
    · rw [pair_eq_of_not_lt h1 h2]
      exact List.mem_cons_self _ _

theorem mem_map_assign_of_ne (k : ℚ × ℚ) (c : Color) (e' : (ℚ × ℚ) × Color) (hne : e'.1 ≠ k)
    (m : List ((ℚ × ℚ) × Color)) : e' ∈ map_assign k c m ↔ e' ∈ m := by
  have hk : e' ≠ (k, c) := fun h => hne (by rw [h])
  induction m with
  | nil => simp [map_assign, hk]
  | cons e rest ih =>
    unfold map_assign
    split_ifs with h1 h2
    · simp [hk]
    · simp [ih]
    · have he : e.1 = k := (pair_eq_of_not_lt h1 h2).symm
      have h3 : e' ≠ (e.1, c) := by rw [he]; exact hk
      have h4 : e' ≠ e := fun h => hne (by rw [h, he])
      simp [h3, h4]

theorem map_assign_keys (k : ℚ × ℚ) (c : Color) (m : List ((ℚ × ℚ) × Color)) :
    ∀ x ∈ map_assign k c m, x.1 = k ∨ ∃ y ∈ m, y.1 = x.1 := by
  intro x hx
  by_cases h : x.1 = k
  · exact Or.inl h
  · exact Or.inr ⟨x, (mem_map_assign_of_ne k c x h m).1 hx, rfl⟩

theorem map_assign_sorted (k : ℚ × ℚ) (c : Color) (m : List ((ℚ × ℚ) × Color))
    (hm : m.Pairwise (fun a b => pair_lt a.1 b.1)) :
    (map_assign k c m).Pairwise (fun a b => pair_lt a.1 b.1) := by
  induction m with
  | nil => simp [map_assign]
  | cons e rest ih =>
    rw [List.pairwise_cons] at hm
    unfold map_assign
    split_ifs with h1 h2
    · refine List.pairwise_cons.2 ⟨fun x hx => ?_, List.pairwise_cons.2 hm⟩
      rcases List.mem_cons.1 hx with hx | hx
      · rw [hx]
        exact h1
      · exact pair_lt_trans h1 (hm.1 x hx)
    · refine List.pairwise_cons.2 ⟨fun x hx => ?_, ih hm.2⟩
      rcases map_assign_keys k c rest x hx with hx | ⟨y, hy, hxy⟩
      · rw [hx]
        exact h2
      · rw [← hxy]
        exact hm.1 y hy
    · exact List.pairwise_cons.2 ⟨hm.1, hm.2⟩

theorem add_to_map_sorted (l : List (ℚ × ℚ)) (c : Color) :
    ∀ m : List ((ℚ × ℚ) × Color), m.Pairwise (fun a b => pair_lt a.1 b.1) →
      (add_to_map m l c).Pairwise (fun a b => pair_lt a.1 b.1) := by
  induction l with
  | nil => intro m hm; exact hm
  | cons x l ih => intro m hm; exact ih _ (map_assign_sorted x c m hm)

theorem add_to_map_keeps (l : List (ℚ × ℚ)) (c : Color) (k : ℚ × ℚ) :
    ∀ m : List ((ℚ × ℚ) × Color), (k, c) ∈ m → (k, c) ∈ add_to_map m l c := by
  induction l with
  | nil => intro m hm; exact hm
  | cons x l ih =>
    intro m hm
    refine ih _ ?_
    by_cases h : k = x
    · rw [h]
      exact mem_map_assign_self x c m
    · exact (mem_map_assign_of_ne x c (k, c) h m).2 hm

theorem add_to_map_mem (l : List (ℚ × ℚ)) (c : Color) (k : ℚ × ℚ) :
    ∀ m : List ((ℚ × ℚ) × Color), k ∈ l → (k, c) ∈ add_to_map m l c := by
  induction l with
  | nil => intro m hk; exact absurd hk (List.not_mem_nil _)
  | cons x l ih =>
    intro m hk
    rcases List.mem_cons.1 hk with hk | hk
    · rw [hk]
      exact add_to_map_keeps l c x _ (mem_map_assign_self x c m)
    · exact ih _ hk

theorem add_to_map_other (l : List (ℚ × ℚ)) (c : Color) (e : (ℚ × ℚ) × Color)
    (he : e.1 ∉ l) :
    ∀ m : List ((ℚ × ℚ) × Color), e ∈ add_to_map m l c ↔ e ∈ m := by
  induction l with
  | nil => intro m; exact Iff.rfl
  | cons x l ih =>
    intro m
    have hx : e.1 ≠ x := fun h => he (by rw [h]; exact List.mem_cons_self _ _)
    have hl : e.1 ∉ l := fun h => he (List.mem_cons_of_mem _ h)
    exact (ih hl _).trans (mem_map_assign_of_ne x c e hx m)

/-! ## No gap is a band -/

theorem merge_loop_fst_ge :
    ∀ (rest : List (ℚ × ℚ)) (cs ce : ℚ), rest.Pairwise (fun a b => a.1 ≤ b.1) →
      (∀ x ∈ rest, cs ≤ x.1) → ∀ y ∈ merge_loop cs ce rest, cs ≤ y.1 := by
  intro rest
  induction rest with
  | nil =>
    intro cs ce _ _ y hy
    simp only [merge_loop, List.mem_singleton] at hy
    rw [hy]
  | cons x rest ih =>
    intro cs ce hs hlo y hy
    have hrest : ∀ z ∈ rest, cs ≤ z.1 := fun z hz => hlo z (List.mem_cons_of_mem _ hz)
    rw [List.pairwise_cons] at hs
    by_cases h : x.1 ≤ ce
    · rw [merge_loop, if_pos h] at hy
      exact ih cs _ hs.2 hrest y hy
    · rw [merge_loop, if_neg h, List.mem_cons] at hy
      rcases hy with hy | hy
      · rw [hy]
      · exact (hlo x (List.mem_cons_self _ _)).trans (ih x.1 x.2 hs.2 hs.1 y hy)

theorem merge_loop_starts_sorted :
    ∀ (rest : List (ℚ × ℚ)) (cs ce : ℚ), rest.Pairwise (fun a b => a.1 ≤ b.1) →
      (∀ x ∈ rest, cs ≤ x.1) → (merge_loop cs ce rest).Pairwise (fun a b => a.1 ≤ b.1) := by
  intro rest
  induction rest with
  | nil =>
    intro cs ce _ _
    simp [merge_loop]
  | cons x rest ih =>
    intro cs ce hs hlo
    have hrest : ∀ z ∈ rest, cs ≤ z.1 := fun z hz => hlo z (List.mem_cons_of_mem _ hz)
    rw [List.pairwise_cons] at hs
    by_cases h : x.1 ≤ ce
    · rw [merge_loop, if_pos h]
      exact ih cs _ hs.2 hrest
    · rw [merge_loop, if_neg h]
      refine List.pairwise_cons.2 ⟨fun y hy => ?_, ih x.1 x.2 hs.2 hs.1⟩
      exact (hlo x (List.mem_cons_self _ _)).trans (merge_loop_fst_ge rest x.1 x.2 hs.2 hs.1 y hy)

theorem merge_intervals_starts_sorted (l : List (ℚ × ℚ)) :
    (merge_intervals l).Pairwise (fun a b => a.1 ≤ b.1) := by
  have hs := sort_intervals_sorted l
  unfold merge_intervals
  cases hsl : sort_intervals l with
  | nil => simp
  | cons s0 rest =>
    rw [hsl, List.pairwise_cons] at hs
    exact merge_loop_starts_sorted rest s0.1 s0.2 hs.2 hs.1

theorem gaps_loop_start_uncovered (R : ℚ) :
    ∀ (m : List (ℚ × ℚ)) (p : ℚ), m.Pairwise (fun a b => a.1 ≤ b.1) →
      ∀ g ∈ gaps_loop p R m, ¬ Covered g.1 m := by
  intro m
  induction m with
  | nil =>
    intro p _ g _
    exact covered_nil _
  | cons x rest ih =>
    intro p hs g hg
    rw [List.pairwise_cons] at hs
    have htail : ∀ g ∈ gaps_loop (max p x.2) R rest, ¬ Covered g.1 (x :: rest) := by
      intro g hg
      rw [covered_cons]
      rintro (⟨_, h2⟩ | h2)
      · exact absurd ((le_max_right p x.2).trans (gaps_loop_ge R rest _ g hg)) (not_le.2 h2)
      · exact ih _ hs.2 g hg h2
    by_cases h : x.1 > p
    · rw [gaps_loop, if_pos h, List.mem_cons] at hg
      rcases hg with hg | hg
      · rw [hg]
        rintro ⟨i, hi, h1, _⟩
        rcases List.mem_cons.1 hi with hi | hi
        · rw [hi] at h1
          exact absurd h (not_lt.2 h1)
        · exact absurd h (not_lt.2 ((hs.1 i hi).trans h1))
      · exact htail g hg
    · rw [gaps_loop, if_neg h] at hg
      exact htail g hg

/-- No interval returned by `find_uncovered_intervals` is one of the bands: the start of
every gap lies in no band. -/
theorem gap_not_band (d : Device) (gaps : List (ℚ × ℚ))
    (h : d.find_uncovered_intervals = some gaps) :
    ∀ g ∈ gaps, g ∉ d.warnings ++ d.cautions ++ d.optimals := by
  intro g hg hb
  have hne : d.warnings ++ d.cautions ++ d.optimals ≠ [] := List.ne_nil_of_mem hb
  cases hlo : d.rel_min with
  | none => simp [Device.find_uncovered_intervals, hlo] at h
  | some lo =>
    cases hhi : d.rel_max with
    | none => simp [Device.find_uncovered_intervals, hlo, hhi] at h
    | some hi =>
      rw [find_uncovered_intervals_eq d lo hi hne hlo hhi, Option.some.injEq] at h
      rw [← h] at hg
      have hlt := gaps_loop_lt hi _ lo g hg
      refine gaps_loop_start_uncovered hi _ lo (merge_intervals_starts_sorted _) g hg ?_
      rw [merge_intervals_covered]
      exact ⟨g, hb, le_refl _, hlt⟩

theorem intervals_to_color_eq (d : Device) (gaps : List (ℚ × ℚ))
    (h : d.find_uncovered_intervals = some gaps) :
    d.intervals_to_color = some (add_to_map (add_to_map (add_to_map (add_to_map []
      d.warnings Color.Red1) d.cautions Color.Yellow1) d.optimals Color.Green1)
      gaps Color.Default) := by
  simp [Device.intervals_to_color, h]

theorem find_uncovered_intervals_ui (d : Device) (u : Decorator) :
    ({ d with ui_thresholds := u }).find_uncovered_intervals = d.find_uncovered_intervals :=
  rfl

/-- The band map is the local `intervals_to_color` of `set_ui_thresholds`: for an Analog
device the gradient stops are computed from it. -/
theorem set_ui_thresholds_analog (R : Rounding) (d : Device)
    (ht : d.type = DeviceType.Analog) :
    d.set_ui_thresholds R =
      match d.intervals_to_color with
      | none => none
      | some m =>
        match ({ d with ui_thresholds := Decorator.color Color.Default }).set_stops R [] m with
        | none => none
        | some stops => some { d with ui_thresholds := Decorator.gradient 270 stops } := by
  unfold Device.set_ui_thresholds Device.intervals_to_color
  simp only [find_uncovered_intervals_ui]
  simp only [ht, if_true]
  cases d.find_uncovered_intervals with
  | none => rfl
  | some gaps => rfl

/-- C14, as stated, fails: with the band `(1, 2)` listed in `warnings` and in `cautions`
the band map holds one entry for `(1, 2)`, coloured Yellow1 by the later assignment, and no
Red1 entry. -/
theorem band_map_later_list_wins :
    ((1 : ℚ), (2 : ℚ)) ∈ (analog_example 0 10 [(1, 2)] [(1, 2)] []).warnings ∧
    (analog_example 0 10 [(1, 2)] [(1, 2)] []).intervals_to_color
      = some [((0, 1), Color.Default), ((1, 2), Color.Yellow1), ((2, 10), Color.Default)] ∧
    (((1 : ℚ), (2 : ℚ)), Color.Red1) ∉
      [(((0 : ℚ), (1 : ℚ)), Color.Default), ((1, 2), Color.Yellow1), ((2, 10), Color.Default)] := by
  refine ⟨List.mem_singleton.2 rfl, by decide, by decide⟩

/-- C14, amended: in the band map built by `set_ui_thresholds` for a device with
`rel_min`, `rel_max` present, every interval has one entry (the keys ascend strictly);
every gap returned by `find_uncovered_intervals` is mapped to Default, every band of
`optimals` to Green1, every band of `cautions` that is not also in `optimals` to Yellow1,
and every band of `warnings` that is in neither `cautions` nor `optimals` to Red1 (a band
listed more than once takes the colour of the last of the lists warnings, cautions,
optimals holding it). -/
theorem band_map_colours (d : Device) (lo hi : ℚ)
    (hlo : d.rel_min = some lo) (hhi : d.rel_max = some hi) :
    ∃ gaps m, d.find_uncovered_intervals = some gaps ∧ d.intervals_to_color = some m ∧
      m.Pairwise (fun a b => pair_lt a.1 b.1) ∧
      (∀ g ∈ gaps, (g, Color.Default) ∈ m) ∧
      (∀ b ∈ d.optimals, (b, Color.Green1) ∈ m) ∧
      (∀ b ∈ d.cautions, b ∉ d.optimals → (b, Color.Yellow1) ∈ m) ∧
      (∀ b ∈ d.warnings, b ∉ d.cautions → b ∉ d.optimals → (b, Color.Red1) ∈ m) := by
  have hsome : ∃ gaps, d.find_uncovered_intervals = some gaps := by
    by_cases hne : d.warnings ++ d.cautions ++ d.optimals = []
    · exact ⟨[(lo, hi)], by simp [Device.find_uncovered_intervals, hne, hlo, hhi]⟩
    · exact ⟨_, find_uncovered_intervals_eq d lo hi hne hlo hhi⟩
  obtain ⟨gaps, hg⟩ := hsome
  have hnb := gap_not_band d gaps hg
  refine ⟨gaps, _, hg, intervals_to_color_eq d gaps hg, ?_, ?_, ?_, ?_, ?_⟩
  · exact add_to_map_sorted _ _ _ (add_to_map_sorted _ _ _ (add_to_map_sorted _ _ _
      (add_to_map_sorted _ _ _ List.Pairwise.nil)))
  · intro g hgm
    exact add_to_map_mem gaps Color.Default g _ hgm
  · intro b hb
    have hbg : b ∉ gaps := fun h => hnb b h (List.mem_append_right _ hb)
    exact (add_to_map_other gaps Color.Default (b, Color.Green1) hbg _).2
      (add_to_map_mem d.optimals Color.Green1 b _ hb)
  · intro b hb hno
    have hbg : b ∉ gaps := fun h =>
      hnb b h (List.mem_append_left _ (List.mem_append_right _ hb))
    exact (add_to_map_other gaps Color.Default (b, Color.Yellow1) hbg _).2
      ((add_to_map_other d.optimals Color.Green1 (b, Color.Yellow1) hno _).2
        (add_to_map_mem d.cautions Color.Yellow1 b _ hb))
  · intro b hb hnc hno
    have hbg : b ∉ gaps := fun h =>
      hnb b h (List.mem_append_left _ (List.mem_append_left _ hb))
    exact (add_to_map_other gaps Color.Default (b, Color.Red1) hbg _).2
      ((add_to_map_other d.optimals Color.Green1 (b, Color.Red1) hno _).2
        ((add_to_map_other d.cautions Color.Yellow1 (b, Color.Red1) hnc _).2
          (add_to_map_mem d.warnings Color.Red1 b _ hb)))

theorem band_map_colours_witness :
    ∃ gaps m, (analog_example 0 10 [(0, 2)] [(1, 3)] [(5, 6)]).find_uncovered_intervals
        = some gaps ∧
      (analog_example 0 10 [(0, 2)] [(1, 3)] [(5, 6)]).intervals_to_color = some m ∧
      m.Pairwise (fun a b => pair_lt a.1 b.1) ∧
      (∀ g ∈ gaps, (g, Color.Default) ∈ m) ∧
      (∀ b ∈ (analog_example 0 10 [(0, 2)] [(1, 3)] [(5, 6)]).optimals,
        (b, Color.Green1) ∈ m) ∧
      (∀ b ∈ (analog_example 0 10 [(0, 2)] [(1, 3)] [(5, 6)]).cautions,
        b ∉ (analog_example 0 10 [(0, 2)] [(1, 3)] [(5, 6)]).optimals →
        (b, Color.Yellow1) ∈ m) ∧
      (∀ b ∈ (analog_example 0 10 [(0, 2)] [(1, 3)] [(5, 6)]).warnings,
        b ∉ (analog_example 0 10 [(0, 2)] [(1, 3)] [(5, 6)]).cautions →
        b ∉ (analog_example 0 10 [(0, 2)] [(1, 3)] [(5, 6)]).optimals →
        (b, Color.Red1) ∈ m) :=
  band_map_colours (analog_example 0 10 [(0, 2)] [(1, 3)] [(5, 6)]) 0 10 rfl rfl

/-! ## Kind switching -/

/-- C15: after `to_digital b` on any record the kind is Digital, `is_active_low` is `b`,
`units`, `units_abbreviation`, `abs_min`, `abs_max`, `rel_min`, `rel_max` are absent, the
three band lists are empty, the analog live value is `0` and the digital live value is `0`
or `1`; after `to_analog u a b lo hi` the kind is Analog, `is_active_low` is absent, the
three band lists are empty, `abs_min`, `abs_max`, `rel_min`, `rel_max` hold the arguments
and the digital live value is `0`. -/
theorem kind_switch_clears (d : Device) (b : Bool) (r : Nat) (u : Option String)
    (a₁ a₂ : Nat) (lo hi q : ℚ) :
    ((d.to_digital b r).type = DeviceType.Digital ∧
      (d.to_digital b r).is_active_low = some b ∧
      (d.to_digital b r).units = none ∧ (d.to_digital b r).units_abbreviation = none ∧
      (d.to_digital b r).abs_min = none ∧ (d.to_digital b r).abs_max = none ∧
      (d.to_digital b r).rel_min = none ∧ (d.to_digital b r).rel_max = none ∧
      (d.to_digital b r).warnings = [] ∧ (d.to_digital b r).cautions = [] ∧
      (d.to_digital b r).optimals = [] ∧ (d.to_digital b r)._value_analog = 0 ∧
      ((d.to_digital b r)._value_digital = 0 ∨ (d.to_digital b r)._value_digital = 1)) ∧
    ((d.to_analog u a₁ a₂ lo hi q).type = DeviceType.Analog ∧
      (d.to_analog u a₁ a₂ lo hi q).is_active_low = none ∧
      (d.to_analog u a₁ a₂ lo hi q).warnings = [] ∧
      (d.to_analog u a₁ a₂ lo hi q).cautions = [] ∧
      (d.to_analog u a₁ a₂ lo hi q).optimals = [] ∧
      (d.to_analog u a₁ a₂ lo hi q).abs_min = some a₁ ∧
      (d.to_analog u a₁ a₂ lo hi q).abs_max = some a₂ ∧
      (d.to_analog u a₁ a₂ lo hi q).rel_min = some lo ∧
      (d.to_analog u a₁ a₂ lo hi q).rel_max = some hi ∧
      (d.to_analog u a₁ a₂ lo hi q)._value_digital = 0) := by
  refine ⟨⟨rfl, rfl, rfl, rfl, rfl, rfl, rfl, rfl, rfl, rfl, rfl, rfl, ?_⟩,
    ⟨rfl, rfl, rfl, rfl, rfl, rfl, rfl, rfl, rfl, rfl⟩⟩
  show ((r % 2 : Nat) : Int) = 0 ∨ ((r % 2 : Nat) : Int) = 1
  rcases Nat.mod_two_eq_zero_or_one r with h | h <;> rw [h]
  · exact Or.inl rfl
  · exact Or.inr rfl

/-! ## Missing range -/

/-- C16: for an Analog record in which `rel_min` or `rel_max` is absent, `value_color`
(for every value), `find_uncovered_intervals` and `set_ui_thresholds` (for every band
configuration) end in `std::bad_optional_access`; none returns a result. -/
theorem missing_range_throws (R : Rounding) (d : Device) (ht : d.type = DeviceType.Analog)
    (h : d.rel_min = none ∨ d.rel_max = none) :
    (∀ v, value_color R d v = none) ∧ d.find_uncovered_intervals = none ∧
    d.intervals_to_color = none ∧ d.set_ui_thresholds R = none := by
  have hf : d.find_uncovered_intervals = none := by
    unfold Device.find_uncovered_intervals
    rcases h with h | h
    · simp [h]
    · cases hlo : d.rel_min <;> simp [h]
  have hm : d.intervals_to_color = none := by
    simp [Device.intervals_to_color, hf]
  refine ⟨fun v => ?_, hf, hm, ?_⟩
  · unfold value_color
    rcases h with h | h
    · cases hhi : d.rel_max <;> simp [ht, h]
    · simp [ht, h]
  · rw [set_ui_thresholds_analog R d ht, hm]

theorem missing_range_throws_witness :
    (∀ v, value_color ieee ({ analog_example 0 10 [(0, 5)] [] [] with rel_min := none }) v
      = none) ∧
    ({ analog_example 0 10 [(0, 5)] [] [] with rel_min := none }).find_uncovered_intervals
      = none ∧
    ({ analog_example 0 10 [(0, 5)] [] [] with rel_min := none }).intervals_to_color = none ∧
    ({ analog_example 0 10 [(0, 5)] [] [] with rel_min := none }).set_ui_thresholds ieee
      = none :=
  missing_range_throws ieee ({ analog_example 0 10 [(0, 5)] [] [] with rel_min := none }) rfl
    (Or.inl rfl)

/-- C17, as stated, fails: on an Analog record without `rel_min` and `rel_max` the
membership tests return booleans (`is_warning 1` is true, `is_caution 1` and `is_optimal 1`
are false for the warning band `(0, 5)`). -/
theorem band_membership_without_range :
    ({ analog_example 0 10 [(0, 5)] [] [] with rel_min := none, rel_max := none }).type
      = DeviceType.Analog ∧
    ({ analog_example 0 10 [(0, 5)] [] [] with rel_min := none, rel_max := none }).rel_min
      = none ∧
    ({ analog_example 0 10 [(0, 5)] [] [] with rel_min := none, rel_max := none }).rel_max
      = none ∧
    ({ analog_example 0 10 [(0, 5)] [] [] with
        rel_min := none, rel_max := none }).is_warning 1 = true ∧
    ({ analog_example 0 10 [(0, 5)] [] [] with
        rel_min := none, rel_max := none }).is_caution 1 = false ∧
    ({ analog_example 0 10 [(0, 5)] [] [] with
        rel_min := none, rel_max := none }).is_optimal 1 = false := by
  refine ⟨rfl, rfl, rfl, by decide, by decide, by decide⟩

/-- C17, amended: the membership tests do not read the range: for every record and
whatever `rel_min`, `rel_max` hold (absent included), `is_warning`, `is_caution` and
`is_optimal` return the boolean `in_intervals` gives on their list. -/
theorem band_membership_ignores_range (d : Device) (v : ℚ) (lo hi : Option ℚ) :
    ({ d with rel_min := lo, rel_max := hi }).is_warning v = in_intervals v d.warnings ∧
    ({ d with rel_min := lo, rel_max := hi }).is_caution v = in_intervals v d.cautions ∧
    ({ d with rel_min := lo, rel_max := hi }).is_optimal v = in_intervals v d.optimals :=
  ⟨rfl, rfl, rfl⟩

/-! ## Loading the collection -/

/-- C18, evaluated on the code: a Digital table whose `is_active_low` is not a boolean and
an Analog table whose `rel_min` is not a number (name and pin well-formed) each leave in the
collection the device `from_toml` had already appended for the table, with `is_active_low`,
`rel_min` and `rel_max` absent. -/
theorem from_toml_keeps_malformed (R : Rounding) (uninit : Device) (rand_int : Nat → Nat)
    (rand_unit : Nat → ℚ) (name : String) (pin : Nat) :
    from_toml R uninit rand_int rand_unit []
        (some (config_of DeviceType.Digital [digital_table name pin TomlField.mistyped]))
      = some [(Device.construct name pin uninit).to_in] ∧
    from_toml R uninit rand_int rand_unit []
        (some (config_of DeviceType.Analog [analog_table name pin TomlField.mistyped]))
      = some [(Device.construct name pin uninit).to_in] ∧
    (Device.construct name pin uninit).to_in.name = name ∧
    (Device.construct name pin uninit).to_in.pin = pin ∧
    (Device.construct name pin uninit).to_in.is_active_low = none ∧
    (Device.construct name pin uninit).to_in.rel_min = none ∧
    (Device.construct name pin uninit).to_in.rel_max = none :=
  ⟨rfl, rfl, rfl, rfl, rfl, rfl, rfl⟩

/-! ## The cached decorator -/

theorem set_ui_thresholds_ui (R : Rounding) (d : Device) (u : Decorator) :
    ({ d with ui_thresholds := u }).set_ui_thresholds R = d.set_ui_thresholds R :=
  rfl

theorem set_ui_thresholds_frame (R : Rounding) (d d' : Device)
    (h : d.set_ui_thresholds R = some d') :
    d' = { d with ui_thresholds := d'.ui_thresholds } := by
  unfold Device.set_ui_thresholds at h
  simp only at h
  split_ifs at h with ht
  · split at h
    · exact absurd h (by simp)
    · split at h
      · exact absurd h (by simp)
      · rw [Option.some.injEq] at h
        rw [← h]
  · rw [Option.some.injEq] at h
    rw [← h]

theorem set_ui_thresholds_idem (R : Rounding) (d d' : Device)
    (h : d.set_ui_thresholds R = some d') : d'.set_ui_thresholds R = some d' := by
  rw [set_ui_thresholds_frame R d d' h, set_ui_thresholds_ui, h,
    ← set_ui_thresholds_frame R d d' h]

/-- C19, as stated, fails: the device `set_ui_thresholds` gives for the Analog example
caches a gradient; after `to_digital` the cache still holds that gradient, while
`set_ui_thresholds` derives the plain Default colour from the record. -/
theorem to_digital_keeps_stale_cache :
    ∃ d₁ d₂ stops, (analog_example 0 10 [] [] []).set_ui_thresholds ieee = some d₁ ∧
      (d₁.to_digital false 0).ui_thresholds = Decorator.gradient 270 stops ∧
      (d₁.to_digital false 0).set_ui_thresholds ieee = some d₂ ∧
      d₂.ui_thresholds = Decorator.color Color.Default ∧
      (d₁.to_digital false 0).ui_thresholds ≠ d₂.ui_thresholds :=
  ⟨_, _, _, rfl, rfl, rfl, rfl, fun h => Decorator.noConfusion h⟩

/-- C19, amended: `to_digital`, `to_analog` and `clear_optionals` leave the cached
`ui_thresholds` as it was; the cache is what `set_ui_thresholds` derives from the record
once `set_ui_thresholds` has run on it (running it again returns the same record), which
is what `from_toml` does for every device it finishes loading. -/
theorem ui_thresholds_rederived_by_caller (R : Rounding) :
    (∀ (d : Device) (b : Bool) (r : Nat),
      (d.to_digital b r).ui_thresholds = d.ui_thresholds) ∧
    (∀ (d : Device) (u : Option String) (a₁ a₂ : Nat) (lo hi q : ℚ),
      (d.to_analog u a₁ a₂ lo hi q).ui_thresholds = d.ui_thresholds) ∧
    (∀ d : Device, d.clear_optionals.ui_thresholds = d.ui_thresholds) ∧
    (∀ d d' : Device, d.set_ui_thresholds R = some d' → d'.set_ui_thresholds R = some d') ∧
    (∀ (devices : List Device) (dev : Device) (loaded : List Device),
      load_finish R devices dev = Outcome.done loaded →
        ∃ dev', loaded = devices ++ [dev'] ∧ dev'.set_ui_thresholds R = some dev') := by
  refine ⟨fun _ _ _ => rfl, fun _ _ _ _ _ _ _ => rfl, fun _ => rfl,
    set_ui_thresholds_idem R, ?_⟩
  intro devices dev loaded h
  unfold load_finish at h
  cases hs : dev.set_ui_thresholds R with
  | none => simp [hs] at h
  | some dev' =>
    simp only [hs, Outcome.done.injEq] at h
    exact ⟨dev', h.symm, set_ui_thresholds_idem R dev dev' hs⟩

theorem ui_thresholds_rederived_by_caller_witness :
    (digital_example 1 none none [] [] []).set_ui_thresholds ieee
        = some { digital_example 1 none none [] [] [] with
            ui_thresholds := Decorator.color Color.Default } ∧
    ({ digital_example 1 none none [] [] [] with
        ui_thresholds := Decorator.color Color.Default }).set_ui_thresholds ieee
      = some { digital_example 1 none none [] [] [] with
          ui_thresholds := Decorator.color Color.Default } :=
  ⟨rfl, (ui_thresholds_rederived_by_caller ieee).2.2.2.1
    (digital_example 1 none none [] [] [])
    { digital_example 1 none none [] [] [] with
      ui_thresholds := Decorator.color Color.Default } rfl⟩

/-! ## Order independence of the gaps -/

instance pair_le_antisymm : IsAntisymm (ℚ × ℚ) pair_le where
  antisymm _ _ h1 h2 := pair_eq_of_not_lt h2 h1

theorem sort_intervals_eq_of_perm {l₁ l₂ : List (ℚ × ℚ)} (h : l₁.Perm l₂) :
    sort_intervals l₁ = sort_intervals l₂ :=
  List.eq_of_perm_of_sorted
    (((sort_intervals_perm l₁).trans h).trans (sort_intervals_perm l₂).symm)
    (List.sorted_insertionSort pair_le l₁) (List.sorted_insertionSort pair_le l₂)

theorem merge_intervals_eq_of_perm {l₁ l₂ : List (ℚ × ℚ)} (h : l₁.Perm l₂) :
    merge_intervals l₁ = merge_intervals l₂ := by
  unfold merge_intervals
  rw [sort_intervals_eq_of_perm h]

/-- C21: two devices with the same `rel_min` and `rel_max` whose combined band lists
(warnings ++ cautions ++ optimals) are permutations of each other, however the bands are
spread over the three lists, get the same result from `find_uncovered_intervals` (the
same gap list, or the same exception when the range is absent). -/
theorem find_uncovered_intervals_perm (d₁ d₂ : Device)
    (hp : (d₁.warnings ++ d₁.cautions ++ d₁.optimals).Perm
      (d₂.warnings ++ d₂.cautions ++ d₂.optimals))
    (hlo : d₁.rel_min = d₂.rel_min) (hhi : d₁.rel_max = d₂.rel_max) :
    d₁.find_uncovered_intervals = d₂.find_uncovered_intervals := by
  have he : (d₁.warnings ++ d₁.cautions ++ d₁.optimals).isEmpty
      = (d₂.warnings ++ d₂.cautions ++ d₂.optimals).isEmpty := by
    have hl := hp.length_eq
    cases h1 : d₁.warnings ++ d₁.cautions ++ d₁.optimals <;>
      cases h2 : d₂.warnings ++ d₂.cautions ++ d₂.optimals <;>
      simp [h1, h2] at hl ⊢
  unfold Device.find_uncovered_intervals
  simp only [he, merge_intervals_eq_of_perm hp, hlo, hhi]

theorem find_uncovered_intervals_perm_witness :
    (analog_example 0 10 [(0, 2)] [(1, 3)] [(5, 6)]).find_uncovered_intervals
      = (analog_example 0 10 [(1, 3), (0, 2)] [] [(5, 6)]).find_uncovered_intervals :=
  find_uncovered_intervals_perm (analog_example 0 10 [(0, 2)] [(1, 3)] [(5, 6)])
    (analog_example 0 10 [(1, 3), (0, 2)] [] [(5, 6)])
    (List.Perm.swap _ _ _) rfl rfl

/-! ## The scaled value -/

/-- C23, as stated, fails: from the live value `1 / 256` a decrease step (`r = 0`) gives
the reset value `0.01f`, above the old value, and from `255 / 256` an increase step
(`r = 1`) gives the reset value `0.99f`, below the old value. -/
theorem update_value_reset_reverses :
    (analog_at (1 / 256)).type = DeviceType.Analog ∧
    (0 < (analog_at (1 / 256))._value_analog ∧ (analog_at (1 / 256))._value_analog < 1) ∧
    ((analog_at (1 / 256)).update_value ieee 0)._value_analog = 5368709 / 536870912 ∧
    ¬ ((analog_at (1 / 256)).update_value ieee 0)._value_analog
      ≤ (analog_at (1 / 256))._value_analog ∧
    (0 < (analog_at (255 / 256))._value_analog ∧ (analog_at (255 / 256))._value_analog < 1) ∧
    ((analog_at (255 / 256)).update_value ieee 1)._value_analog = 4152361 / 4194304 ∧
    ¬ ((analog_at (255 / 256)).update_value ieee 1)._value_analog
      ≥ (analog_at (255 / 256))._value_analog := by
  have hd : ((analog_at (1 / 256)).update_value ieee 0)._value_analog
      = 5368709 / 536870912 := by decide!
  have hu : ((analog_at (255 / 256)).update_value ieee 1)._value_analog
      = 4152361 / 4194304 := by decide!
  refine ⟨rfl, ⟨by norm_num [analog_at], by norm_num [analog_at]⟩, hd, ?_,
    ⟨by norm_num [analog_at], by norm_num [analog_at]⟩, hu, ?_⟩
  · rw [hd]
    norm_num [analog_at]
  · rw [hu]
    norm_num [analog_at]

/-- C23, amended: for an Analog device whose old live value `x` is a `float`, a decrease
step (`r ≤ 0.4`) yields a value `≤ x` when its stepped value `decreased x` is `> 0`, and
an increase step (`r ≥ 0.6`) yields a value `≥ x` when its stepped value `increased x` is
`< 1`; when `decreased x ≤ 0` the decrease step sets the value to `0.01f`, and when
`increased x ≥ 1` the increase step sets it to `0.99f`. In IEEE arithmetic, for a `float`
`r`, the four cases are `0.005 < x`, `x < 0.995`, `x ≤ 0.005` and `0.995 ≤ x`. -/
theorem update_value_direction (R : Rounding) (hR : R.Lawful) (d : Device) (r : ℚ)
    (ht : d.type = DeviceType.Analog) (hx : R.f32 d._value_analog = d._value_analog) :
    (r ≤ R.f64 0.4 → 0 < decreased R d._value_analog →
      (d.update_value R r)._value_analog ≤ d._value_analog) ∧
    (r ≥ R.f64 0.6 → increased R d._value_analog < 1 →
      (d.update_value R r)._value_analog ≥ d._value_analog) ∧
    (r ≤ R.f64 0.4 → decreased R d._value_analog ≤ 0 →
      (d.update_value R r)._value_analog = R.f32 0.01) ∧
    (r ≥ R.f64 0.6 → 1 ≤ increased R d._value_analog →
      (d.update_value R r)._value_analog = R.f32 0.99) ∧
    (R = ieee → R.f32 r = r →
      (r ≤ 0.4 → 0.005 < d._value_analog →
        (d.update_value R r)._value_analog ≤ d._value_analog) ∧
      (r ≥ 0.6 → d._value_analog < 0.995 →
        (d.update_value R r)._value_analog ≥ d._value_analog) ∧
      (r ≤ 0.4 → d._value_analog ≤ 0.005 →
        (d.update_value R r)._value_analog = R.f32 0.01) ∧
      (r ≥ 0.6 → 0.995 ≤ d._value_analog →
        (d.update_value R r)._value_analog = R.f32 0.99)) := by
  have c1 : r ≤ R.f64 0.4 → 0 < decreased R d._value_analog →
      (d.update_value R r)._value_analog ≤ d._value_analog := by
    intro hr hv
    rw [update_value_analog R d r ht, if_pos hr, if_neg (by norm_num; exact hv)]
    exact decreased_le_self hR _ hx
  have c2 : r ≥ R.f64 0.6 → increased R d._value_analog < 1 →
      (d.update_value R r)._value_analog ≥ d._value_analog := by
    intro hr hv
    rw [update_value_analog R d r ht, if_neg (not_le_of_ge_threshold hR hr), if_pos hr,
      if_neg (by norm_num; exact hv)]
    exact self_le_increased hR _ hx
  have c3 : r ≤ R.f64 0.4 → decreased R d._value_analog ≤ 0 →
      (d.update_value R r)._value_analog = R.f32 0.01 := by
    intro hr hv
    rw [update_value_analog R d r ht, if_pos hr, if_pos (by norm_num; exact hv)]
  have c4 : r ≥ R.f64 0.6 → 1 ≤ increased R d._value_analog →
      (d.update_value R r)._value_analog = R.f32 0.99 := by
    intro hr hv
    rw [update_value_analog R d r ht, if_neg (not_le_of_ge_threshold hR hr), if_pos hr,
      if_pos (by norm_num; exact hv)]
  refine ⟨c1, c2, c3, c4, ?_⟩
  intro hi hr
  subst hi
  have hg := guards_decimal _ hx
  have hth := thresholds_decimal r hr
  refine ⟨fun h1 h2 => c1 (hth.1.2 h1) (hg.1.2 h2), fun h1 h2 => c2 (hth.2.1.2 h1) (hg.2.2 h2),
    fun h1 h2 => c3 (hth.1.2 h1) ?_, fun h1 h2 => c4 (hth.2.1.2 h1) ?_⟩
  · exact not_lt.1 (fun h => absurd (hg.1.1 h) (not_lt.2 h2))
  · exact not_lt.1 (fun h => absurd (hg.2.1 h) (not_lt.2 h2))

theorem update_value_direction_witness :
    ieee.f32 (analog_at (1 / 2))._value_analog = (analog_at (1 / 2))._value_analog ∧
    ((analog_at (1 / 2)).update_value ieee 0)._value_analog
      ≤ (analog_at (1 / 2))._value_analog ∧
    ((analog_at (1 / 2)).update_value ieee 1)._value_analog
      ≥ (analog_at (1 / 2))._value_analog ∧
    ((analog_at (1 / 256)).update_value ieee 0)._value_analog = ieee.f32 0.01 :=
  ⟨by decide!,
    (update_value_direction ieee ieee_lawful (analog_at (1 / 2)) 0 rfl (by decide!)).1
      (by decide!) (by decide!),
    (update_value_direction ieee ieee_lawful (analog_at (1 / 2)) 1 rfl (by decide!)).2.1
      (by decide!) (by decide!),
    ((update_value_direction ieee ieee_lawful (analog_at (1 / 256)) 0 rfl
      (by decide!)).2.2.2.2 rfl (by decide!)).2.2.1 (by norm_num) (by norm_num [analog_at])⟩

/-! ## The units abbreviation -/

theorem dropWhile_before_comma (pre rest : List Char) (h : ',' ∉ pre) :
    (pre ++ ',' :: rest).dropWhile (fun c => c != ',') = ',' :: rest := by
  induction pre with
  | nil => simp [List.dropWhile]
  | cons c pre ih =>
    have hc : c ≠ ',' := fun hc => h (by rw [hc]; exact List.mem_cons_self _ _)
    have hpre : ',' ∉ pre := fun hp => h (List.mem_cons_of_mem _ hp)
    have hb : (c != ',') = true := by simp [hc]
    show List.dropWhile (fun c => c != ',') (c :: (pre ++ ',' :: rest)) = ',' :: rest
    rw [List.dropWhile_cons]
    simp only [hb, if_true]
    exact ih hpre

theorem abbreviation_of_split (pre post : String) (h : ',' ∉ pre.data) :
    abbreviation_of (pre ++ "," ++ post) = some post := by
  have hd : (pre ++ "," ++ post).data = pre.data ++ ',' :: post.data := by
    simp [String.data_append]
  have hm : ',' ∈ pre.data ++ ',' :: post.data :=
    List.mem_append_right _ (List.mem_cons_self _ _)
  unfold abbreviation_of
  rw [hd, if_pos hm, dropWhile_before_comma _ _ h]
  rfl

/-- C25: `to_analog` stores `units` and derives the abbreviation from it: absent when
`units` is absent or holds no comma; when `units` is `pre,post` with no comma in `pre`
(so the comma is the first one), the abbreviation is `post`, everything after that comma
up to the end, unmodified. -/
theorem to_analog_abbreviation (d : Device) (a₁ a₂ : Nat) (lo hi q : ℚ) :
    (d.to_analog none a₁ a₂ lo hi q).units_abbreviation = none ∧
    (∀ s : String, ',' ∉ s.data →
      (d.to_analog (some s) a₁ a₂ lo hi q).units_abbreviation = none) ∧
    (∀ pre post : String, ',' ∉ pre.data →
      (d.to_analog (some (pre ++ "," ++ post)) a₁ a₂ lo hi q).units_abbreviation
        = some post) ∧
    (∀ u : Option String, (d.to_analog u a₁ a₂ lo hi q).units = u) := by
  refine ⟨rfl, fun s hs => ?_, fun pre post hp => ?_, fun _ => rfl⟩
  · show abbreviation_of s = none
    unfold abbreviation_of
    rw [if_neg hs]
  · exact abbreviation_of_split pre post hp

theorem to_analog_abbreviation_witness :
    ((analog_at 0.5).to_analog (some ("Volt" ++ "," ++ "V,x")) 0 5 0 5 0.5).units_abbreviation
      = some "V,x" :=
  (to_analog_abbreviation (analog_at 0.5) 0 5 0 5 0.5).2.2.1 "Volt" "V,x" (by decide)

/-! ## Frames of the mutators -/

/-- C26: `update_value` changes nothing but the live value of the device's kind (the
result is the record with that one field replaced), and `record_value_to_hist` changes
nothing but the two history rings. -/
theorem mutators_frame (R : Rounding) (d : Device) (r : ℚ) :
    (d.type = DeviceType.Analog →
      d.update_value R r
        = { d with _value_analog := (d.update_value R r)._value_analog }) ∧
    (d.type = DeviceType.Digital →
      d.update_value R r
        = { d with _value_digital := (d.update_value R r)._value_digital }) ∧
    d.record_value_to_hist = { d with
      _value_analog_hist := d.record_value_to_hist._value_analog_hist,
      _value_digital_hist := d.record_value_to_hist._value_digital_hist } := by
  refine ⟨fun ht => ?_, fun ht => ?_, rfl⟩
  · cases d
    simp only at ht
    subst ht
    unfold Device.update_value
    simp only
    split_ifs <;> rfl
  · cases d
    simp only at ht
    subst ht
    unfold Device.update_value
    simp only
    split_ifs <;> rfl

theorem mutators_frame_witness :
    (analog_at 0.5).update_value ieee 0
      = { analog_at 0.5 with
          _value_analog := ((analog_at 0.5).update_value ieee 0)._value_analog } ∧
    (digital_example 0 none none [] [] []).update_value ieee 1
      = { digital_example 0 none none [] [] [] with
          _value_digital :=
            ((digital_example 0 none none [] [] []).update_value ieee 1)._value_digital } :=
  ⟨(mutators_frame ieee (analog_at 0.5) 0).1 rfl,
    (mutators_frame ieee (digital_example 0 none none [] [] []) 1).2.1 rfl⟩

/-! ## Gap width -/

theorem merge_intervals_touching (a b c : ℚ) (hab : a < b) (hbc : b < c) :
    merge_intervals [(a, b), (b, c)] = [(a, c)] := by
  have hle : pair_le (a, b) (b, c) := (pair_le_iff _ _).2 (Or.inl hab)
  have hs : sort_intervals [(a, b), (b, c)] = [(a, b), (b, c)] := by
    simp [sort_intervals, List.insertionSort, List.orderedInsert, hle]
  unfold merge_intervals
  rw [hs]
  simp [merge_loop, max_eq_right hbc.le]

/-- C27: for every band configuration and every `rel_min < rel_max`,
`find_uncovered_intervals` returns only gaps `(lo, hi)` with `lo < hi`; when the bands are
the two touching bands `(a, b)` and `(b, c)` they are merged into the one run `(a, c)` and
no gap lies between `a` and `c`. -/
theorem find_uncovered_intervals_no_empty_gap (d : Device) (lo hi : ℚ)
    (hlo : d.rel_min = some lo) (hhi : d.rel_max = some hi) (hr : lo < hi) :
    ∃ gaps, d.find_uncovered_intervals = some gaps ∧ (∀ g ∈ gaps, g.1 < g.2) ∧
      ∀ a b c : ℚ, a < b → b < c →
        d.warnings ++ d.cautions ++ d.optimals = [(a, b), (b, c)] →
        merge_intervals (d.warnings ++ d.cautions ++ d.optimals) = [(a, c)] ∧
        ∀ g ∈ gaps, g.2 ≤ a ∨ c ≤ g.1 := by
  by_cases hne : d.warnings ++ d.cautions ++ d.optimals = []
  · refine ⟨[(lo, hi)], by simp [Device.find_uncovered_intervals, hne, hlo, hhi], ?_, ?_⟩
    · intro g hg
      rw [List.mem_singleton.1 hg]
      exact hr
    · intro a b c _ _ hb
      rw [hne] at hb
      exact absurd hb (by simp)
  · refine ⟨_, find_uncovered_intervals_eq d lo hi hne hlo hhi, gaps_loop_lt hi _ lo, ?_⟩
    intro a b c hab hbc hb
    rw [hb, merge_intervals_touching a b c hab hbc]
    refine ⟨rfl, fun g hg => ?_⟩
    by_cases h1 : a > lo
    · by_cases h2 : max lo c < hi
      · simp only [gaps_loop, if_pos h1, if_pos h2, List.mem_cons, List.mem_singleton,
          List.not_mem_nil, or_false] at hg
        rcases hg with hg | hg <;> rw [hg]
        · exact Or.inl (le_refl _)
        · exact Or.inr (le_max_right _ _)
      · simp only [gaps_loop, if_pos h1, if_neg h2, List.mem_singleton] at hg
        rw [hg]
        exact Or.inl (le_refl _)
    · by_cases h2 : max lo c < hi
      · simp only [gaps_loop, if_neg h1, if_pos h2, List.mem_singleton] at hg
        rw [hg]
        exact Or.inr (le_max_right _ _)
      · simp only [gaps_loop, if_neg h1, if_neg h2, List.not_mem_nil] at hg

theorem find_uncovered_intervals_no_empty_gap_witness :
    ∃ gaps, (analog_example 0 10 [(1, 2)] [(2, 3)] []).find_uncovered_intervals = some gaps ∧
      (∀ g ∈ gaps, g.1 < g.2) ∧
      ∀ a b c : ℚ, a < b → b < c →
        (analog_example 0 10 [(1, 2)] [(2, 3)] []).warnings ++
          (analog_example 0 10 [(1, 2)] [(2, 3)] []).cautions ++
          (analog_example 0 10 [(1, 2)] [(2, 3)] []).optimals = [(a, b), (b, c)] →
        merge_intervals ((analog_example 0 10 [(1, 2)] [(2, 3)] []).warnings ++
          (analog_example 0 10 [(1, 2)] [(2, 3)] []).cautions ++
          (analog_example 0 10 [(1, 2)] [(2, 3)] []).optimals) = [(a, c)] ∧
        ∀ g ∈ gaps, g.2 ≤ a ∨ c ≤ g.1 :=
  find_uncovered_intervals_no_empty_gap (analog_example 0 10 [(1, 2)] [(2, 3)] []) 0 10
    rfl rfl (by decide)

/-! ## Resampling indices -/

/-- C28: on rings of 200 slots and for `width > 0`, every index
`200 * i / width` with `0 ≤ i < width` that `get_value_analog_transform` and
`get_value_digital_transform` compute is below 200 (whatever `width`, above 200 included),
and the product `200 * i` fits 64 bits for a 32-bit `width`; for `width ≤ 0` both
functions and `get_value_transform` return the empty sequence. -/
theorem hist_index_in_ring (R : Rounding) (d : Device) (width height : Int)
    (ha : d._value_analog_hist.length = 200) (hd : d._value_digital_hist.length = 200) :
    (0 < width → ∀ i : Nat, (i : Int) < width →
      hist_index d._value_analog_hist.length i width.toNat < d._value_analog_hist.length ∧
      hist_index d._value_digital_hist.length i width.toNat < d._value_digital_hist.length ∧
      hist_index 200 i width.toNat = 200 * i / width.toNat ∧
      (width < 2 ^ 31 → 200 * i < 2 ^ 64)) ∧
    (width ≤ 0 → d.get_value_analog_transform R width height = [] ∧
      d.get_value_digital_transform width height = [] ∧
      d.get_value_transform R width height = []) := by
  constructor
  · intro hw i hi
    have hi2 : i < width.toNat := by omega
    rw [ha, hd]
    exact ⟨hist_index_lt 200 i _ (by decide) hi2, hist_index_lt 200 i _ (by decide) hi2, rfl,
      fun hw2 => by omega⟩
  · intro hw
    have h0 : width.toNat = 0 := Int.toNat_eq_zero.2 hw
    have h1 : d.get_value_analog_transform R width height = [] := by
      simp [Device.get_value_analog_transform, h0]
    have h2 : d.get_value_digital_transform width height = [] := by
      simp [Device.get_value_digital_transform, h0]
    refine ⟨h1, h2, ?_⟩
    unfold Device.get_value_transform
    cases d.type
    · exact h1
    · exact h2

theorem hist_index_in_ring_witness :
    hist_index (analog_at 0.5)._value_analog_hist.length 299 (300 : Int).toNat
      < (analog_at 0.5)._value_analog_hist.length ∧
    (analog_at 0.5).get_value_transform ieee (-1) 3 = [] :=
  ⟨((hist_index_in_ring ieee (analog_at 0.5) 300 3 (List.length_replicate _ _)
      (List.length_replicate _ _)).1 (by decide) 299 (by decide)).1,
    ((hist_index_in_ring ieee (analog_at 0.5) (-1) 3 (List.length_replicate _ _)
      (List.length_replicate _ _)).2 (by decide)).2.2⟩

/-! ## Active-low labelling -/

/-- C30: for a Digital device with `is_active_low` present, `value_text` shows "Active"
exactly when `value != 0` differs from `is_active_low` (active-low and value `0`, or
active-high and value non-zero) and "Inactive" otherwise. -/
theorem value_text_active_low (R : Rounding) (float_to_string : ℚ → String) (d : Device)
    (v : ℚ) (b : Bool)
    (ht : d.type = DeviceType.Digital) (hb : d.is_active_low = some b) :
    ((b = true ∧ v = 0) ∨ (b = false ∧ v ≠ 0) →
      value_text R float_to_string d v = some (Element.bold (Element.text "Active"))) ∧
    ((b = true ∧ v ≠ 0) ∨ (b = false ∧ v = 0) →
      value_text R float_to_string d v
        = some (Element.bold (Element.text "Inactive"))) := by
  constructor
  · rintro (⟨h1, h2⟩ | ⟨h1, h2⟩) <;> simp [value_text, ht, hb, h1, h2]
  · rintro (⟨h1, h2⟩ | ⟨h1, h2⟩) <;> simp [value_text, ht, hb, h1, h2]

theorem value_text_active_low_witness :
    value_text ieee (fun _ => "") (digital_example 1 none none [] [] []) 1
      = some (Element.bold (Element.text "Active")) ∧
    value_text ieee (fun _ => "") (digital_example 0 none none [] [] []) 0
      = some (Element.bold (Element.text "Inactive")) :=
  ⟨(value_text_active_low ieee (fun _ => "") (digital_example 1 none none [] [] []) 1 false
      rfl rfl).1 (Or.inr ⟨rfl, by norm_num⟩),
    (value_text_active_low ieee (fun _ => "") (digital_example 0 none none [] [] []) 0 false
      rfl rfl).2 (Or.inr ⟨rfl, rfl⟩)⟩

/-! ## Entries and keys of the band map -/

theorem mem_map_assign_cases (k : ℚ × ℚ) (c : Color) (e : (ℚ × ℚ) × Color)
    (m : List ((ℚ × ℚ) × Color)) (h : e ∈ map_assign k c m) : e = (k, c) ∨ e ∈ m := by
  by_cases hk : e.1 = k
  · by_cases hc : e.2 = c
    · exact Or.inl (Prod.ext hk hc)
    · induction m with
      | nil =>
        simp only [map_assign, List.mem_singleton] at h
        exact Or.inl h
      | cons e0 rest ih =>
        unfold map_assign at h
        split_ifs at h with h1 h2
        · rcases List.mem_cons.1 h with h | h
          · exact Or.inl h
          · exact Or.inr h
        · rcases List.mem_cons.1 h with h | h
          · exact Or.inr (by rw [h]; exact List.mem_cons_self _ _)
          · rcases ih h with h | h
            · exact Or.inl h
            · exact Or.inr (List.mem_cons_of_mem _ h)
        · rcases List.mem_cons.1 h with h | h
          · exact absurd (by rw [h]) hc
          · exact Or.inr (List.mem_cons_of_mem _ h)
  · exact Or.inr ((mem_map_assign_of_ne k c e hk m).1 h)

theorem mem_add_to_map_cases (l : List (ℚ × ℚ)) (c : Color) (e : (ℚ × ℚ) × Color) :
    ∀ m : List ((ℚ × ℚ) × Color), e ∈ add_to_map m l c → e ∈ m ∨ (e.1 ∈ l ∧ e.2 = c) := by
  induction l with
  | nil => intro m h; exact Or.inl h
  | cons x l ih =>
    intro m h
    rcases ih _ h with h | ⟨h1, h2⟩
    · rcases mem_map_assign_cases x c e m h with h | h
      · exact Or.inr ⟨by rw [h]; exact List.mem_cons_self _ _, by rw [h]⟩
      · exact Or.inl h
    · exact Or.inr ⟨List.mem_cons_of_mem _ h1, h2⟩

/-- Every entry of the band map carries the colour of a list that holds its interval. -/
theorem band_map_entry_cases (d : Device) (gaps : List (ℚ × ℚ)) (m : List ((ℚ × ℚ) × Color))
    (hg : d.find_uncovered_intervals = some gaps) (hm : d.intervals_to_color = some m)
    (e : (ℚ × ℚ) × Color) (he : e ∈ m) :
    (e.1 ∈ gaps ∧ e.2 = Color.Default) ∨ (e.1 ∈ d.optimals ∧ e.2 = Color.Green1) ∨
    (e.1 ∈ d.cautions ∧ e.2 = Color.Yellow1) ∨ (e.1 ∈ d.warnings ∧ e.2 = Color.Red1) := by
  rw [intervals_to_color_eq d gaps hg, Option.some.injEq] at hm
  rw [← hm] at he
  rcases mem_add_to_map_cases _ _ e _ he with he | he
  · rcases mem_add_to_map_cases _ _ e _ he with he | he
    · rcases mem_add_to_map_cases _ _ e _ he with he | he
      · rcases mem_add_to_map_cases _ _ e _ he with he | he
        · exact absurd he (List.not_mem_nil _)
        · exact Or.inr (Or.inr (Or.inr he))
      · exact Or.inr (Or.inr (Or.inl he))
    · exact Or.inr (Or.inl he)
  · exact Or.inl he

theorem map_assign_key_keeps (k : ℚ × ℚ) (c : Color) (k' : ℚ × ℚ)
    (m : List ((ℚ × ℚ) × Color)) (h : k' ∈ m.map Prod.fst) :
    k' ∈ (map_assign k c m).map Prod.fst := by
  obtain ⟨e, he, hk⟩ := List.mem_map.1 h
  by_cases hkk : k' = k
  · exact List.mem_map.2 ⟨(k, c), mem_map_assign_self k c m, hkk.symm⟩
  · exact List.mem_map.2 ⟨e, (mem_map_assign_of_ne k c e (by rw [hk]; exact hkk) m).2 he, hk⟩

theorem add_to_map_key_keeps (l : List (ℚ × ℚ)) (c : Color) (k' : ℚ × ℚ) :
    ∀ m : List ((ℚ × ℚ) × Color), k' ∈ m.map Prod.fst →
      k' ∈ (add_to_map m l c).map Prod.fst := by
  induction l with
  | nil => intro m h; exact h
  | cons x l ih => intro m h; exact ih _ (map_assign_key_keeps x c k' m h)

theorem add_to_map_key_mem (l : List (ℚ × ℚ)) (c : Color) (k : ℚ × ℚ)
    (m : List ((ℚ × ℚ) × Color)) (h : k ∈ l) : k ∈ (add_to_map m l c).map Prod.fst :=
  List.mem_map.2 ⟨(k, c), add_to_map_mem l c k m h, rfl⟩

/-- The intervals of the band map are exactly the bands and the gaps. -/
theorem band_map_keys (d : Device) (gaps : List (ℚ × ℚ)) (m : List ((ℚ × ℚ) × Color))
    (hg : d.find_uncovered_intervals = some gaps) (hm : d.intervals_to_color = some m)
    (k : ℚ × ℚ) :
    k ∈ m.map Prod.fst ↔ k ∈ gaps ∨ k ∈ d.warnings ++ d.cautions ++ d.optimals := by
  constructor
  · intro hk
    obtain ⟨e, he, hek⟩ := List.mem_map.1 hk
    rw [← hek]
    rcases band_map_entry_cases d gaps m hg hm e he with h | h | h | h
    · exact Or.inl h.1
    · exact Or.inr (List.mem_append_right _ h.1)
    · exact Or.inr (List.mem_append_left _ (List.mem_append_right _ h.1))
    · exact Or.inr (List.mem_append_left _ (List.mem_append_left _ h.1))
  · rw [intervals_to_color_eq d gaps hg, Option.some.injEq] at hm
    rw [← hm]
    rintro (h | h)
    · exact add_to_map_key_mem _ _ _ _ h
    · rcases List.mem_append.1 h with h | h
      · rcases List.mem_append.1 h with h | h
        · exact add_to_map_key_keeps _ _ _ _ (add_to_map_key_keeps _ _ _ _
            (add_to_map_key_keeps _ _ _ _ (add_to_map_key_mem _ _ _ _ h)))
        · exact add_to_map_key_keeps _ _ _ _ (add_to_map_key_keeps _ _ _ _
            (add_to_map_key_mem _ _ _ _ h))
      · exact add_to_map_key_keeps _ _ _ _ (add_to_map_key_mem _ _ _ _ h)

theorem band_map_sorted (d : Device) (gaps : List (ℚ × ℚ)) (m : List ((ℚ × ℚ) × Color))
    (hg : d.find_uncovered_intervals = some gaps) (hm : d.intervals_to_color = some m) :
    m.Pairwise (fun a b => pair_lt a.1 b.1) := by
  rw [intervals_to_color_eq d gaps hg, Option.some.injEq] at hm
  rw [← hm]
  exact add_to_map_sorted _ _ _ (add_to_map_sorted _ _ _ (add_to_map_sorted _ _ _
    (add_to_map_sorted _ _ _ List.Pairwise.nil)))

/-- The gaps of a device whose bands lie in a non-empty range: they are the part of the
range no band covers, in ascending order, none empty. -/
theorem gaps_complement (d : Device) (lo hi : ℚ)
    (hlo : d.rel_min = some lo) (hhi : d.rel_max = some hi) (hr : lo < hi)
    (hb : ∀ b ∈ d.warnings ++ d.cautions ++ d.optimals, lo ≤ b.1 ∧ b.1 < b.2 ∧ b.2 ≤ hi) :
    ∃ gaps, d.find_uncovered_intervals = some gaps ∧
      (∀ v, Covered v gaps ↔
        lo ≤ v ∧ v < hi ∧ ¬ Covered v (d.warnings ++ d.cautions ++ d.optimals)) ∧
      gaps.Pairwise (fun a b => a.2 ≤ b.1) ∧ ∀ g ∈ gaps, g.1 < g.2 := by
  by_cases hne : d.warnings ++ d.cautions ++ d.optimals = []
  · refine ⟨[(lo, hi)], by simp [Device.find_uncovered_intervals, hne, hlo, hhi], ?_, ?_, ?_⟩
    · intro v
      rw [hne]
      simp [Covered]
    · simp
    · intro g hg
      rw [List.mem_singleton.1 hg]
      exact hr
  · refine ⟨_, find_uncovered_intervals_eq d lo hi hne hlo hhi, fun v => ?_, ?_,
      gaps_loop_lt hi _ lo⟩
    · rw [gaps_loop_covered v hi _ lo
        (merge_intervals_runsFrom lo _ (fun x hx => (hb x hx).1) (fun x hx => (hb x hx).2.1.le))
        (merge_intervals_le_max hi _ (fun x hx => (hb x hx).2.2)), merge_intervals_covered]
    · exact gaps_loop_pairwise (fun a b => a ≤ b) (fun _ _ _ h1 h2 => h1.trans h2) hi _ lo
        (merge_intervals_ends (fun a b => a ≤ b) (fun _ _ _ h1 h2 => h1.trans h2) _
          (fun x hx => (hb x hx).2.1.le))

/-! ## The band map tiles the range -/

theorem apart_symm : Symmetric Apart := fun _ _ h => Or.symm h

theorem apart_of_no_common (a b : ℚ × ℚ) (ha : a.1 < a.2) (hb : b.1 < b.2)
    (h : ∀ v, ¬ ((a.1 ≤ v ∧ v < a.2) ∧ (b.1 ≤ v ∧ v < b.2))) : Apart a b := by
  rcases le_total a.1 b.1 with h1 | h1
  · left
    by_contra h2
    exact h b.1 ⟨⟨h1, not_le.1 h2⟩, le_refl _, hb⟩
  · right
    by_contra h2
    exact h a.1 ⟨⟨le_refl _, ha⟩, h1, not_le.1 h2⟩

/-- Distinct intervals of the band map do not overlap when the bands do not. -/
theorem band_map_apart (d : Device) (lo hi : ℚ) (gaps : List (ℚ × ℚ))
    (hcov : ∀ v, Covered v gaps ↔
      lo ≤ v ∧ v < hi ∧ ¬ Covered v (d.warnings ++ d.cautions ++ d.optimals))
    (hgs : gaps.Pairwise (fun a b => a.2 ≤ b.1)) (hgl : ∀ g ∈ gaps, g.1 < g.2)
    (hb : ∀ b ∈ d.warnings ++ d.cautions ++ d.optimals, lo ≤ b.1 ∧ b.1 < b.2 ∧ b.2 ≤ hi)
    (hsep : (d.warnings ++ d.cautions ++ d.optimals).Pairwise Apart)
    (a b : ℚ × ℚ)
    (ha : a ∈ gaps ∨ a ∈ d.warnings ++ d.cautions ++ d.optimals)
    (hb' : b ∈ gaps ∨ b ∈ d.warnings ++ d.cautions ++ d.optimals) (hne : a ≠ b) :
    Apart a b := by
  have hgb : ∀ g ∈ gaps, ∀ x ∈ d.warnings ++ d.cautions ++ d.optimals, Apart g x := by
    intro g hg x hx
    refine apart_of_no_common g x (hgl g hg) (hb x hx).2.1 ?_
    rintro v ⟨h1, h2⟩
    exact ((hcov v).1 ⟨g, hg, h1⟩).2.2 ⟨x, hx, h2⟩
  rcases ha with ha | ha <;> rcases hb' with hb' | hb'
  · exact (hgs.imp (fun h => Or.inl h)).forall apart_symm ha hb' hne
  · exact hgb a ha b hb'
  · exact apart_symm (hgb b hb' a ha)
  · exact hsep.forall apart_symm ha hb' hne

theorem chained_of_cover (q : ℚ) :
    ∀ (K : List (ℚ × ℚ)) (p : ℚ), K.Pairwise (fun a b => a.2 ≤ b.1) →
      (∀ k ∈ K, k.1 < k.2) → (∀ v, Covered v K ↔ p ≤ v ∧ v < q) → p ≤ q →
      Chained p q K := by
  intro K
  induction K with
  | nil =>
    intro p _ _ hcov hpq
    have h : ¬ p < q := fun h => covered_nil p ((hcov p).2 ⟨le_refl _, h⟩)
    exact le_antisymm hpq (not_lt.1 h)
  | cons x rest ih =>
    intro p hs hl hcov _
    rw [List.pairwise_cons] at hs
    have hx : x.1 < x.2 := hl x (List.mem_cons_self _ _)
    have hxc : p ≤ x.1 ∧ x.1 < q := (hcov x.1).1 ⟨x, List.mem_cons_self _ _, le_refl _, hx⟩
    have hstart : x.1 = p := by
      by_contra hne
      have hlt : p < x.1 := lt_of_le_of_ne hxc.1 (fun h => hne h.symm)
      obtain ⟨c, hc, hc1, hc2⟩ := (hcov p).2 ⟨le_refl _, hlt.trans hxc.2⟩
      rcases List.mem_cons.1 hc with hc | hc
      · rw [hc] at hc1
        exact absurd hlt (not_lt.2 hc1)
      · exact absurd (hx.trans_le ((hs.1 c hc).trans hc1)) (not_lt.2 hlt.le)
    have hend : x.2 ≤ q := by
      by_contra hgt
      have hm : max q x.1 < x.2 := max_lt (not_le.1 hgt) hx
      have := (hcov (max q x.1)).1 ⟨x, List.mem_cons_self _ _, le_max_right _ _, hm⟩
      exact absurd this.2 (not_lt.2 (le_max_left _ _))
    refine ⟨hstart, ih x.2 hs.2 (fun k hk => hl k (List.mem_cons_of_mem _ hk)) ?_ hend⟩
    intro v
    constructor
    · rintro ⟨c, hc, hc1, hc2⟩
      exact ⟨(hs.1 c hc).trans hc1, ((hcov v).1 ⟨c, List.mem_cons_of_mem _ hc, hc1, hc2⟩).2⟩
    · rintro ⟨h1, h2⟩
      obtain ⟨c, hc, hc1, hc2⟩ := (hcov v).2 ⟨hstart ▸ (hx.le.trans h1), h2⟩
      rcases List.mem_cons.1 hc with hc | hc
      · rw [hc] at hc2
        exact absurd hc2 (not_lt.2 h1)
      · exact ⟨c, hc, hc1, hc2⟩

/-- Under the hypotheses of the gradient claims the intervals of the band map, in key
order, are laid end to end from `rel_min` to `rel_max`. -/
theorem band_map_chained (d : Device) (lo hi : ℚ)
    (hlo : d.rel_min = some lo) (hhi : d.rel_max = some hi) (hr : lo < hi)
    (hb : ∀ b ∈ d.warnings ++ d.cautions ++ d.optimals, lo ≤ b.1 ∧ b.1 < b.2 ∧ b.2 ≤ hi)
    (hsep : (d.warnings ++ d.cautions ++ d.optimals).Pairwise Apart) :
    ∃ gaps m, d.find_uncovered_intervals = some gaps ∧ d.intervals_to_color = some m ∧
      (∀ v, Covered v gaps ↔
        lo ≤ v ∧ v < hi ∧ ¬ Covered v (d.warnings ++ d.cautions ++ d.optimals)) ∧
      m.Pairwise (fun a b => pair_lt a.1 b.1) ∧ (∀ e ∈ m, e.1.1 < e.1.2) ∧
      Chained lo hi (m.map Prod.fst) := by
  obtain ⟨gaps, hg, hcov, hgs, hgl⟩ := gaps_complement d lo hi hlo hhi hr hb
  have hm := intervals_to_color_eq d gaps hg
  have hkeys := band_map_keys d gaps _ hg hm
  have hsorted := band_map_sorted d gaps _ hg hm
  have hlt : ∀ k ∈ (add_to_map (add_to_map (add_to_map (add_to_map [] d.warnings Color.Red1)
      d.cautions Color.Yellow1) d.optimals Color.Green1) gaps Color.Default).map Prod.fst,
      k.1 < k.2 := by
    intro k hk
    rcases (hkeys k).1 hk with h | h
    · exact hgl k h
    · exact (hb k h).2.1
  refine ⟨gaps, _, hg, hm, hcov, hsorted, fun e he => hlt e.1 (List.mem_map_of_mem _ he), ?_⟩
  refine chained_of_cover hi _ lo ?_ hlt ?_ hr.le
  · refine (List.pairwise_map.2 hsorted).imp_of_mem ?_
    intro a b ha hb' hab
    have hne : a ≠ b := fun h => pair_lt_irrefl b (h ▸ hab)
    have h1 : a.1 ≤ b.1 := by
      unfold pair_lt at hab
      rcases hab with h | ⟨h, _⟩
      · exact h.le
      · exact not_lt.1 h
    rcases band_map_apart d lo hi gaps hcov hgs hgl hb hsep a b ((hkeys a).1 ha)
        ((hkeys b).1 hb') hne with h | h
    · exact h
    · exact absurd ((hlt b hb').trans_le (h.trans h1)) (lt_irrefl _)
  · intro v
    constructor
    · rintro ⟨k, hk, h1, h2⟩
      rcases (hkeys k).1 hk with h | h
      · exact ⟨((hcov v).1 ⟨k, h, h1, h2⟩).1, ((hcov v).1 ⟨k, h, h1, h2⟩).2.1⟩
      · exact ⟨(hb k h).1.trans h1, h2.trans_le (hb k h).2.2⟩
    · rintro ⟨h1, h2⟩
      by_cases hc : Covered v (d.warnings ++ d.cautions ++ d.optimals)
      · obtain ⟨k, hk, hv⟩ := hc
        exact ⟨k, (hkeys k).2 (Or.inr hk), hv⟩
      · obtain ⟨k, hk, hv⟩ := (hcov v).2 ⟨h1, h2, hc⟩
        exact ⟨k, (hkeys k).2 (Or.inl hk), hv⟩

/-! ## Gradient stops -/

/-- With `rel_min = rel_max` the quotient `normalize` computes is not finite. -/
theorem normalize_degenerate :
    (analog_example 1 1 [] [] []).normalize ieee 1 = some none := by
  decide!

theorem not_apart_of_common (a b : ℚ × ℚ) (v : ℚ) (ha : a.1 ≤ v ∧ v < a.2)
    (hb : b.1 ≤ v ∧ v < b.2) : ¬ Apart a b := by
  rintro (h | h)
  · exact absurd (ha.2.trans_le (h.trans hb.1)) (lt_irrefl _)
  · exact absurd (hb.2.trans_le (h.trans ha.1)) (lt_irrefl _)

theorem in_intervals_false_of_apart (v : ℚ) (k : ℚ × ℚ) (hk : k.1 ≤ v ∧ v < k.2)
    (l : List (ℚ × ℚ)) (h : ∀ a ∈ l, Apart a k) : in_intervals v l = false := by
  rw [← Bool.not_eq_true, in_intervals_iff]
  rintro ⟨a, ha, hv⟩
  exact not_apart_of_common a k v hv hk (h a ha)

/-- C29: for an Analog device with `rel_min < rel_max` whose bands all satisfy
`rel_min ≤ lo < hi ≤ rel_max` and do not overlap one another, every band-map entry gives
the classification of the values of its interval: when the real-world value of `v`, the
scaled value `value_color` computes, lies in the interval of an entry, `value_color` of
`v` is the colour of the entry; and every scaled value in `[rel_min, rel_max)` lies in
the interval of some entry. -/
theorem gradient_matches_classification (R : Rounding) (d : Device) (lo hi : ℚ)
    (ht : d.type = DeviceType.Analog)
    (hlo : d.rel_min = some lo) (hhi : d.rel_max = some hi) (hr : lo < hi)
    (hb : ∀ b ∈ d.warnings ++ d.cautions ++ d.optimals, lo ≤ b.1 ∧ b.1 < b.2 ∧ b.2 ≤ hi)
    (hsep : (d.warnings ++ d.cautions ++ d.optimals).Pairwise Apart) :
    ∃ m, d.intervals_to_color = some m ∧
      (∀ e ∈ m, ∀ v : ℚ, e.1.1 ≤ scale_value R v hi lo → scale_value R v hi lo < e.1.2 →
        value_color R d v = some (Decorator.color e.2)) ∧
      (∀ v : ℚ, lo ≤ scale_value R v hi lo → scale_value R v hi lo < hi →
        ∃ e ∈ m, e.1.1 ≤ scale_value R v hi lo ∧ scale_value R v hi lo < e.1.2 ∧
          value_color R d v = some (Decorator.color e.2)) := by
  obtain ⟨gaps, m, hg, hm, hcov, _, _, _⟩ := band_map_chained d lo hi hlo hhi hr hb hsep
  have hkeys := band_map_keys d gaps m hg hm
  rw [List.pairwise_append, List.pairwise_append] at hsep
  obtain ⟨⟨_, _, hwc⟩, _, hwco⟩ := hsep
  have hmain : ∀ e ∈ m, ∀ v : ℚ, e.1.1 ≤ scale_value R v hi lo →
      scale_value R v hi lo < e.1.2 → value_color R d v = some (Decorator.color e.2) := by
    intro e he v h1 h2
    have hval : value_color R d v = some (Decorator.color
        (if in_intervals (scale_value R v hi lo) d.warnings then Color.Red1
         else if in_intervals (scale_value R v hi lo) d.cautions then Color.Yellow1
         else if in_intervals (scale_value R v hi lo) d.optimals then Color.Green1
         else Color.Default)) := by
      simp only [value_color, ht, hlo, hhi, Device.is_warning, Device.is_caution,
        Device.is_optimal]
      split_ifs <;> rfl
    rw [hval]
    rcases band_map_entry_cases d gaps m hg hm e he with h | h | h | h
    · have hn := ((hcov _).1 ⟨e.1, h.1, h1, h2⟩).2.2
      rw [covered_append, covered_append, not_or, not_or] at hn
      have hW : in_intervals (scale_value R v hi lo) d.warnings = false := by
        rw [← Bool.not_eq_true, in_intervals_iff]
        exact hn.1.1
      have hC : in_intervals (scale_value R v hi lo) d.cautions = false := by
        rw [← Bool.not_eq_true, in_intervals_iff]
        exact hn.1.2
      have hO : in_intervals (scale_value R v hi lo) d.optimals = false := by
        rw [← Bool.not_eq_true, in_intervals_iff]
        exact hn.2
      simp [hW, hC, hO, h.2]
    · have hW := in_intervals_false_of_apart _ e.1 ⟨h1, h2⟩ d.warnings
        (fun a ha => hwco a (List.mem_append_left _ ha) e.1 h.1)
      have hC := in_intervals_false_of_apart _ e.1 ⟨h1, h2⟩ d.cautions
        (fun a ha => hwco a (List.mem_append_right _ ha) e.1 h.1)
      have hO : in_intervals (scale_value R v hi lo) d.optimals = true :=
        (in_intervals_iff _ _).2 ⟨e.1, h.1, h1, h2⟩
      simp [hW, hC, hO, h.2]
    · have hW := in_intervals_false_of_apart _ e.1 ⟨h1, h2⟩ d.warnings
        (fun a ha => hwc a ha e.1 h.1)
      have hC : in_intervals (scale_value R v hi lo) d.cautions = true :=
        (in_intervals_iff _ _).2 ⟨e.1, h.1, h1, h2⟩
      simp [hW, hC, h.2]
    · have hW : in_intervals (scale_value R v hi lo) d.warnings = true :=
        (in_intervals_iff _ _).2 ⟨e.1, h.1, h1, h2⟩
      simp [hW, h.2]
  refine ⟨m, hm, hmain, fun v h1 h2 => ?_⟩
  have hk : ∃ k ∈ m.map Prod.fst, k.1 ≤ scale_value R v hi lo ∧ scale_value R v hi lo < k.2 := by
    by_cases hc : Covered (scale_value R v hi lo) (d.warnings ++ d.cautions ++ d.optimals)
    · obtain ⟨k, hk, hv⟩ := hc
      exact ⟨k, (hkeys k).2 (Or.inr hk), hv⟩
    · obtain ⟨k, hk, hv⟩ := (hcov _).2 ⟨h1, h2, hc⟩
      exact ⟨k, (hkeys k).2 (Or.inl hk), hv⟩
  obtain ⟨k, hk, hv1, hv2⟩ := hk
  obtain ⟨e, he, hek⟩ := List.mem_map.1 hk
  subst hek
  exact ⟨e, he, hv1, hv2, hmain e he v hv1 hv2⟩

theorem gradient_matches_classification_witness :
    (analog_example 0 10 [(0, 2)] [(2, 3)] [(5, 6)]).intervals_to_color
      = some [((0, 2), Color.Red1), ((2, 3), Color.Yellow1), ((3, 5), Color.Default),
          ((5, 6), Color.Green1), ((6, 10), Color.Default)] ∧
    scale_value ieee (1 / 4) 10 0 = 5 / 2 ∧
    value_color ieee (analog_example 0 10 [(0, 2)] [(2, 3)] [(5, 6)]) (1 / 4)
      = some (Decorator.color Color.Yellow1) ∧
    ∃ m, (analog_example 0 10 [(0, 2)] [(2, 3)] [(5, 6)]).intervals_to_color = some m ∧
      (∀ e ∈ m, ∀ v : ℚ, e.1.1 ≤ scale_value ieee v 10 0 → scale_value ieee v 10 0 < e.1.2 →
        value_color ieee (analog_example 0 10 [(0, 2)] [(2, 3)] [(5, 6)]) v
          = some (Decorator.color e.2)) ∧
      (∀ v : ℚ, 0 ≤ scale_value ieee v 10 0 → scale_value ieee v 10 0 < 10 →
        ∃ e ∈ m, e.1.1 ≤ scale_value ieee v 10 0 ∧ scale_value ieee v 10 0 < e.1.2 ∧
          value_color ieee (analog_example 0 10 [(0, 2)] [(2, 3)] [(5, 6)]) v
            = some (Decorator.color e.2)) :=
  ⟨by decide, by decide!, by decide!,
    gradient_matches_classification ieee (analog_example 0 10 [(0, 2)] [(2, 3)] [(5, 6)]) 0 10
      rfl rfl rfl (by decide) (by decide)
      (by
        simp only [analog_example, List.cons_append, List.nil_append, List.pairwise_cons,
          List.mem_cons, List.mem_singleton, List.not_mem_nil, Apart]
        norm_num)⟩

end Devices
